import Mathlib

/-!
# Simple-Mesh-Editor: `Lab 01/meshSubdivision.cpp`

A shallow embedding of `myObjType::subdivide` and `myObjType::relax` and the
properties of the two passes.

Conventions of the embedding.

* Handles (`int` in the source) are natural numbers; the arrays `vlist`,
  `tlist`, `nlist`, `vToTList`, the bitset `selectedT` and the adjacency table
  `fnlist` are total tables indexed by handles (array capacity is not modelled).
* Coordinates are values of `double` (IEEE 754 binary64) with the operators `+`
  and `/ 2` in the default rounding mode; the passes only copy them or average
  two of them.
* `std::list<int>` is `List Nat`: `push_back` appends, `remove` deletes every
  occurrence, `clear` gives the empty list.
* `std::unordered_map` is an association list with unique keys.
-/

namespace MeshSubdivision

set_option exponentiation.threshold 5000

/-- A value of the type `double` (IEEE 754 binary64). Every finite `double` is a whole
multiple of `2^-1074`: `fin neg mag` is the number `± mag * 2^-1074` with its sign bit,
so that `fin true 0` is `-0.0`; `inf neg` is `±inf`; `nan` stands for every NaN. -/
inductive Double where
  | fin (neg : Bool) (mag : Nat)
  | inf (neg : Bool)
  | nan
  deriving DecidableEq

/-- The largest `e` below `lo + 2^n` with `lo <= e` and `2^e <= k`, by bisection. -/
def log2From : Nat → Nat → Nat → Nat
  | 0, lo, _ => lo
  | n + 1, lo, k => if 2 ^ (lo + 2 ^ n) ≤ k then log2From n (lo + 2 ^ n) k else log2From n lo k

/-- The number of bits of `k` beyond the 53 bits of a binary64 significand. -/
def excess (k : Nat) : Nat := (log2From 12 0 k + 1) - 53

/-- The quotient of `k` by `2^s`, rounded to nearest, ties to even. -/
def roundShift (k s : Nat) : Nat :=
  if 2 * (k % 2 ^ s) > 2 ^ s ∨ (2 * (k % 2 ^ s) = 2 ^ s ∧ (k / 2 ^ s) % 2 = 1) then k / 2 ^ s + 1
  else k / 2 ^ s

/-- The `double` nearest to `± k * 2^-1074` (round to nearest, ties to even, the
default rounding mode): the significand keeps 53 bits, and a result of `2^1024` or
more overflows to infinity. -/
def Double.ofMag (neg : Bool) (k : Nat) : Double :=
  if roundShift k (excess k) * 2 ^ excess k ≥ 2 ^ 2098 then Double.inf neg
  else Double.fin neg (roundShift k (excess k) * 2 ^ excess k)

/-- The operator `+` on `double`: the exact sum, rounded. An exact sum of zero is `+0.0`
unless both operands are negative zeros; `inf + -inf` and every sum with a NaN are NaN. -/
def dadd : Double → Double → Double
  | Double.nan, _ => Double.nan
  | _, Double.nan => Double.nan
  | Double.inf a, Double.inf b => if a = b then Double.inf a else Double.nan
  | Double.inf a, Double.fin _ _ => Double.inf a
  | Double.fin _ _, Double.inf b => Double.inf b
  | Double.fin a x, Double.fin b y =>
    if a = b then Double.ofMag a (x + y)
    else if x = y then Double.fin false 0
    else if y < x then Double.ofMag a (x - y)
    else Double.ofMag b (y - x)

/-- The expression `x / 2` on a `double` `x`: the `int` `2` converts to `2.0` and the
quotient is rounded to nearest, ties to even. Halving is exact unless the result is
subnormal. -/
def dhalf : Double → Double
  | Double.nan => Double.nan
  | Double.inf a => Double.inf a
  | Double.fin a k => Double.fin a (roundShift k (max (excess k) 1) * 2 ^ (max (excess k) 1 - 1))

/-- The conversion of a non-negative `int` to `double`. -/
def Double.ofNat (n : Nat) : Double := Double.ofMag false (n * 2 ^ 1074)

instance (n : Nat) : OfNat Double n := ⟨Double.ofNat n⟩

/-- Coordinates of positions and normals (`double` in the source). -/
abbrev Coord := Double

/-- Modelled from the spec: the oriented-triangle handle of `mesh.h` (not part of
the sources at hand), a triangle handle together with a version. Versions `0..2`
are the three edges of the triangle in its own winding, `3..5` the same edges
reversed. -/
structure OrTri where
  tri : Nat
  version : Nat
  deriving DecidableEq

/-- Modelled from the spec: `makeOrTri` of `mesh.h`, the handle of version `v` of
triangle `t`. -/
def makeOrTri (t v : Nat) : OrTri := ⟨t, v⟩

/-- Modelled from the spec: `idx` of `mesh.h`, the triangle of an oriented handle. -/
def idx (ot : OrTri) : Nat := ot.tri

/-- Modelled from the spec: `ver` of `mesh.h`, the version of an oriented handle. -/
def ver (ot : OrTri) : Nat := ot.version

/-- The fields of `myObjType` that `subdivide` and `relax` read or write. -/
structure myObjType where
  vcount : Nat
  tcount : Nat
  vlist : Nat → Nat → Coord
  tlist : Nat → Nat → Nat
  nlist : Nat → Nat → Coord
  vToTList : Nat → List Nat
  selectedT : Nat → Bool
  fnlist : Nat → Nat → OrTri

/-- Modelled from the spec: `fnext` of `mesh.h`, the across-edge navigation
primitive, a lookup in the adjacency table `fnlist`. -/
def fnext (m : myObjType) (ot : OrTri) : OrTri := m.fnlist (idx ot) (ver ot)

/-- Modelled from the spec: `org` of `mesh.h`, the origin of the directed edge of
an oriented handle. -/
def org (m : myObjType) (ot : OrTri) : Nat :=
  if ver ot < 3 then m.tlist (idx ot) (ver ot) else m.tlist (idx ot) ((ver ot + 1) % 3)

/-- Modelled from the spec: `dest` of `mesh.h`, the destination of the directed
edge of an oriented handle. -/
def dest (m : myObjType) (ot : OrTri) : Nat :=
  if ver ot < 3 then m.tlist (idx ot) ((ver ot + 1) % 3) else m.tlist (idx ot) (ver ot % 3)

/-- Assignment `f[a] = x` to a one-dimensional table. -/
def set1 {α : Type} (f : Nat → α) (a : Nat) (x : α) : Nat → α :=
  fun a' => if a' = a then x else f a'

/-- Assignment `f[a][b] = x` to a two-dimensional table. -/
def set2 {α : Type} (f : Nat → Nat → α) (a b : Nat) (x : α) : Nat → Nat → α :=
  fun a' b' => if a' = a ∧ b' = b then x else f a' b'

/-- The call `l.push_back(x)` of `std::list`. -/
def push_back (l : List Nat) (x : Nat) : List Nat := l ++ [x]

/-- The call `l.remove(x)` of `std::list`: every element equal to `x` goes. -/
def remove (l : List Nat) (x : Nat) : List Nat := l.filter (fun y => y ≠ x)

/-- The function `average`, one component at a time. -/
def average (v1 v2 : Nat → Coord) : Nat → Coord :=
  fun k => dhalf (dadd (v1 k) (v2 k))

/-- The type of `edgeVertexMap`. -/
abbrev EdgeMap := List ((Nat × Nat) × Nat)

/-- The array `edges` of one iteration of `subdivide` (lines 58-61). -/
def edgesOf (m : myObjType) (t : Nat) (i : Nat) : Nat × Nat :=
  match i with
  | 0 => (min (m.tlist t 0) (m.tlist t 1), max (m.tlist t 0) (m.tlist t 1))
  | 1 => (min (m.tlist t 1) (m.tlist t 2), max (m.tlist t 1) (m.tlist t 2))
  | _ => (min (m.tlist t 0) (m.tlist t 2), max (m.tlist t 0) (m.tlist t 2))

/-- The state of the midpoint loop (lines 65-81). -/
structure MidState where
  mesh : myObjType
  edgeVertexMap : EdgeMap
  newMidpointVertices : Nat → Nat

/-- One iteration of the midpoint loop (lines 67-80). -/
def midpointStep (t : Nat) (edges : Nat → Nat × Nat) (s : MidState) (i : Nat) : MidState :=
  match s.edgeVertexMap.lookup (edges i) with
  | none =>
    let vc := s.mesh.vcount + 1
    { mesh :=
        { s.mesh with
          vcount := vc
          vlist := set1 s.mesh.vlist vc
            (average (s.mesh.vlist (s.mesh.tlist t i)) (s.mesh.vlist (s.mesh.tlist t ((i + 1) % 3))))
          vToTList := set1 s.mesh.vToTList vc [] }
      edgeVertexMap := (edges i, vc) :: s.edgeVertexMap
      newMidpointVertices := set1 s.newMidpointVertices i vc }
  | some x => { s with newMidpointVertices := set1 s.newMidpointVertices i x }

/-- The loop `for j: vToTList[tlist[h][j]].push_back(h)` over the three vertices of
triangle `h` (lines 97-100). -/
def pushIncidence (tl : Nat → Nat → Nat) (h : Nat) (vt : Nat → List Nat) : Nat → List Nat :=
  [0, 1, 2].foldl (fun acc j => set1 acc (tl h j) (push_back (acc (tl h j)) h)) vt

/-- One iteration of the corner loop (lines 86-102). -/
def cornerStep (t : Nat) (nm : Nat → Nat) (m : myObjType) (i : Nat) : myObjType :=
  let tc := m.tcount + 1
  let tl1 := set2 m.tlist tc 0 (m.tlist t i)
  let tl2 := set2 tl1 tc 1 (nm i)
  let tl3 := set2 tl2 tc 2 (nm ((i + 2) % 3))
  let nl1 := set2 m.nlist tc 0 (m.nlist t 0)
  let nl2 := set2 nl1 tc 1 (nl1 t 1)
  let nl3 := set2 nl2 tc 2 (nl2 t 2)
  { m with
    tcount := tc
    tlist := tl3
    nlist := nl3
    vToTList := pushIncidence tl3 tc m.vToTList
    selectedT := set1 m.selectedT tc true }

/-- One iteration of the central-triangle loop (lines 108-111). -/
def centralStep (t : Nat) (nm : Nat → Nat) (m : myObjType) (i : Nat) : myObjType :=
  let vt1 := set1 m.vToTList (m.tlist t i) (remove (m.vToTList (m.tlist t i)) t)
  let tl1 := set2 m.tlist t i (nm i)
  { m with
    tlist := tl1
    vToTList := set1 vt1 (tl1 t i) (push_back (vt1 (tl1 t i)) t) }

/-- The loop of lines 133-137: copy the normal of `a` to triangle `h` and enter `h`
in the incidence lists of its three vertices, interleaved as in the source. -/
def stitchCopy (tl : Nat → Nat → Nat) (a h : Nat)
    (s : (Nat → Nat → Coord) × (Nat → List Nat)) : (Nat → Nat → Coord) × (Nat → List Nat) :=
  [0, 1, 2].foldl
    (fun acc j => (set2 acc.1 h j (acc.1 a j), set1 acc.2 (tl h j) (push_back (acc.2 (tl h j)) h))) s

/-- One iteration of the boundary loop (lines 119-146). -/
def stitchStep (t : Nat) (nm : Nat → Nat) (m : myObjType) (v : Nat) : myObjType :=
  let adjacentTriangle := fnext m (makeOrTri t v)
  let adjacentTriangleVer := ver adjacentTriangle % 3
  let adjacentTriangleIdx := idx adjacentTriangle
  let isBoundary := !m.selectedT adjacentTriangleIdx
  if isBoundary then
    let tc := m.tcount + 1
    let tl1 := set2 m.tlist tc 0 (m.tlist adjacentTriangleIdx ((adjacentTriangleVer + 1) % 3))
    let tl2 := set2 tl1 tc 1 (tl1 adjacentTriangleIdx ((adjacentTriangleVer + 2) % 3))
    let tl3 := set2 tl2 tc 2 (nm v)
    let nv := stitchCopy tl3 adjacentTriangleIdx tc (m.nlist, m.vToTList)
    let vt1 := set1 nv.2 (nm v) (push_back (nv.2 (nm v)) adjacentTriangleIdx)
    let old := tl3 adjacentTriangleIdx ((adjacentTriangleVer + 1) % 3)
    let vt2 := set1 vt1 old (remove (vt1 old) adjacentTriangleIdx)
    { m with
      tcount := tc
      tlist := set2 tl3 adjacentTriangleIdx ((adjacentTriangleVer + 1) % 3) (nm v)
      nlist := nv.1
      vToTList := vt2 }
  else m

/-- The state of the outer loop of `subdivide`: the mesh and `edgeVertexMap`. -/
structure SubdivideState where
  mesh : myObjType
  edgeVertexMap : EdgeMap

/-- The midpoint loop of triangle `t` (lines 58-81), started from the state `s` of
the outer loop. -/
def midpoints (s : SubdivideState) (t : Nat) : MidState :=
  [0, 1, 2].foldl (midpointStep t (edgesOf s.mesh t)) ⟨s.mesh, s.edgeVertexMap, fun _ => 0⟩

/-- The mesh after the corner loop of triangle `t` (lines 84-103). -/
def cornerMesh (s : SubdivideState) (t : Nat) : myObjType :=
  [0, 1, 2].foldl (cornerStep t (midpoints s t).newMidpointVertices) (midpoints s t).mesh

/-- The mesh after the central-triangle loop of triangle `t` (lines 106-112). -/
def centralMesh (s : SubdivideState) (t : Nat) : myObjType :=
  [0, 1, 2].foldl (centralStep t (midpoints s t).newMidpointVertices) (cornerMesh s t)

/-- The mesh after the first `n` iterations of the boundary loop of triangle `t`
(lines 117-147). -/
def stitched (s : SubdivideState) (t : Nat) (n : Nat) : myObjType :=
  (List.range n).foldl (stitchStep t (midpoints s t).newMidpointVertices) (centralMesh s t)

/-- The body of the outer loop of `subdivide` for triangle `t` (lines 53-147). -/
def subdivideTriangle (s : SubdivideState) (t : Nat) : SubdivideState :=
  if s.mesh.selectedT t = false then s
  else ⟨stitched s t 3, (midpoints s t).edgeVertexMap⟩

/-- The state of the outer loop of `subdivide` after the triangles `1..p`. -/
def stateAfter (m : myObjType) (p : Nat) : SubdivideState :=
  (List.range' 1 p).foldl subdivideTriangle ⟨m, []⟩

/-- The outer loop of `subdivide` (lines 48-148): the triangles `1..originalTCount`
in order, from an empty `edgeVertexMap`. -/
def subdivideLoop (m : myObjType) : SubdivideState :=
  stateAfter m m.tcount

/-- Modelled from the spec: the derived-attribute routines `computeFnlist` and
`computeNormals` of the mesh object, whose bodies are not part of the sources at
hand. Each recomputes one table from the mesh and touches nothing else;
`computeVertexNormals` writes only vertex normals, which neither pass reads, and
has no effect on the fields modelled here. -/
structure Derived where
  adjacency : myObjType → Nat → Nat → OrTri
  faceNormals : myObjType → Nat → Nat → Coord

/-- Modelled from the spec: `computeFnlist`, recompute-face-adjacency. -/
def computeFnlist (d : Derived) (m : myObjType) : myObjType :=
  { m with fnlist := d.adjacency m }

/-- Modelled from the spec: `computeNormals`, recompute-face-normals. -/
def computeNormals (d : Derived) (m : myObjType) : myObjType :=
  { m with nlist := d.faceNormals m }

/-- Modelled from the spec: `computeVertexNormals`, recompute-vertex-normals. -/
def computeVertexNormals (_d : Derived) (m : myObjType) : myObjType := m

/-- The method `myObjType::subdivide` (lines 42-152). -/
def subdivide (d : Derived) (m : myObjType) : myObjType :=
  computeVertexNormals d (computeFnlist d (subdivideLoop m).mesh)

/-- The heap routines behind `std::priority_queue`: `push` is `push_back` followed
by `push_heap`, `pop` is `pop_heap` followed by `pop_back`, `top` is `front`. They
are standard-library code, taken as a parameter. -/
structure HeapOps where
  push_heap : (OrTri → OrTri → Bool) → List OrTri → List OrTri
  pop_heap : (OrTri → OrTri → Bool) → List OrTri → List OrTri

/-- What every implementation of the heap routines does whatever the comparator:
it rearranges the vector and leaves its length alone. -/
def HeapOps.Lawful (H : HeapOps) : Prop :=
  (∀ comp c, (H.push_heap comp c).length = c.length) ∧
  (∀ comp c, (H.pop_heap comp c).length = c.length)

/-- The loop of `std::__push_heap` in GNU libstdc++ (`bits/stl_heap.h`): the hole
moves up while the parent compares below `value`. -/
def pushHeapAux (comp : OrTri → OrTri → Bool) (topIndex : Nat) (value : OrTri) :
    Nat → List OrTri → Nat → List OrTri
  | 0, c, holeIndex => c.set holeIndex value
  | fuel + 1, c, holeIndex =>
    let parent := (holeIndex - 1) / 2
    if holeIndex > topIndex ∧ comp (c.getD parent value) value = true then
      pushHeapAux comp topIndex value fuel (c.set holeIndex (c.getD parent value)) parent
    else c.set holeIndex value

/-- The routine `std::push_heap` of GNU libstdc++ on the whole vector. -/
def gnuPushHeap (comp : OrTri → OrTri → Bool) (c : List OrTri) : List OrTri :=
  match c.getLast? with
  | none => c
  | some value => pushHeapAux comp 0 value c.length c (c.length - 1)

/-- The first loop of `std::__adjust_heap` in GNU libstdc++: the hole moves down to
the child that does not compare below its sibling. Returns the vector, the hole and
`secondChild`. -/
def adjustHeapAux (comp : OrTri → OrTri → Bool) (len : Nat) (value : OrTri) :
    Nat → List OrTri → Nat → Nat → List OrTri × Nat × Nat
  | 0, c, holeIndex, secondChild => (c, holeIndex, secondChild)
  | fuel + 1, c, holeIndex, secondChild =>
    if secondChild < (len - 1) / 2 then
      let sc := 2 * (secondChild + 1)
      let sc1 := if comp (c.getD sc value) (c.getD (sc - 1) value) = true then sc - 1 else sc
      adjustHeapAux comp len value fuel (c.set holeIndex (c.getD sc1 value)) sc1 sc1
    else (c, holeIndex, secondChild)

/-- The routine `std::__adjust_heap` of GNU libstdc++ with `holeIndex = 0`. -/
def adjustHeap (comp : OrTri → OrTri → Bool) (len : Nat) (value : OrTri)
    (c : List OrTri) : List OrTri :=
  let r := adjustHeapAux comp len value len c 0 0
  let c1 := r.1
  let holeIndex := r.2.1
  let secondChild := r.2.2
  if len % 2 = 0 ∧ secondChild = (len - 2) / 2 then
    let sc := 2 * (secondChild + 1)
    pushHeapAux comp 0 value len (c1.set holeIndex (c1.getD (sc - 1) value)) (sc - 1)
  else pushHeapAux comp 0 value len c1 holeIndex

/-- The routine `std::pop_heap` of GNU libstdc++ on the whole vector: the former
top ends in the last slot. -/
def gnuPopHeap (comp : OrTri → OrTri → Bool) (c : List OrTri) : List OrTri :=
  if c.length > 1 then
    match c.getLast?, c.head? with
    | some value, some top => adjustHeap comp (c.length - 1) value (c.set (c.length - 1) top)
    | _, _ => c
  else c

/-- The comparator `cmp` of `relax` (lines 157-166): the difference of the two
valence sums in `size_t` arithmetic (64 bits). -/
def cmp (m : myObjType) (e1 e2 : OrTri) : Nat :=
  ((((m.vToTList (org m e1)).length : Int) + (m.vToTList (dest m e1)).length
      - (m.vToTList (org m e2)).length - (m.vToTList (dest m e2)).length) % 2 ^ 64).toNat

/-- The comparator as the heap routines use it: the `size_t` result converted to
`bool`. -/
def cmpBool (m : myObjType) (e1 e2 : OrTri) : Bool := decide (cmp m e1 e2 ≠ 0)

/-- The call `edgeQueue.push(x)`. -/
def queuePush (H : HeapOps) (m : myObjType) (q : List OrTri) (x : OrTri) : List OrTri :=
  H.push_heap (cmpBool m) (q ++ [x])

/-- The call `edgeQueue.pop()`. -/
def queuePop (H : HeapOps) (m : myObjType) (q : List OrTri) : List OrTri :=
  (H.pop_heap (cmpBool m) q).dropLast

/-- One iteration of the inner candidate loop of `relax` (lines 183-191). -/
def enqueueEdge (H : HeapOps) (m : myObjType) (t : Nat) (q : List OrTri) (i : Nat) :
    List OrTri :=
  let tri := makeOrTri t i
  let adjacentTri := fnext m tri
  let adjacentTriidx := idx adjacentTri
  if adjacentTriidx = t ∨ m.selectedT adjacentTriidx = false then q
  else queuePush H m q tri

/-- One iteration of the outer candidate loop of `relax` (lines 174-192). -/
def enqueueTriangle (H : HeapOps) (m : myObjType) (q : List OrTri) (t : Nat) : List OrTri :=
  if m.selectedT t = false then q
  else [0, 1, 2].foldl (enqueueEdge H m t) q

/-- The candidate loop of `relax` (lines 170-193). -/
def enqueueAll (H : HeapOps) (m : myObjType) : List OrTri :=
  (List.range' 1 m.tcount).foldl (enqueueTriangle H m) []

/-- The state of the flip loop of `relax`. -/
structure RelaxState where
  mesh : myObjType
  edgeQueue : List OrTri
  modifiedTriangles : List Nat
  numRelaxedEdges : Int

/-- The edge swap of lines 229-237 on the popped `edge`. -/
def flipEdge (m : myObjType) (edge : OrTri) : myObjType :=
  let tri1 := idx edge
  let ortri2 := fnext m edge
  let tri2 := idx ortri2
  let ver1 := ver edge
  let ver2 := ver ortri2
  let tl1 := set2 m.tlist tri1 ver1 (m.tlist tri2 ((ver2 + 2) % 3))
  let tl2 := set2 tl1 tri2 (if ver2 < 3 then (ver2 + 1) % 3 else ver2 % 3) (tl1 tri1 ((ver1 + 2) % 3))
  { m with tlist := tl2 }

/-- The body of the flip loop of `relax` (lines 202-238). `accept m tri1 tri2` is the
outcome of the floating-point test `angle <= relaxationMaxDeviation` on the normals
that `computeNormalFor` gives for `tri1` and `tri2` in the current mesh `m`. -/
def relaxBody (H : HeapOps) (accept : myObjType → Nat → Nat → Bool) (s : RelaxState) :
    RelaxState :=
  match s.edgeQueue with
  | [] => s
  | edge :: _ =>
    let q := queuePop H s.mesh s.edgeQueue
    let tri1 := idx edge
    let tri2 := idx (fnext s.mesh edge)
    if tri1 ∈ s.modifiedTriangles ∨ tri2 ∈ s.modifiedTriangles then
      { s with edgeQueue := q }
    else if accept s.mesh tri1 tri2 = true then
      { mesh := flipEdge s.mesh edge
        edgeQueue := q
        modifiedTriangles := tri2 :: tri1 :: s.modifiedTriangles
        numRelaxedEdges := s.numRelaxedEdges + 1 }
    else { s with edgeQueue := q }

/-- The guard of the flip loop (line 200). -/
def relaxGuard (relaxationStepSize : Int) (s : RelaxState) : Bool :=
  !s.edgeQueue.isEmpty && decide (s.numRelaxedEdges < relaxationStepSize)

/-- The flip loop of `relax` (lines 200-239), at most `fuel` iterations. -/
def relaxLoop (H : HeapOps) (accept : myObjType → Nat → Nat → Bool) (relaxationStepSize : Int) :
    Nat → RelaxState → RelaxState
  | 0, s => s
  | fuel + 1, s =>
    if relaxGuard relaxationStepSize s = true then
      relaxLoop H accept relaxationStepSize fuel (relaxBody H accept s)
    else s

/-- The state in which the flip loop of `relax` starts (lines 170-199). -/
def relaxInit (H : HeapOps) (m : myObjType) : RelaxState :=
  { mesh := m, edgeQueue := enqueueAll H m, modifiedTriangles := [], numRelaxedEdges := 0 }

/-- The state in which the flip loop of `relax` ends: every iteration removes one
candidate, so as many iterations as there are candidates are enough. -/
def relaxFinal (H : HeapOps) (accept : myObjType → Nat → Nat → Bool) (relaxationStepSize : Int)
    (m : myObjType) : RelaxState :=
  relaxLoop H accept relaxationStepSize (enqueueAll H m).length (relaxInit H m)

/-- The method `myObjType::relax` (lines 155-254): the mesh it leaves and the number
of flips it reports. -/
def relax (H : HeapOps) (d : Derived) (accept : myObjType → Nat → Nat → Bool)
    (relaxationStepSize : Int) (m : myObjType) : myObjType × Int :=
  let s := relaxFinal H accept relaxationStepSize m
  (computeVertexNormals d (computeNormals d (computeFnlist d s.mesh)), s.numRelaxedEdges)

/-- The square of the spec: triangles `1 = (1,2,3)` and `2 = (1,3,4)` share the
diagonal `1-3`; the four outer edges are mesh boundary; both are selected. -/
def squareMesh : myObjType where
  vcount := 4
  tcount := 2
  vlist := fun v k =>
    if k = 2 then 0
    else if v = 2 then (if k = 0 then 1 else 0)
    else if v = 3 then 1
    else if v = 4 then (if k = 0 then 0 else 1)
    else 0
  tlist := fun t i =>
    if t = 1 then (if i = 0 then 1 else if i = 1 then 2 else 3)
    else if t = 2 then (if i = 0 then 1 else if i = 1 then 3 else 4)
    else 0
  nlist := fun _ k => if k = 2 then 1 else 0
  vToTList := fun v =>
    if v = 1 then [1, 2] else if v = 2 then [1] else if v = 3 then [1, 2]
    else if v = 4 then [2] else []
  selectedT := fun t => t = 1 ∨ t = 2
  fnlist := fun t v =>
    if t = 1 ∧ v = 2 then ⟨2, 3⟩
    else if t = 2 ∧ v = 0 then ⟨1, 5⟩
    else ⟨t, v⟩

/-- Adjacency recomputation that keeps the table, for closed examples. -/
def keepDerived : Derived where
  adjacency := fun m => m.fnlist
  faceNormals := fun m => m.nlist

/-- The heap routines of GNU libstdc++. -/
def gnuHeap : HeapOps where
  push_heap := gnuPushHeap
  pop_heap := gnuPopHeap

/-- Three selected triangles in a strip, `1 = (1,2,3)`, `2 = (3,2,4)`, `3 = (3,4,5)`,
and an unselected triangle `4 = (4,6,5)` behind the last one. The interior edge
`2-3` has valence sum `2 + 3`, the interior edge `3-4` has valence sum `3 + 3`. -/
def stripMesh : myObjType where
  vcount := 6
  tcount := 4
  vlist := fun _ _ => 0
  tlist := fun t i =>
    if t = 1 then (if i = 0 then 1 else if i = 1 then 2 else 3)
    else if t = 2 then (if i = 0 then 3 else if i = 1 then 2 else 4)
    else if t = 3 then (if i = 0 then 3 else if i = 1 then 4 else 5)
    else if t = 4 then (if i = 0 then 4 else if i = 1 then 6 else 5)
    else 0
  nlist := fun _ k => if k = 2 then 1 else 0
  vToTList := fun v =>
    if v = 1 then [1] else if v = 2 then [1, 2] else if v = 3 then [1, 2, 3]
    else if v = 4 then [2, 3, 4] else if v = 5 then [3, 4] else if v = 6 then [4] else []
  selectedT := fun t => t = 1 ∨ t = 2 ∨ t = 3
  fnlist := fun t v =>
    if t = 1 ∧ v = 1 then ⟨2, 3⟩
    else if t = 2 ∧ v = 0 then ⟨1, 4⟩
    else if t = 2 ∧ v = 2 then ⟨3, 3⟩
    else if t = 3 ∧ v = 0 then ⟨2, 5⟩
    else if t = 3 ∧ v = 1 then ⟨4, 5⟩
    else if t = 4 ∧ v = 2 then ⟨3, 4⟩
    else ⟨t, v⟩

/-- The priority key of a candidate: the valence sum of its two endpoints. -/
def key (m : myObjType) (e : OrTri) : Nat :=
  (m.vToTList (org m e)).length + (m.vToTList (dest m e)).length

/-- The candidates in the order in which the flip loop of `relax` removes them from
`edgeQueue`: the top of the queue at the start of every iteration that runs. -/
def popOrder (H : HeapOps) (accept : myObjType → Nat → Nat → Bool) (relaxationStepSize : Int)
    (m : myObjType) : List OrTri :=
  (List.range (enqueueAll H m).length).filterMap (fun k =>
    let s := relaxLoop H accept relaxationStepSize k (relaxInit H m)
    if relaxGuard relaxationStepSize s = true then s.edgeQueue.head? else none)

/-- Iteration `k + 1` of the flip loop of `relax` runs, removes `edge` from the
queue and performs the flip on it. -/
def performsFlip (H : HeapOps) (accept : myObjType → Nat → Nat → Bool) (relaxationStepSize : Int)
    (m : myObjType) (k : Nat) (edge : OrTri) : Prop :=
  let s := relaxLoop H accept relaxationStepSize k (relaxInit H m)
  relaxGuard relaxationStepSize s = true ∧ s.edgeQueue.head? = some edge ∧
    (relaxBody H accept s).numRelaxedEdges = s.numRelaxedEdges + 1

/-- The mesh at the start of iteration `k + 1` of the flip loop of `relax`. -/
def meshBefore (H : HeapOps) (accept : myObjType → Nat → Nat → Bool) (relaxationStepSize : Int)
    (m : myObjType) (k : Nat) : myObjType :=
  (relaxLoop H accept relaxationStepSize k (relaxInit H m)).mesh

/-- The incidence invariant as a set equality: for every vertex handle `v` of the
mesh, the members of `vToTList[v]` are exactly the triangle handles whose vertex
triple contains `v`. -/
def IncidenceSet (m : myObjType) : Prop :=
  ∀ v, 1 ≤ v → v ≤ m.vcount → ∀ h,
    h ∈ m.vToTList v ↔ (1 ≤ h ∧ h ≤ m.tcount ∧ ∃ i, i < 3 ∧ m.tlist h i = v)

/-- The incidence invariant: `vToTList[v]` is a duplicate-free list of exactly the
triangle handles whose vertex triple contains `v`, for every vertex handle `v`. -/
def Incidence (m : myObjType) : Prop :=
  (∀ v, 1 ≤ v → v ≤ m.vcount → (m.vToTList v).Nodup) ∧ IncidenceSet m

/-- Two selected triangles `1 = (2,1,4)` and `2 = (3,2,5)` on two sides of the
unselected triangle `3 = (1,2,3)`: triangle `1` lies across its edge `1-2`, triangle
`2` across its edge `2-3`; every other edge is mesh boundary. -/
def wedgeMesh : myObjType where
  vcount := 5
  tcount := 3
  vlist := fun _ _ => 0
  tlist := fun t i =>
    if t = 1 then (if i = 0 then 2 else if i = 1 then 1 else 4)
    else if t = 2 then (if i = 0 then 3 else if i = 1 then 2 else 5)
    else if t = 3 then (if i = 0 then 1 else if i = 1 then 2 else 3)
    else 0
  nlist := fun _ k => if k = 2 then 1 else 0
  vToTList := fun v =>
    if v = 1 then [1, 3] else if v = 2 then [1, 2, 3] else if v = 3 then [2, 3]
    else if v = 4 then [1] else if v = 5 then [2] else []
  selectedT := fun t => t = 1 ∨ t = 2
  fnlist := fun t v =>
    if t = 1 ∧ v = 0 then ⟨3, 3⟩
    else if t = 2 ∧ v = 0 then ⟨3, 4⟩
    else if t = 3 ∧ v = 0 then ⟨1, 3⟩
    else if t = 3 ∧ v = 1 then ⟨2, 3⟩
    else ⟨t, v⟩

/-- What every step of `subdivide` keeps of an earlier mesh `m0`: the adjacency
table, the counters do not decrease, and the selection flags, normals and positions
of the handles of `m0` stay. -/
structure Extends (m0 m : myObjType) : Prop where
  fn : m.fnlist = m0.fnlist
  tc : m0.tcount ≤ m.tcount
  vc : m0.vcount ≤ m.vcount
  sel : ∀ h, h ≤ m0.tcount → m.selectedT h = m0.selectedT h
  nl : ∀ h, h ≤ m0.tcount → ∀ k, m.nlist h k = m0.nlist h k
  vl : ∀ h, h ≤ m0.vcount → ∀ k, m.vlist h k = m0.vlist h k

/-- The invariant of the midpoint loop of one triangle: `v0` is the vertex count at
the entry of `subdivide`, `base` the `edgeVertexMap` when the triangle is reached,
`e` the array `edges` and `j` the number of iterations done. -/
structure MidInv (v0 : Nat) (base : EdgeMap) (e : Nat → Nat × Nat) (j : Nat)
    (ms : MidState) : Prop where
  vc : ms.mesh.vcount = v0 + ms.edgeVertexMap.length
  keys : (ms.edgeVertexMap.map Prod.fst).Nodup
  vals : (ms.edgeVertexMap.map Prod.snd).Nodup
  rng : ∀ kx, kx ∈ ms.edgeVertexMap → v0 < kx.2 ∧ kx.2 ≤ ms.mesh.vcount
  nm : ∀ i, i < j → ms.edgeVertexMap.lookup (e i) = some (ms.newMidpointVertices i)
  stable : ∀ k x, base.lookup k = some x → ms.edgeVertexMap.lookup k = some x
  keyset : ∀ k, k ∈ ms.edgeVertexMap.map Prod.fst ↔
    (k ∈ base.map Prod.fst ∨ ∃ i, i < j ∧ k = e i)

/-- The invariant of the outer loop of `subdivide` that holds for every mesh: `m0` is
the mesh at entry, `p` the number of triangles done, `s` the state reached. -/
structure LoopInv (m0 : myObjType) (p : Nat) (s : SubdivideState) : Prop where
  ext : Extends m0 s.mesh
  vc : s.mesh.vcount = m0.vcount + s.edgeVertexMap.length
  keys : (s.edgeVertexMap.map Prod.fst).Nodup
  vals : (s.edgeVertexMap.map Prod.snd).Nodup
  rng : ∀ kx, kx ∈ s.edgeVertexMap → m0.vcount < kx.2 ∧ kx.2 ≤ s.mesh.vcount
  keyset : ∀ k, k ∈ s.edgeVertexMap.map Prod.fst ↔
    ∃ t i, 1 ≤ t ∧ t ≤ p ∧ m0.selectedT t = true ∧ i < 3 ∧ k = edgesOf m0 t i
  central : ∀ t i, 1 ≤ t → t ≤ p → m0.selectedT t = true → i < 3 →
    s.edgeVertexMap.lookup (edgesOf m0 t i) = some (s.mesh.tlist t i)
  pending : ∀ t, p < t → t ≤ m0.tcount → m0.selectedT t = true →
    ∀ i, s.mesh.tlist t i = m0.tlist t i
  corners : ∀ t, 1 ≤ t → t ≤ p → m0.selectedT t = true →
    ∃ c, m0.tcount ≤ c ∧ c + 3 ≤ s.mesh.tcount ∧ ∀ i, i < 3 →
      s.mesh.selectedT (c + 1 + i) = true ∧
      s.mesh.tlist (c + 1 + i) 0 = m0.tlist t i ∧
      s.mesh.tlist (c + 1 + i) 1 = s.mesh.tlist t i ∧
      s.mesh.tlist (c + 1 + i) 2 = s.mesh.tlist t ((i + 2) % 3) ∧
      ∀ k, k < 3 → s.mesh.nlist (c + 1 + i) k = m0.nlist t k

/-- Edge `i` of triangle `t` as an unordered vertex pair. -/
def edgeOf (m : myObjType) (t i : Nat) : Sym2 Nat :=
  s(m.tlist t i, m.tlist t ((i + 1) % 3))

/-- The distinct unordered vertex pairs that are an edge of some selected triangle. -/
def selectedEdges (m : myObjType) : Finset (Sym2 Nat) :=
  ((Finset.Icc 1 m.tcount).filter (fun t => m.selectedT t = true)).biUnion
    (fun t => {edgeOf m t 0, edgeOf m t 1, edgeOf m t 2})

/-- The key under which `edgeVertexMap` files an unordered vertex pair. -/
def edgeKey : Sym2 Nat → Nat × Nat :=
  Sym2.lift ⟨fun a b => (min a b, max a b), fun a b => by
    show (min a b, max a b) = (min b a, max b a)
    rw [min_comm, max_comm]⟩

/-- The vertex handle that `edgeVertexMap` holds for the edge `{a, b}` when the outer
loop of `subdivide` on `m` ends (`0` if it holds none). -/
def midpointOf (m : myObjType) (a b : Nat) : Nat :=
  ((subdivideLoop m).edgeVertexMap.lookup (min a b, max a b)).getD 0

/-- The vertex handles in the triples of the triangles `1..tcount` are vertex handles
of the mesh, `1..vcount`. -/
def WellFormed (m : myObjType) : Prop :=
  ∀ t i, 1 ≤ t → t ≤ m.tcount → i < 3 → 1 ≤ m.tlist t i ∧ m.tlist t i ≤ m.vcount

/-- Every vertex in `edgeVertexMap` lies at the average of the positions that the two
endpoints of its edge have in `m0`. -/
def PosInv (m0 : myObjType) (vl : Nat → Nat → Coord) (mp : EdgeMap) : Prop :=
  ∀ kx, kx ∈ mp → ∀ a b, a ≤ m0.vcount → b ≤ m0.vcount → kx.1 = (min a b, max a b) →
    ∀ c, vl kx.2 c = average (m0.vlist a) (m0.vlist b) c

/-- The across-edge neighbour of every edge of a triangle of the mesh is a triangle
handle of the mesh. -/
def AdjInRange (m : myObjType) : Prop :=
  ∀ t v, 1 ≤ t → t ≤ m.tcount → v < 3 → idx (fnext m (makeOrTri t v)) ≤ m.tcount

/-- The number of edges of triangle `t` whose across-edge neighbour is not selected. -/
def boundaryCount (m : myObjType) (t : Nat) : Nat :=
  ((List.range 3).filter (fun v => !m.selectedT (idx (fnext m (makeOrTri t v))))).length

/-- The selected triangles among `1..p`, in order. -/
def selectedUpTo (m : myObjType) (p : Nat) : List Nat :=
  (List.range' 1 p).filter (fun t => m.selectedT t)

/-- The number `S` of selected triangles of the mesh. -/
def selectedCount (m : myObjType) : Nat := (selectedUpTo m m.tcount).length

/-- The number `B` of pairs of a selected triangle and one of its edges whose
across-edge neighbour is not selected. -/
def stitchTotal (m : myObjType) : Nat := ((selectedUpTo m m.tcount).map (boundaryCount m)).sum

/-- Every triangle of the mesh has three distinct vertices. -/
def DistinctVerts (m : myObjType) : Prop :=
  ∀ t, 1 ≤ t → t ≤ m.tcount →
    m.tlist t 0 ≠ m.tlist t 1 ∧ m.tlist t 1 ≠ m.tlist t 2 ∧ m.tlist t 0 ≠ m.tlist t 2

/-- The face adjacency is consistent with the vertex triples: the across-edge
neighbour of an edge of a triangle of the mesh is a triangle of the mesh; when it is
another triangle, its edge named by the version (taken modulo 3, as `subdivide` does)
is the same unordered vertex pair, and going across that edge leads back. -/
def AdjConsistent (m : myObjType) : Prop :=
  ∀ t v, 1 ≤ t → t ≤ m.tcount → v < 3 →
    1 ≤ idx (fnext m (makeOrTri t v)) ∧ idx (fnext m (makeOrTri t v)) ≤ m.tcount ∧
    (idx (fnext m (makeOrTri t v)) ≠ t →
      edgeOf m (idx (fnext m (makeOrTri t v))) (ver (fnext m (makeOrTri t v)) % 3) = edgeOf m t v ∧
      idx (fnext m (makeOrTri (idx (fnext m (makeOrTri t v)))
        (ver (fnext m (makeOrTri t v)) % 3))) = t ∧
      ver (fnext m (makeOrTri (idx (fnext m (makeOrTri t v)))
        (ver (fnext m (makeOrTri t v)) % 3))) % 3 = v)

/-- The number of places of the triple of triangle `h` that hold vertex `v`, and `0`
when `h` is not a triangle handle of the mesh. -/
def occ (m : myObjType) (v h : Nat) : Nat :=
  if 1 ≤ h ∧ h ≤ m.tcount then
    (if m.tlist h 0 = v then 1 else 0) + (if m.tlist h 1 = v then 1 else 0)
      + (if m.tlist h 2 = v then 1 else 0)
  else 0

/-- The incidence invariant with multiplicities: triangle `h` occurs in `vToTList[v]`
as often as `v` occurs in the triple of `h`. -/
def IncCount (m : myObjType) : Prop :=
  ∀ v, 1 ≤ v → v ≤ m.vcount → ∀ h, (m.vToTList v).count h = occ m v h

/-- A well-formed mesh of triangles with distinct vertices and exact incidence lists. -/
structure Good (m : myObjType) : Prop where
  wf : WellFormed m
  dv : DistinctVerts m
  inc : IncCount m

/-- Iteration `v'` of the boundary loop of triangle `t'` is done when the run is at
iteration `n` of the boundary loop of triangle `t`. -/
def Processed (t n t' v' : Nat) : Prop := t' < t ∨ (t' = t ∧ v' < n)

/-- Where the triples of the unselected triangles of `m0` stand when the run is at
iteration `n` of the boundary loop of triangle `t`: place `j` of such a triangle `a`
holds its vertex of `m0`, or the midpoint that `edgeVertexMap` holds for the edge of a
selected triangle whose boundary iteration is done and whose across-edge neighbour is
version `j + 2` (modulo 3) of `a`. -/
def Track (m0 : myObjType) (mp : EdgeMap) (t n : Nat) (m : myObjType) : Prop :=
  ∀ a j, 1 ≤ a → a ≤ m0.tcount → m0.selectedT a = false → j < 3 →
    m.tlist a j = m0.tlist a j ∨
    ∃ t' v', Processed t n t' v' ∧ 1 ≤ t' ∧ t' ≤ m0.tcount ∧ m0.selectedT t' = true ∧ v' < 3 ∧
      idx (fnext m0 (makeOrTri t' v')) = a ∧
      ver (fnext m0 (makeOrTri t' v')) % 3 = (j + 2) % 3 ∧
      mp.lookup (edgesOf m0 t' v') = some (m.tlist a j)

/-- Handle `h` is one of the three corner triangles that `subdivide` on `m` appends
for a triangle selected at entry. -/
def isCornerHandle (m : myObjType) (h : Nat) : Prop :=
  ∃ t i, 1 ≤ t ∧ t ≤ m.tcount ∧ m.selectedT t = true ∧ i < 3 ∧
    h = (stateAfter m (t - 1)).mesh.tcount + 1 + i

/-- Handle `h` is a triangle that `subdivide` on `m` appends in the boundary loop:
iteration `v` of the boundary loop of a selected triangle `t` takes the stitch
branch and appends `h`. -/
def isStitchHandle (m : myObjType) (h : Nat) : Prop :=
  ∃ t v, 1 ≤ t ∧ t ≤ m.tcount ∧ m.selectedT t = true ∧ v < 3 ∧
    (stitched (stateAfter m (t - 1)) t (v + 1)).tcount
      = (stitched (stateAfter m (t - 1)) t v).tcount + 1 ∧
    h = (stitched (stateAfter m (t - 1)) t v).tcount + 1

/-- The directed edge `j` of the triple of triangle `t`, read as `a -> b`, `b -> c`,
`c -> a`. -/
def dirEdge (m : myObjType) (t j : Nat) : Nat × Nat :=
  (m.tlist t j, m.tlist t ((j + 1) % 3))

/-- The mesh of the run of `subdivide` on `m` just before iteration `v` of the
boundary loop of triangle `t` (lines 117-147). -/
def beforeStitch (m : myObjType) (t v : Nat) : myObjType :=
  stitched (stateAfter m (t - 1)) t v

/-- Vertex `x` is one of the three entries of the triple of triangle `t`. -/
@[reducible] def hasVertex (m : myObjType) (t x : Nat) : Prop :=
  m.tlist t 0 = x ∨ m.tlist t 1 = x ∨ m.tlist t 2 = x

/-- The heap routines rearrange the vector: they put no value into it that was not
in it. -/
def HeapOps.Conservative (H : HeapOps) : Prop :=
  (∀ comp c x, x ∈ H.push_heap comp c → x ∈ c) ∧
  (∀ comp c x, x ∈ H.pop_heap comp c → x ∈ c)

/-- What the candidate loop of `relax` (lines 170-193) lets into the queue: an edge
`0..2` of a selected triangle of the mesh whose across-edge neighbour is another
triangle and is selected. -/
def IsCandidate (m : myObjType) (e : OrTri) : Prop :=
  1 ≤ idx e ∧ idx e ≤ m.tcount ∧ ver e < 3 ∧ m.selectedT (idx e) = true ∧
    idx (fnext m e) ≠ idx e ∧ m.selectedT (idx (fnext m e)) = true

/-- The comparison `angle <= relaxationMaxDeviation` of line 226 on `double` values. A
`double` that is not infinite is a rational number or NaN, here `none`; `acos` returns
no infinite value, and a comparison with NaN is false. -/
def angleLe (angle : Option ℚ) (relaxationMaxDeviation : ℚ) : Bool :=
  match angle with
  | none => false
  | some a => decide (a ≤ relaxationMaxDeviation)

/-- The acceptance test of the flip loop (lines 218-226). `angle m tri1 tri2` is the
value that line 223 computes, `acos` of the normalised dot product of the normals that
`computeNormalFor` gives for `tri1` and `tri2` in the mesh `m`. -/
def angleTest (angle : myObjType → Nat → Nat → Option ℚ) (relaxationMaxDeviation : ℚ) :
    myObjType → Nat → Nat → Bool :=
  fun m tri1 tri2 => angleLe (angle m tri1 tri2) relaxationMaxDeviation

/-- The quad scenario: the mesh has exactly the triangles `1` and `2`, both selected;
edge `i` of triangle `1` and edge `j` of triangle `2` are the shared diagonal, each
leading across to the other triangle as the same directed edge; every other edge is
mesh boundary, its across-edge neighbour the triangle itself. -/
def IsQuad (m : myObjType) (i j : Nat) : Prop :=
  m.tcount = 2 ∧ m.selectedT 1 = true ∧ m.selectedT 2 = true ∧ i < 3 ∧ j < 3 ∧
  (idx (fnext m (makeOrTri 1 i)) = 2 ∧ ver (fnext m (makeOrTri 1 i)) % 3 = j ∧
    ver (fnext m (makeOrTri 1 i)) < 6 ∧
    org m (fnext m (makeOrTri 1 i)) = org m (makeOrTri 1 i) ∧
    dest m (fnext m (makeOrTri 1 i)) = dest m (makeOrTri 1 i)) ∧
  (idx (fnext m (makeOrTri 2 j)) = 1 ∧ ver (fnext m (makeOrTri 2 j)) % 3 = i ∧
    ver (fnext m (makeOrTri 2 j)) < 6 ∧
    org m (fnext m (makeOrTri 2 j)) = org m (makeOrTri 2 j) ∧
    dest m (fnext m (makeOrTri 2 j)) = dest m (makeOrTri 2 j)) ∧
  (∀ v, v < 3 → v ≠ i → idx (fnext m (makeOrTri 1 v)) = 1) ∧
  (∀ v, v < 3 → v ≠ j → idx (fnext m (makeOrTri 2 v)) = 2)

/-! ## The heap routines -/

theorem pushHeapAux_length (comp : OrTri → OrTri → Bool) (topIndex : Nat) (value : OrTri)
    (fuel : Nat) (c : List OrTri) (holeIndex : Nat) :
    (pushHeapAux comp topIndex value fuel c holeIndex).length = c.length := by
  induction fuel generalizing c holeIndex with
  | zero => simp [pushHeapAux]
  | succ n ih =>
    simp only [pushHeapAux]
    split
    · rw [ih]; simp
    · simp

theorem adjustHeapAux_length (comp : OrTri → OrTri → Bool) (len : Nat) (value : OrTri)
    (fuel : Nat) (c : List OrTri) (holeIndex secondChild : Nat) :
    (adjustHeapAux comp len value fuel c holeIndex secondChild).1.length = c.length := by
  induction fuel generalizing c holeIndex secondChild with
  | zero => simp [adjustHeapAux]
  | succ n ih =>
    simp only [adjustHeapAux]
    split
    · rw [ih]; simp
    · simp

theorem adjustHeap_length (comp : OrTri → OrTri → Bool) (len : Nat) (value : OrTri)
    (c : List OrTri) : (adjustHeap comp len value c).length = c.length := by
  simp only [adjustHeap]
  split
  · rw [pushHeapAux_length]; simp [adjustHeapAux_length]
  · rw [pushHeapAux_length]; simp [adjustHeapAux_length]

theorem gnuHeap_lawful : gnuHeap.Lawful := by
  refine ⟨fun comp c => ?_, fun comp c => ?_⟩
  · show (gnuPushHeap comp c).length = c.length
    unfold gnuPushHeap
    split
    · rfl
    · exact pushHeapAux_length _ _ _ _ _ _
  · show (gnuPopHeap comp c).length = c.length
    unfold gnuPopHeap
    split
    · split
      · rw [adjustHeap_length]; simp
      · rfl
    · rfl

/-! ## The flip loop of `relax` -/

theorem relaxLoop_succ (H : HeapOps) (accept : myObjType → Nat → Nat → Bool) (step : Int)
    (k : Nat) (s : RelaxState) :
    relaxLoop H accept step (k + 1) s =
      if relaxGuard step (relaxLoop H accept step k s) = true then
        relaxBody H accept (relaxLoop H accept step k s)
      else relaxLoop H accept step k s := by
  induction k generalizing s with
  | zero => simp [relaxLoop]
  | succ n ih =>
    rw [relaxLoop]
    by_cases hg : relaxGuard step s = true
    · rw [if_pos hg, ih (relaxBody H accept s)]
      conv_rhs => rw [relaxLoop, if_pos hg]
    · rw [if_neg hg]
      conv_rhs => rw [relaxLoop, if_neg hg]
      simp [hg]

theorem relaxBody_queue_length (H : HeapOps) (hH : H.Lawful)
    (accept : myObjType → Nat → Nat → Bool) (s : RelaxState) :
    (relaxBody H accept s).edgeQueue.length = s.edgeQueue.length - 1 := by
  unfold relaxBody
  split
  · next h => simp [h]
  · next edge rest h =>
    have hq : (queuePop H s.mesh s.edgeQueue).length = s.edgeQueue.length - 1 := by
      simp [queuePop, hH.2]
    simp only []
    split
    · exact hq
    · split
      · exact hq
      · exact hq

/-- With lawful heap routines the fuel of `relaxFinal` is enough: the guard of the
flip loop is false in the state that `relaxFinal` returns. -/
theorem relaxLoop_done (H : HeapOps) (hH : H.Lawful) (accept : myObjType → Nat → Nat → Bool)
    (step : Int) (fuel : Nat) (s : RelaxState) (hf : s.edgeQueue.length ≤ fuel) :
    relaxGuard step (relaxLoop H accept step fuel s) = false := by
  induction fuel generalizing s with
  | zero =>
    have : s.edgeQueue = [] := List.eq_nil_of_length_eq_zero (by omega)
    simp [relaxLoop, relaxGuard, this]
  | succ n ih =>
    rw [relaxLoop]
    by_cases hg : relaxGuard step s = true
    · rw [if_pos hg]
      apply ih
      rw [relaxBody_queue_length H hH]
      omega
    · rw [if_neg hg]
      simpa using hg

theorem relaxFinal_done (H : HeapOps) (hH : H.Lawful) (accept : myObjType → Nat → Nat → Bool)
    (step : Int) (m : myObjType) :
    relaxGuard step (relaxFinal H accept step m) = false :=
  relaxLoop_done H hH accept step _ _ (le_refl _)

theorem relaxBody_count (H : HeapOps) (accept : myObjType → Nat → Nat → Bool) (s : RelaxState) :
    (relaxBody H accept s).numRelaxedEdges = s.numRelaxedEdges ∨
      (relaxBody H accept s).numRelaxedEdges = s.numRelaxedEdges + 1 := by
  unfold relaxBody
  split
  · left; rfl
  · simp only []
    split
    · left; rfl
    · split
      · right; rfl
      · left; rfl

theorem relaxLoop_count_le (H : HeapOps) (accept : myObjType → Nat → Nat → Bool) (step : Int)
    (fuel : Nat) (s : RelaxState) (h0 : 0 ≤ s.numRelaxedEdges)
    (h1 : s.numRelaxedEdges ≤ max step 0) :
    0 ≤ (relaxLoop H accept step fuel s).numRelaxedEdges ∧
      (relaxLoop H accept step fuel s).numRelaxedEdges ≤ max step 0 := by
  induction fuel generalizing s with
  | zero => exact ⟨h0, h1⟩
  | succ n ih =>
    rw [relaxLoop]
    by_cases hg : relaxGuard step s = true
    · rw [if_pos hg]
      have hlt : s.numRelaxedEdges < step := by
        simp [relaxGuard] at hg
        exact hg.2
      rcases relaxBody_count H accept s with h | h
      · exact ih _ (by rw [h]; exact h0) (by rw [h]; exact h1)
      · apply ih _ (by rw [h]; omega)
        rw [h]
        have := le_max_left step 0
        omega
    · rw [if_neg hg]
      exact ⟨h0, h1⟩

/-- C9 (as amended). The number of flips that one call of `relax` performs is never
negative and never exceeds `max relaxationStepSize 0`: it stays within
`relaxationStepSize` when that bound is not negative, and it is `0` when the bound is
negative. This holds after any number of iterations of the flip loop, and so for the
count that `relax` reports. -/
theorem relax_flip_count_bound (H : HeapOps) (d : Derived)
    (accept : myObjType → Nat → Nat → Bool) (relaxationStepSize : Int) (m : myObjType) :
    (∀ fuel, 0 ≤ (relaxLoop H accept relaxationStepSize fuel (relaxInit H m)).numRelaxedEdges ∧
      (relaxLoop H accept relaxationStepSize fuel (relaxInit H m)).numRelaxedEdges
        ≤ max relaxationStepSize 0) ∧
    0 ≤ (relax H d accept relaxationStepSize m).2 ∧
    (relax H d accept relaxationStepSize m).2 ≤ max relaxationStepSize 0 := by
  have h : ∀ fuel, 0 ≤ (relaxLoop H accept relaxationStepSize fuel (relaxInit H m)).numRelaxedEdges ∧
      (relaxLoop H accept relaxationStepSize fuel (relaxInit H m)).numRelaxedEdges
        ≤ max relaxationStepSize 0 := fun fuel =>
    relaxLoop_count_le H accept relaxationStepSize fuel (relaxInit H m) (le_refl _)
      (le_max_right _ _)
  exact ⟨h, h _⟩

/-- C9 (counterexample). With `relaxationStepSize = -1` the call on the square performs
no flip, and `0` flips exceed the configured maximum `-1`. -/
theorem relax_flip_count_negative_step :
    ¬ ((relax gnuHeap keepDerived (fun _ _ _ => true) (-1) squareMesh).2 ≤ -1) := by
  decide

theorem flipEdge_fnlist (m : myObjType) (edge : OrTri) : (flipEdge m edge).fnlist = m.fnlist := rfl

theorem flipEdge_tlist_other (m : myObjType) (edge : OrTri) (t : Nat) (h1 : t ≠ idx edge)
    (h2 : t ≠ idx (fnext m edge)) (i : Nat) : (flipEdge m edge).tlist t i = m.tlist t i := by
  simp [flipEdge, set2, h1, h2]

/-- What one iteration of the flip loop does when it performs a flip, and what it
leaves alone when it does not. -/
theorem relaxBody_cases (H : HeapOps) (accept : myObjType → Nat → Nat → Bool) (s : RelaxState) :
    ((relaxBody H accept s).numRelaxedEdges = s.numRelaxedEdges ∧
      (relaxBody H accept s).mesh = s.mesh ∧
      (relaxBody H accept s).modifiedTriangles = s.modifiedTriangles) ∨
    (∃ edge rest, s.edgeQueue = edge :: rest ∧
      idx edge ∉ s.modifiedTriangles ∧ idx (fnext s.mesh edge) ∉ s.modifiedTriangles ∧
      (relaxBody H accept s).numRelaxedEdges = s.numRelaxedEdges + 1 ∧
      (relaxBody H accept s).mesh = flipEdge s.mesh edge ∧
      (relaxBody H accept s).modifiedTriangles
        = idx (fnext s.mesh edge) :: idx edge :: s.modifiedTriangles) := by
  unfold relaxBody
  split
  · left; exact ⟨rfl, rfl, rfl⟩
  · next edge rest hq =>
    simp only []
    split
    · left; exact ⟨rfl, rfl, rfl⟩
    · next hmod =>
      split
      · right
        refine ⟨edge, rest, hq, ?_, ?_, rfl, rfl, rfl⟩
        · exact fun h => hmod (Or.inl h)
        · exact fun h => hmod (Or.inr h)
      · left; exact ⟨rfl, rfl, rfl⟩

/-- The invariant of the flip loop: the adjacency table is the one of the call
entry, and a triangle that is not in `modifiedTriangles` has its call-entry triple. -/
theorem relaxLoop_inv (H : HeapOps) (accept : myObjType → Nat → Nat → Bool) (step : Int)
    (m : myObjType) (k : Nat) :
    (relaxLoop H accept step k (relaxInit H m)).mesh.fnlist = m.fnlist ∧
    ∀ t, t ∉ (relaxLoop H accept step k (relaxInit H m)).modifiedTriangles →
      ∀ i, (relaxLoop H accept step k (relaxInit H m)).mesh.tlist t i = m.tlist t i := by
  induction k with
  | zero => exact ⟨rfl, fun _ _ _ => rfl⟩
  | succ n ih =>
    rw [relaxLoop_succ]
    split
    · rcases relaxBody_cases H accept (relaxLoop H accept step n (relaxInit H m)) with
        ⟨_, hm, hmod⟩ | ⟨edge, rest, _, _, _, _, hm, hmod⟩
      · rw [hm, hmod]; exact ih
      · rw [hm, hmod]
        refine ⟨by rw [flipEdge_fnlist]; exact ih.1, fun t ht i => ?_⟩
        simp only [List.mem_cons, not_or] at ht
        rw [flipEdge_tlist_other _ _ _ ht.2.1 ht.1]
        exact ih.2 t ht.2.2 i
    · exact ih

theorem relaxLoop_modified_mono (H : HeapOps) (accept : myObjType → Nat → Nat → Bool)
    (step : Int) (s : RelaxState) (j k : Nat) (hjk : j ≤ k) (t : Nat)
    (ht : t ∈ (relaxLoop H accept step j s).modifiedTriangles) :
    t ∈ (relaxLoop H accept step k s).modifiedTriangles := by
  induction k with
  | zero =>
    have : j = 0 := by omega
    subst this; exact ht
  | succ n ih =>
    rcases Nat.lt_or_ge j (n + 1) with hlt | hge
    · have ht' := ih (by omega)
      rw [relaxLoop_succ]
      split
      · rcases relaxBody_cases H accept (relaxLoop H accept step n s) with
          ⟨_, _, hmod⟩ | ⟨edge, rest, _, _, _, _, _, hmod⟩
        · rw [hmod]; exact ht'
        · rw [hmod]; simp [ht']
      · exact ht'
    · have : j = n + 1 := by omega
      subst this; exact ht

/-- A performed flip: the popped edge passed the staleness guard, the mesh after the
iteration is the flipped mesh and both triangles are in `modifiedTriangles`. -/
theorem performsFlip_spec (H : HeapOps) (accept : myObjType → Nat → Nat → Bool) (step : Int)
    (m : myObjType) (k : Nat) (edge : OrTri) (hk : performsFlip H accept step m k edge) :
    idx edge ∉ (relaxLoop H accept step k (relaxInit H m)).modifiedTriangles ∧
    idx (fnext m edge) ∉ (relaxLoop H accept step k (relaxInit H m)).modifiedTriangles ∧
    meshBefore H accept step m (k + 1) = flipEdge (meshBefore H accept step m k) edge ∧
    idx edge ∈ (relaxLoop H accept step (k + 1) (relaxInit H m)).modifiedTriangles ∧
    idx (fnext m edge) ∈ (relaxLoop H accept step (k + 1) (relaxInit H m)).modifiedTriangles := by
  obtain ⟨hg, hhead, hn⟩ := hk
  have hfn : ∀ e, fnext (relaxLoop H accept step k (relaxInit H m)).mesh e = fnext m e := by
    intro e
    simp only [fnext, (relaxLoop_inv H accept step m k).1]
  simp only [meshBefore]
  rw [relaxLoop_succ, if_pos hg]
  rcases relaxBody_cases H accept (relaxLoop H accept step k (relaxInit H m)) with
    ⟨hn', _, _⟩ | ⟨edge', rest, hq, h1, h2, _, hm, hmod⟩
  · rw [hn'] at hn; omega
  · rw [hq] at hhead
    simp only [List.head?_cons, Option.some.injEq] at hhead
    subst hhead
    rw [hfn] at h2
    refine ⟨h1, h2, hm, ?_, ?_⟩
    · rw [hmod]; simp
    · rw [hmod, hfn]; simp

theorem squareMesh_performsFlip :
    performsFlip gnuHeap (fun _ _ _ => true) 1 squareMesh 0 ⟨1, 2⟩ := by
  unfold performsFlip
  decide

theorem squareMesh_incidenceSet : IncidenceSet squareMesh := by
  intro v hv1 hv2 h
  change v ≤ 4 at hv2
  constructor
  · intro hh
    interval_cases v <;> simp [squareMesh] at hh <;> rcases hh with rfl | rfl <;>
      first
        | exact ⟨by decide, by decide, 0, by decide, by decide⟩
        | exact ⟨by decide, by decide, 1, by decide, by decide⟩
        | exact ⟨by decide, by decide, 2, by decide, by decide⟩
  · rintro ⟨h1, h2, i, hi, e⟩
    change h ≤ 2 at h2
    interval_cases h <;> interval_cases i <;> interval_cases v <;>
      first
        | (exfalso; revert e; decide)
        | decide

/-- C2 (the code at the failing input). On the square, whose incidence lists are exact
at entry, one accepted flip rewrites the triples of both triangles and no incidence
list: after `relax` triangle `2` is still a member of `vToTList[1]` although its
triple `(2,3,4)` no longer contains vertex `1`, so the incidence invariant is broken. -/
theorem relax_breaks_incidence :
    IncidenceSet squareMesh ∧
    (relax gnuHeap keepDerived (fun _ _ _ => true) 1 squareMesh).2 = 1 ∧
    ¬ IncidenceSet (relax gnuHeap keepDerived (fun _ _ _ => true) 1 squareMesh).1 := by
  refine ⟨squareMesh_incidenceSet, by decide, ?_⟩
  intro hI
  obtain ⟨_, _, i, hi, e⟩ := (hI 1 (by decide) (by decide) 2).mp (by decide)
  interval_cases i <;> revert e <;> decide

theorem cmp_zero_iff (m : myObjType) (e1 e2 : OrTri) :
    cmp m e1 e2 = 0 ↔ cmp m e2 e1 = 0 := by
  unfold cmp
  generalize ((m.vToTList (org m e1)).length : Int) = a1
  generalize ((m.vToTList (dest m e1)).length : Int) = b1
  generalize ((m.vToTList (org m e2)).length : Int) = a2
  generalize ((m.vToTList (dest m e2)).length : Int) = b2
  norm_num
  omega

theorem cmpBool_symm (m : myObjType) (e1 e2 : OrTri) : cmpBool m e1 e2 = cmpBool m e2 e1 := by
  unfold cmpBool
  rw [decide_eq_decide, not_iff_not]
  exact cmp_zero_iff m e1 e2

/-- C8 (the code at the failing input). On the strip, with the GNU heap routines and
no flip accepted, the four candidates leave the queue in the order `(2,2)`, `(2,0)`,
`(1,1)`, `(3,0)` with keys `6, 5, 5, 6`: the first candidate popped has a larger key
than the second. The comparator that the queue is given answers the same for a pair
of candidates and for the swapped pair, so it carries no order of the keys. -/
theorem relax_pop_order_not_ascending :
    popOrder gnuHeap (fun _ _ _ => false) 5 stripMesh = [⟨2, 2⟩, ⟨2, 0⟩, ⟨1, 1⟩, ⟨3, 0⟩] ∧
    (popOrder gnuHeap (fun _ _ _ => false) 5 stripMesh).map (key stripMesh) = [6, 5, 5, 6] ∧
    ¬ (key stripMesh ⟨2, 2⟩ ≤ key stripMesh ⟨2, 0⟩) ∧
    (∀ e1 e2, cmpBool stripMesh e1 e2 = cmpBool stripMesh e2 e1) :=
  ⟨by decide, by decide, by decide, cmpBool_symm stripMesh⟩

/-! ## Frame of the steps of `subdivide` -/

theorem Extends.refl (m : myObjType) : Extends m m :=
  ⟨rfl, le_refl _, le_refl _, fun _ _ => rfl, fun _ _ _ => rfl, fun _ _ _ => rfl⟩

theorem Extends.trans {m0 m1 m2 : myObjType} (h1 : Extends m0 m1) (h2 : Extends m1 m2) :
    Extends m0 m2 where
  fn := h2.fn.trans h1.fn
  tc := le_trans h1.tc h2.tc
  vc := le_trans h1.vc h2.vc
  sel := fun h hh => (h2.sel h (le_trans hh h1.tc)).trans (h1.sel h hh)
  nl := fun h hh k => (h2.nl h (le_trans hh h1.tc) k).trans (h1.nl h hh k)
  vl := fun h hh k => (h2.vl h (le_trans hh h1.vc) k).trans (h1.vl h hh k)

theorem foldl3 {α : Type} (f : α → Nat → α) (a : α) :
    [0, 1, 2].foldl f a = f (f (f a 0) 1) 2 := rfl

theorem midpointStep_mesh (t : Nat) (e : Nat → Nat × Nat) (s : MidState) (i : Nat) :
    (midpointStep t e s i).mesh.tcount = s.mesh.tcount ∧
    (midpointStep t e s i).mesh.tlist = s.mesh.tlist ∧
    (midpointStep t e s i).mesh.nlist = s.mesh.nlist ∧
    (midpointStep t e s i).mesh.selectedT = s.mesh.selectedT ∧
    (midpointStep t e s i).mesh.fnlist = s.mesh.fnlist := by
  unfold midpointStep
  split <;> simp

theorem midpointStep_extends (t : Nat) (e : Nat → Nat × Nat) (s : MidState) (i : Nat) :
    Extends s.mesh (midpointStep t e s i).mesh := by
  unfold midpointStep
  split
  · refine ⟨rfl, le_refl _, Nat.le_succ _, fun _ _ => rfl, fun _ _ _ => rfl, fun h hh k => ?_⟩
    have : h ≠ s.mesh.vcount + 1 := by omega
    simp [set1, this]
  · exact Extends.refl _

theorem midpoints_mesh (s : SubdivideState) (t : Nat) :
    (midpoints s t).mesh.tcount = s.mesh.tcount ∧
    (midpoints s t).mesh.tlist = s.mesh.tlist ∧
    (midpoints s t).mesh.nlist = s.mesh.nlist ∧
    (midpoints s t).mesh.selectedT = s.mesh.selectedT ∧
    (midpoints s t).mesh.fnlist = s.mesh.fnlist := by
  simp only [midpoints, foldl3]
  refine ⟨?_, ?_, ?_, ?_, ?_⟩
  · rw [(midpointStep_mesh _ _ _ _).1, (midpointStep_mesh _ _ _ _).1, (midpointStep_mesh _ _ _ _).1]
  · rw [(midpointStep_mesh _ _ _ _).2.1, (midpointStep_mesh _ _ _ _).2.1,
      (midpointStep_mesh _ _ _ _).2.1]
  · rw [(midpointStep_mesh _ _ _ _).2.2.1, (midpointStep_mesh _ _ _ _).2.2.1,
      (midpointStep_mesh _ _ _ _).2.2.1]
  · rw [(midpointStep_mesh _ _ _ _).2.2.2.1, (midpointStep_mesh _ _ _ _).2.2.2.1,
      (midpointStep_mesh _ _ _ _).2.2.2.1]
  · rw [(midpointStep_mesh _ _ _ _).2.2.2.2, (midpointStep_mesh _ _ _ _).2.2.2.2,
      (midpointStep_mesh _ _ _ _).2.2.2.2]

theorem midpoints_extends (s : SubdivideState) (t : Nat) :
    Extends s.mesh (midpoints s t).mesh := by
  simp only [midpoints, foldl3]
  have h1 := midpointStep_extends t (edgesOf s.mesh t) ⟨s.mesh, s.edgeVertexMap, fun _ => 0⟩ 0
  exact (h1.trans (midpointStep_extends _ _ _ _)).trans (midpointStep_extends _ _ _ _)

theorem cornerStep_extends (t : Nat) (nm : Nat → Nat) (m : myObjType) (i : Nat) :
    Extends m (cornerStep t nm m i) := by
  refine ⟨rfl, Nat.le_succ _, le_refl _, fun h hh => ?_, fun h hh k => ?_, fun _ _ _ => rfl⟩
  · have : h ≠ m.tcount + 1 := by omega
    simp [cornerStep, set1, this]
  · have : h ≠ m.tcount + 1 := by omega
    simp [cornerStep, set2, this]

theorem centralStep_extends (t : Nat) (nm : Nat → Nat) (m : myObjType) (i : Nat) :
    Extends m (centralStep t nm m i) :=
  ⟨rfl, le_refl _, le_refl _, fun _ _ => rfl, fun _ _ _ => rfl, fun _ _ _ => rfl⟩

theorem stitchCopy_nlist (tl : Nat → Nat → Nat) (a h : Nat)
    (s : (Nat → Nat → Coord) × (Nat → List Nat)) (x : Nat) (hx : x ≠ h) (k : Nat) :
    (stitchCopy tl a h s).1 x k = s.1 x k := by
  simp [stitchCopy, foldl3, set2, hx]

theorem stitchStep_extends (t : Nat) (nm : Nat → Nat) (m : myObjType) (v : Nat) :
    Extends m (stitchStep t nm m v) := by
  unfold stitchStep
  simp only []
  split
  · refine ⟨rfl, Nat.le_succ _, le_refl _, fun _ _ => rfl, fun h hh k => ?_, fun _ _ _ => rfl⟩
    exact stitchCopy_nlist _ _ _ _ _ (by omega) _
  · exact Extends.refl _

theorem cornerMesh_extends (s : SubdivideState) (t : Nat) : Extends s.mesh (cornerMesh s t) := by
  simp only [cornerMesh, foldl3]
  exact (midpoints_extends s t).trans (((cornerStep_extends _ _ _ _).trans
    (cornerStep_extends _ _ _ _)).trans (cornerStep_extends _ _ _ _))

theorem centralMesh_extends (s : SubdivideState) (t : Nat) :
    Extends s.mesh (centralMesh s t) := by
  simp only [centralMesh, foldl3]
  exact (cornerMesh_extends s t).trans (((centralStep_extends _ _ _ _).trans
    (centralStep_extends _ _ _ _)).trans (centralStep_extends _ _ _ _))

theorem stitched_succ (s : SubdivideState) (t n : Nat) :
    stitched s t (n + 1)
      = stitchStep t (midpoints s t).newMidpointVertices (stitched s t n) n := by
  simp [stitched, List.range_succ, List.foldl_append]

theorem stitched_extends (s : SubdivideState) (t n : Nat) :
    Extends s.mesh (stitched s t n) := by
  induction n with
  | zero => exact centralMesh_extends s t
  | succ n ih =>
    rw [stitched_succ]
    exact ih.trans (stitchStep_extends _ _ _ _)

theorem subdivideTriangle_extends (s : SubdivideState) (t : Nat) :
    Extends s.mesh (subdivideTriangle s t).mesh := by
  unfold subdivideTriangle
  split
  · exact Extends.refl _
  · exact stitched_extends s t 3

theorem stateAfter_succ (m : myObjType) (p : Nat) :
    stateAfter m (p + 1) = subdivideTriangle (stateAfter m p) (p + 1) := by
  simp [stateAfter, List.range'_concat, List.foldl_append, Nat.add_comm]

theorem stateAfter_extends (m : myObjType) (p : Nat) : Extends m (stateAfter m p).mesh := by
  induction p with
  | zero => exact Extends.refl _
  | succ p ih =>
    rw [stateAfter_succ]
    exact ih.trans (subdivideTriangle_extends _ _)

/-- C7. Let the across-edge neighbour of edge `v` of triangle `t` be `t` itself (the
mesh-boundary sentinel) and take the run of `subdivide` on `m` at the moment its outer
loop reaches `t`. If `t` is not selected the loop body leaves the whole state as it is;
if `t` is selected, iteration `v` of the boundary loop of `t` leaves the mesh as it is.
Either way no stitch triangle is appended for that edge and no vertex of a neighbour
is rewritten. -/
theorem boundary_edge_never_stitched (m : myObjType) (t v : Nat)
    (ht : t ≤ m.tcount) (hb : idx (fnext m (makeOrTri t v)) = t) :
    (m.selectedT t = false →
      subdivideTriangle (stateAfter m (t - 1)) t = stateAfter m (t - 1)) ∧
    (m.selectedT t = true →
      stitched (stateAfter m (t - 1)) t (v + 1) = stitched (stateAfter m (t - 1)) t v) := by
  have h0 := stateAfter_extends m (t - 1)
  constructor
  · intro hs
    have : (stateAfter m (t - 1)).mesh.selectedT t = false := by rw [h0.sel t ht]; exact hs
    simp [subdivideTriangle, this]
  · intro hs
    have h1 := h0.trans (stitched_extends (stateAfter m (t - 1)) t v)
    rw [stitched_succ]
    unfold stitchStep
    have hfn : fnext (stitched (stateAfter m (t - 1)) t v) (makeOrTri t v)
        = fnext m (makeOrTri t v) := by
      simp only [fnext, h1.fn]
    simp only [hfn, hb, h1.sel t ht, hs]
    simp

/-- C7 (witness). Edge `0` of triangle `1` of the square is mesh boundary. -/
theorem boundary_edge_never_stitched_witness :
    idx (fnext squareMesh (makeOrTri 1 0)) = 1 ∧
    (squareMesh.selectedT 1 = true →
      stitched (stateAfter squareMesh (1 - 1)) 1 (0 + 1)
        = stitched (stateAfter squareMesh (1 - 1)) 1 0) :=
  ⟨by decide,
    (boundary_edge_never_stitched squareMesh 1 0 (by decide) (by decide)).2⟩

theorem cornerStep_tlist_old (t : Nat) (nm : Nat → Nat) (m : myObjType) (i h : Nat)
    (hh : h ≤ m.tcount) (j : Nat) : (cornerStep t nm m i).tlist h j = m.tlist h j := by
  have : h ≠ m.tcount + 1 := by omega
  simp [cornerStep, set2, this]

theorem centralStep_tlist_other (t : Nat) (nm : Nat → Nat) (m : myObjType) (i h : Nat)
    (hh : h ≠ t) (j : Nat) : (centralStep t nm m i).tlist h j = m.tlist h j := by
  simp [centralStep, set2, hh]

theorem stitchStep_tlist_locked (t : Nat) (nm : Nat → Nat) (m : myObjType) (v h : Nat)
    (hh : h ≤ m.tcount) (hs : m.selectedT h = true) (j : Nat) :
    (stitchStep t nm m v).tlist h j = m.tlist h j := by
  unfold stitchStep
  simp only []
  split
  · next hb =>
    have h1 : h ≠ m.tcount + 1 := by omega
    have h2 : h ≠ idx (fnext m (makeOrTri t v)) := by
      intro he
      rw [← he, hs] at hb
      simp at hb
    simp [set2, h1, h2]
  · rfl

theorem cornerMesh_tlist_old (s : SubdivideState) (t h : Nat) (hh : h ≤ s.mesh.tcount) (j : Nat) :
    (cornerMesh s t).tlist h j = s.mesh.tlist h j := by
  have e := midpoints_mesh s t
  simp only [cornerMesh, foldl3]
  rw [cornerStep_tlist_old, cornerStep_tlist_old, cornerStep_tlist_old, e.2.1]
  · rw [e.1]; exact hh
  · exact le_trans (by rw [e.1]; exact hh) (cornerStep_extends _ _ _ _).tc
  · exact le_trans (by rw [e.1]; exact hh)
      ((cornerStep_extends _ _ _ _).trans (cornerStep_extends _ _ _ _)).tc

theorem centralMesh_tlist_other (s : SubdivideState) (t h : Nat) (hh : h ≠ t) (j : Nat) :
    (centralMesh s t).tlist h j = (cornerMesh s t).tlist h j := by
  simp only [centralMesh, foldl3]
  rw [centralStep_tlist_other _ _ _ _ _ hh, centralStep_tlist_other _ _ _ _ _ hh,
    centralStep_tlist_other _ _ _ _ _ hh]

theorem stitched_tlist_locked (s : SubdivideState) (t n h : Nat)
    (hh : h ≤ (centralMesh s t).tcount) (hs : (centralMesh s t).selectedT h = true) (j : Nat) :
    (stitched s t n).tlist h j = (centralMesh s t).tlist h j := by
  induction n with
  | zero => rfl
  | succ n ih =>
    have hx : Extends (centralMesh s t) (stitched s t n) := by
      clear ih
      induction n with
      | zero => exact Extends.refl _
      | succ n ih2 => rw [stitched_succ]; exact ih2.trans (stitchStep_extends _ _ _ _)
    rw [stitched_succ, stitchStep_tlist_locked _ _ _ _ _ (le_trans hh hx.tc)
      (by rw [hx.sel h hh]; exact hs), ih]

/-- The rows of selected triangles other than `t` are not touched by the body of the
outer loop for `t`. -/
theorem subdivideTriangle_tlist_locked (s : SubdivideState) (t h : Nat)
    (hh : h ≤ s.mesh.tcount) (hs : s.mesh.selectedT h = true) (ht : h ≠ t) (j : Nat) :
    (subdivideTriangle s t).mesh.tlist h j = s.mesh.tlist h j := by
  unfold subdivideTriangle
  split
  · rfl
  · have hx := centralMesh_extends s t
    show (stitched s t 3).tlist h j = _
    rw [stitched_tlist_locked s t 3 h (le_trans hh hx.tc) (by rw [hx.sel h hh]; exact hs),
      centralMesh_tlist_other s t h ht, cornerMesh_tlist_old s t h hh]

theorem cornerMesh_tcount (s : SubdivideState) (t : Nat) :
    (cornerMesh s t).tcount = s.mesh.tcount + 3 := by
  simp only [cornerMesh, foldl3, cornerStep, (midpoints_mesh s t).1]

theorem centralMesh_tcount (s : SubdivideState) (t : Nat) :
    (centralMesh s t).tcount = s.mesh.tcount + 3 := by
  simp only [centralMesh, foldl3, centralStep, cornerMesh_tcount]

/-- The three corner triangles right after the corner loop of triangle `t`. -/
theorem cornerMesh_new (s : SubdivideState) (t : Nat) (ht : t ≤ s.mesh.tcount) (i : Nat)
    (hi : i < 3) :
    (cornerMesh s t).tlist (s.mesh.tcount + 1 + i) 0 = s.mesh.tlist t i ∧
    (cornerMesh s t).tlist (s.mesh.tcount + 1 + i) 1 = (midpoints s t).newMidpointVertices i ∧
    (cornerMesh s t).tlist (s.mesh.tcount + 1 + i) 2
      = (midpoints s t).newMidpointVertices ((i + 2) % 3) ∧
    (cornerMesh s t).selectedT (s.mesh.tcount + 1 + i) = true ∧
    (∀ k, k < 3 → (cornerMesh s t).nlist (s.mesh.tcount + 1 + i) k = s.mesh.nlist t k) := by
  obtain ⟨e1, e2, e3, e4, e5⟩ := midpoints_mesh s t
  have h1 : t ≠ s.mesh.tcount + 1 := by omega
  have h2 : t ≠ s.mesh.tcount + 1 + 1 := by omega
  have h3 : t ≠ s.mesh.tcount + 1 + 1 + 1 := by omega
  interval_cases i
  · refine ⟨?_, ?_, ?_, ?_, ?_⟩ <;>
      simp [cornerMesh, foldl3, cornerStep, set2, set1, e1, e2, e3, e4, h1, h2, h3]
    intro k hk
    interval_cases k <;> simp [h1]
  · refine ⟨?_, ?_, ?_, ?_, ?_⟩ <;>
      simp [cornerMesh, foldl3, cornerStep, set2, set1, e1, e2, e3, e4, h1, h2, h3]
    intro k hk
    interval_cases k <;> simp [h1, h2]
  · refine ⟨?_, ?_, ?_, ?_, ?_⟩ <;>
      simp [cornerMesh, foldl3, cornerStep, set2, set1, e1, e2, e3, e4, h1, h2, h3]
    intro k hk
    interval_cases k <;> simp [h1, h2, h3]

theorem centralMesh_row (s : SubdivideState) (t i : Nat) (hi : i < 3) :
    (centralMesh s t).tlist t i = (midpoints s t).newMidpointVertices i := by
  interval_cases i <;> simp [centralMesh, foldl3, centralStep, set2]

/-! ## The edge-midpoint cache -/

theorem lookup_cons_ne {k k' : Nat × Nat} (x : Nat) (l : EdgeMap) (h : k ≠ k') :
    List.lookup k ((k', x) :: l) = List.lookup k l := by
  have hb : (k == k') = false := by simpa using h
  rw [List.lookup_cons, hb]

theorem lookup_mem {k : Nat × Nat} {x : Nat} {l : EdgeMap} (h : List.lookup k l = some x) :
    (k, x) ∈ l := by
  obtain ⟨l1, l2, rfl, _⟩ := List.lookup_eq_some_iff.mp h
  simp

theorem lookup_none_iff {k : Nat × Nat} {l : EdgeMap} :
    List.lookup k l = none ↔ k ∉ l.map Prod.fst := by
  simp only [List.lookup_eq_none_iff, List.mem_map, not_exists, not_and]
  constructor
  · intro h p hp e
    have := h p hp
    simp [e] at this
  · intro h p hp
    simpa using fun e => h p hp e.symm

theorem lookup_of_mem {k : Nat × Nat} {x : Nat} {l : EdgeMap}
    (hn : (l.map Prod.fst).Nodup) (h : (k, x) ∈ l) : List.lookup k l = some x := by
  induction l with
  | nil => simp at h
  | cons p l ih =>
    obtain ⟨k', x'⟩ := p
    simp only [List.map_cons, List.nodup_cons] at hn
    rcases List.mem_cons.mp h with he | hm
    · injection he with h1 h2
      subst h1; subst h2
      simp
    · have hne : k ≠ k' := by
        intro e
        subst e
        exact hn.1 (List.mem_map.mpr ⟨(k, x), hm, rfl⟩)
      rw [lookup_cons_ne _ _ hne]
      exact ih hn.2 hm

theorem midpointStep_inv (t : Nat) (v0 : Nat) (base : EdgeMap) (e : Nat → Nat × Nat) (j : Nat)
    (ms : MidState) (h : MidInv v0 base e j ms) :
    MidInv v0 base e (j + 1) (midpointStep t e ms j) := by
  unfold midpointStep
  split
  · next hnone =>
    have hk : e j ∉ ms.edgeVertexMap.map Prod.fst := lookup_none_iff.mp hnone
    refine ⟨?_, ?_, ?_, ?_, ?_, ?_, ?_⟩
    · simp [h.vc]; omega
    · simp only [List.map_cons, List.nodup_cons]
      exact ⟨hk, h.keys⟩
    · simp only [List.map_cons, List.nodup_cons]
      refine ⟨?_, h.vals⟩
      intro hm
      obtain ⟨kx, hkx, e2⟩ := List.mem_map.mp hm
      have := (h.rng kx hkx).2
      omega
    · intro kx hkx
      rcases List.mem_cons.mp hkx with he | hm
      · subst he
        simp only []
        have := h.vc
        omega
      · have := h.rng kx hm
        simp only []
        omega
    · intro i hi
      rcases Nat.lt_succ_iff_lt_or_eq.mp hi with hlt | heq
      · have hl := h.nm i hlt
        have hne : e i ≠ e j := by
          intro he
          rw [he, hnone] at hl
          exact Option.noConfusion hl
        have hij : i ≠ j := by omega
        simp only [lookup_cons_ne _ _ hne, hl, set1, hij, if_false]
      · subst heq
        simp [set1]
    · intro k x hb
      have hl := h.stable k x hb
      have hne : k ≠ e j := by
        intro he
        rw [he, hnone] at hl
        exact Option.noConfusion hl
      simp only [lookup_cons_ne _ _ hne, hl]
    · intro k
      simp only [List.map_cons, List.mem_cons, h.keyset k]
      constructor
      · rintro (he | hb | ⟨i, hi, he⟩)
        · exact Or.inr ⟨j, Nat.lt_succ_self _, he⟩
        · exact Or.inl hb
        · exact Or.inr ⟨i, Nat.lt_succ_of_lt hi, he⟩
      · rintro (hb | ⟨i, hi, he⟩)
        · exact Or.inr (Or.inl hb)
        · rcases Nat.lt_succ_iff_lt_or_eq.mp hi with hlt | heq
          · exact Or.inr (Or.inr ⟨i, hlt, he⟩)
          · subst heq
            exact Or.inl he
  · next x hsome =>
    refine ⟨h.vc, h.keys, h.vals, h.rng, ?_, h.stable, ?_⟩
    · intro i hi
      rcases Nat.lt_succ_iff_lt_or_eq.mp hi with hlt | heq
      · have hij : i ≠ j := by omega
        simp only [set1, hij, if_false]
        exact h.nm i hlt
      · subst heq
        simp [set1, hsome]
    · intro k
      rw [h.keyset k]
      constructor
      · rintro (hb | ⟨i, hi, he⟩)
        · exact Or.inl hb
        · exact Or.inr ⟨i, Nat.lt_succ_of_lt hi, he⟩
      · rintro (hb | ⟨i, hi, he⟩)
        · exact Or.inl hb
        · rcases Nat.lt_succ_iff_lt_or_eq.mp hi with hlt | heq
          · exact Or.inr ⟨i, hlt, he⟩
          · subst heq
            have : k ∈ ms.edgeVertexMap.map Prod.fst := by
              rw [he]
              exact List.mem_map.mpr ⟨(e i, x), lookup_mem hsome, rfl⟩
            exact (h.keyset k).mp this

theorem edgesOf_congr (m m' : myObjType) (t : Nat) (h : ∀ i, m.tlist t i = m'.tlist t i) :
    edgesOf m t = edgesOf m' t := by
  funext i
  unfold edgesOf
  split <;> simp only [h]

theorem midpoints_inv (m0 : myObjType) (p : Nat) (s : SubdivideState) (t : Nat)
    (h : LoopInv m0 p s) :
    MidInv m0.vcount s.edgeVertexMap (edgesOf s.mesh t) 3 (midpoints s t) := by
  have h0 : MidInv m0.vcount s.edgeVertexMap (edgesOf s.mesh t) 0
      ⟨s.mesh, s.edgeVertexMap, fun _ => 0⟩ :=
    ⟨h.vc, h.keys, h.vals, h.rng, fun i hi => absurd hi (Nat.not_lt_zero _), fun _ _ hb => hb,
      fun k => ⟨fun hk => Or.inl hk, fun hk => hk.elim id (fun ⟨i, hi, _⟩ =>
        absurd hi (Nat.not_lt_zero _))⟩⟩
  simp only [midpoints, foldl3]
  exact midpointStep_inv t _ _ _ 2 _ (midpointStep_inv t _ _ _ 1 _ (midpointStep_inv t _ _ _ 0 _ h0))

theorem cornerStep_vcount (t : Nat) (nm : Nat → Nat) (m : myObjType) (i : Nat) :
    (cornerStep t nm m i).vcount = m.vcount ∧ (cornerStep t nm m i).vlist = m.vlist :=
  ⟨rfl, rfl⟩

theorem centralStep_fields (t : Nat) (nm : Nat → Nat) (m : myObjType) (i : Nat) :
    (centralStep t nm m i).vcount = m.vcount ∧ (centralStep t nm m i).vlist = m.vlist ∧
    (centralStep t nm m i).tcount = m.tcount ∧ (centralStep t nm m i).nlist = m.nlist ∧
    (centralStep t nm m i).selectedT = m.selectedT :=
  ⟨rfl, rfl, rfl, rfl, rfl⟩

theorem stitchStep_vcount (t : Nat) (nm : Nat → Nat) (m : myObjType) (v : Nat) :
    (stitchStep t nm m v).vcount = m.vcount ∧ (stitchStep t nm m v).vlist = m.vlist := by
  unfold stitchStep
  simp only []
  split
  · exact ⟨rfl, rfl⟩
  · exact ⟨rfl, rfl⟩

theorem cornerMesh_vcount (s : SubdivideState) (t : Nat) :
    (cornerMesh s t).vcount = (midpoints s t).mesh.vcount ∧
    (cornerMesh s t).vlist = (midpoints s t).mesh.vlist :=
  ⟨rfl, rfl⟩

theorem centralMesh_fields (s : SubdivideState) (t : Nat) :
    (centralMesh s t).vcount = (midpoints s t).mesh.vcount ∧
    (centralMesh s t).vlist = (midpoints s t).mesh.vlist ∧
    (centralMesh s t).nlist = (cornerMesh s t).nlist ∧
    (centralMesh s t).selectedT = (cornerMesh s t).selectedT :=
  ⟨rfl, rfl, rfl, rfl⟩

theorem stitched_vcount (s : SubdivideState) (t n : Nat) :
    (stitched s t n).vcount = (midpoints s t).mesh.vcount ∧
    (stitched s t n).vlist = (midpoints s t).mesh.vlist := by
  induction n with
  | zero => exact ⟨rfl, rfl⟩
  | succ n ih =>
    rw [stitched_succ, (stitchStep_vcount _ _ _ _).1, (stitchStep_vcount _ _ _ _).2]
    exact ih

theorem stitched_extends_central (s : SubdivideState) (t n : Nat) :
    Extends (centralMesh s t) (stitched s t n) := by
  induction n with
  | zero => exact Extends.refl _
  | succ n ih => rw [stitched_succ]; exact ih.trans (stitchStep_extends _ _ _ _)

/-- The central triangle and the three corner triangles of `t` right after the body
of the outer loop for a selected triangle `t`. -/
theorem subdivideTriangle_new (s : SubdivideState) (t : Nat) (ht : t ≤ s.mesh.tcount)
    (hs : s.mesh.selectedT t = true) :
    (subdivideTriangle s t).edgeVertexMap = (midpoints s t).edgeVertexMap ∧
    (subdivideTriangle s t).mesh.vcount = (midpoints s t).mesh.vcount ∧
    s.mesh.tcount + 3 ≤ (subdivideTriangle s t).mesh.tcount ∧
    (∀ i, i < 3 →
      (subdivideTriangle s t).mesh.tlist t i = (midpoints s t).newMidpointVertices i) ∧
    (∀ i, i < 3 →
      (subdivideTriangle s t).mesh.selectedT (s.mesh.tcount + 1 + i) = true ∧
      (subdivideTriangle s t).mesh.tlist (s.mesh.tcount + 1 + i) 0 = s.mesh.tlist t i ∧
      (subdivideTriangle s t).mesh.tlist (s.mesh.tcount + 1 + i) 1
        = (midpoints s t).newMidpointVertices i ∧
      (subdivideTriangle s t).mesh.tlist (s.mesh.tcount + 1 + i) 2
        = (midpoints s t).newMidpointVertices ((i + 2) % 3) ∧
      ∀ k, k < 3 → (subdivideTriangle s t).mesh.nlist (s.mesh.tcount + 1 + i) k
        = s.mesh.nlist t k) := by
  have hst : subdivideTriangle s t = ⟨stitched s t 3, (midpoints s t).edgeVertexMap⟩ := by
    simp [subdivideTriangle, hs]
  have hx := centralMesh_extends s t
  have hy := stitched_extends_central s t 3
  have htc := centralMesh_tcount s t
  rw [hst]
  refine ⟨rfl, (stitched_vcount s t 3).1, ?_, ?_, ?_⟩
  · show s.mesh.tcount + 3 ≤ (stitched s t 3).tcount
    have := hy.tc
    omega
  · intro i hi
    show (stitched s t 3).tlist t i = _
    rw [stitched_tlist_locked s t 3 t (le_trans ht hx.tc) (by rw [hx.sel t ht]; exact hs)]
    exact centralMesh_row s t i hi
  · intro i hi
    show (stitched s t 3).selectedT _ = true ∧ (stitched s t 3).tlist _ 0 = _ ∧
      (stitched s t 3).tlist _ 1 = _ ∧ (stitched s t 3).tlist _ 2 = _ ∧
      ∀ k, k < 3 → (stitched s t 3).nlist _ k = _
    obtain ⟨c0, c1, c2, c3, c4⟩ := cornerMesh_new s t ht i hi
    have hle : s.mesh.tcount + 1 + i ≤ (centralMesh s t).tcount := by omega
    have hne : s.mesh.tcount + 1 + i ≠ t := by omega
    have hsl : (centralMesh s t).selectedT (s.mesh.tcount + 1 + i) = true := by
      rw [(centralMesh_fields s t).2.2.2]; exact c3
    refine ⟨?_, ?_, ?_, ?_, ?_⟩
    · rw [hy.sel _ hle]; exact hsl
    · rw [stitched_tlist_locked s t 3 _ hle hsl, centralMesh_tlist_other s t _ hne]; exact c0
    · rw [stitched_tlist_locked s t 3 _ hle hsl, centralMesh_tlist_other s t _ hne]; exact c1
    · rw [stitched_tlist_locked s t 3 _ hle hsl, centralMesh_tlist_other s t _ hne]; exact c2
    · intro k hk
      rw [hy.nl _ hle, (centralMesh_fields s t).2.2.1]
      exact c4 k hk

theorem loopInv_init (m0 : myObjType) : LoopInv m0 0 (stateAfter m0 0) where
  ext := Extends.refl _
  vc := rfl
  keys := List.nodup_nil
  vals := List.nodup_nil
  rng := fun _ h => absurd h (List.not_mem_nil _)
  keyset := fun k => ⟨fun h => absurd h (List.not_mem_nil _),
    fun ⟨t, _, h1, h2, _⟩ => by omega⟩
  central := fun t _ h1 h2 => by omega
  pending := fun _ _ _ _ _ => rfl
  corners := fun t h1 h2 => by omega

theorem loopInv_step (m0 : myObjType) (p : Nat) (s : SubdivideState) (h : LoopInv m0 p s)
    (hp : p + 1 ≤ m0.tcount) : LoopInv m0 (p + 1) (subdivideTriangle s (p + 1)) := by
  have hsel0 : s.mesh.selectedT (p + 1) = m0.selectedT (p + 1) := h.ext.sel _ hp
  by_cases hs : m0.selectedT (p + 1) = true
  · -- the triangle is selected
    have hs' : s.mesh.selectedT (p + 1) = true := hsel0.trans hs
    have htc : p + 1 ≤ s.mesh.tcount := le_trans hp h.ext.tc
    have hmid := midpoints_inv m0 p s (p + 1) h
    have hedges : edgesOf s.mesh (p + 1) = edgesOf m0 (p + 1) :=
      edgesOf_congr _ _ _ (h.pending (p + 1) (Nat.lt_succ_self _) hp hs)
    rw [hedges] at hmid
    obtain ⟨n1, n2, n3, n4, n5⟩ := subdivideTriangle_new s (p + 1) htc hs'
    have hext := subdivideTriangle_extends s (p + 1)
    have hkeep : ∀ x, x ≤ m0.tcount → m0.selectedT x = true → x ≠ p + 1 → ∀ j,
        (subdivideTriangle s (p + 1)).mesh.tlist x j = s.mesh.tlist x j := fun x hx hxs hne j =>
      subdivideTriangle_tlist_locked s (p + 1) x (le_trans hx h.ext.tc)
        (by rw [h.ext.sel x hx]; exact hxs) hne j
    refine ⟨h.ext.trans hext, ?_, ?_, ?_, ?_, ?_, ?_, ?_, ?_⟩
    · rw [n1, n2]; exact hmid.vc
    · rw [n1]; exact hmid.keys
    · rw [n1]; exact hmid.vals
    · rw [n1, n2]; exact hmid.rng
    · intro k
      rw [n1, hmid.keyset k, h.keyset k]
      constructor
      · rintro (⟨t, i, h1, h2, h3, h4, h5⟩ | ⟨i, hi, he⟩)
        · exact ⟨t, i, h1, Nat.le_succ_of_le h2, h3, h4, h5⟩
        · exact ⟨p + 1, i, Nat.succ_pos _, le_refl _, hs, hi, he⟩
      · rintro ⟨t, i, h1, h2, h3, h4, h5⟩
        rcases Nat.lt_succ_iff_lt_or_eq.mp (Nat.lt_succ_of_le h2) with hlt | heq
        · exact Or.inl ⟨t, i, h1, Nat.lt_succ_iff.mp hlt, h3, h4, h5⟩
        · subst heq
          exact Or.inr ⟨i, h4, h5⟩
    · intro t i h1 h2 h3 h4
      rw [n1]
      rcases Nat.lt_succ_iff_lt_or_eq.mp (Nat.lt_succ_of_le h2) with hlt | heq
      · rw [hkeep t (by omega) h3 (by omega)]
        exact hmid.stable _ _ (h.central t i h1 (Nat.lt_succ_iff.mp hlt) h3 h4)
      · subst heq
        rw [n4 i h4]
        exact hmid.nm i h4
    · intro t h1 h2 h3 i
      rw [hkeep t h2 h3 (by omega)]
      exact h.pending t (by omega) h2 h3 i
    · intro t h1 h2 h3
      rcases Nat.lt_succ_iff_lt_or_eq.mp (Nat.lt_succ_of_le h2) with hlt | heq
      · obtain ⟨c, c1, c2, c3⟩ := h.corners t h1 (Nat.lt_succ_iff.mp hlt) h3
        refine ⟨c, c1, le_trans c2 hext.tc, fun i hi => ?_⟩
        obtain ⟨d0, d1, d2, d3, d4⟩ := c3 i hi
        have hle : c + 1 + i ≤ s.mesh.tcount := by omega
        have hne : c + 1 + i ≠ p + 1 := by omega
        have hrow : ∀ j, (subdivideTriangle s (p + 1)).mesh.tlist (c + 1 + i) j
            = s.mesh.tlist (c + 1 + i) j :=
          subdivideTriangle_tlist_locked s (p + 1) _ hle d0 hne
        have hrow' : ∀ j, (subdivideTriangle s (p + 1)).mesh.tlist t j = s.mesh.tlist t j :=
          hkeep t (by omega) h3 (by omega)
        refine ⟨?_, ?_, ?_, ?_, ?_⟩
        · rw [hext.sel _ hle]; exact d0
        · rw [hrow]; exact d1
        · rw [hrow, hrow']; exact d2
        · rw [hrow, hrow']; exact d3
        · intro k hk
          rw [hext.nl _ hle]; exact d4 k hk
      · subst heq
        refine ⟨s.mesh.tcount, h.ext.tc, n3, fun i hi => ?_⟩
        obtain ⟨d0, d1, d2, d3, d4⟩ := n5 i hi
        refine ⟨d0, ?_, ?_, ?_, ?_⟩
        · rw [d1]; exact h.pending _ (Nat.lt_succ_self _) hp hs i
        · rw [d2, n4 i hi]
        · rw [d3, n4 _ (Nat.mod_lt _ (by decide))]
        · intro k hk
          rw [d4 k hk]; exact h.ext.nl _ hp k
  · -- the triangle is not selected
    have hs' : s.mesh.selectedT (p + 1) = false := by
      rw [hsel0]; simpa using hs
    have hst : subdivideTriangle s (p + 1) = s := by simp [subdivideTriangle, hs']
    rw [hst]
    have hlt : ∀ t, t ≤ p + 1 → m0.selectedT t = true → t ≤ p := by
      intro t h1 h2
      rcases Nat.lt_succ_iff_lt_or_eq.mp (Nat.lt_succ_of_le h1) with hlt | heq
      · exact Nat.lt_succ_iff.mp hlt
      · subst heq; exact absurd h2 hs
    refine ⟨h.ext, h.vc, h.keys, h.vals, h.rng, ?_, ?_, ?_, ?_⟩
    · intro k
      rw [h.keyset k]
      constructor
      · rintro ⟨t, i, h1, h2, h3, h4, h5⟩
        exact ⟨t, i, h1, Nat.le_succ_of_le h2, h3, h4, h5⟩
      · rintro ⟨t, i, h1, h2, h3, h4, h5⟩
        exact ⟨t, i, h1, hlt t h2 h3, h3, h4, h5⟩
    · intro t i h1 h2 h3 h4
      exact h.central t i h1 (hlt t h2 h3) h3 h4
    · intro t h1 h2 h3 i
      exact h.pending t (by omega) h2 h3 i
    · intro t h1 h2 h3
      exact h.corners t h1 (hlt t h2 h3) h3

theorem loopInv_stateAfter (m0 : myObjType) (p : Nat) (hp : p ≤ m0.tcount) :
    LoopInv m0 p (stateAfter m0 p) := by
  induction p with
  | zero => exact loopInv_init m0
  | succ p ih =>
    rw [stateAfter_succ]
    exact loopInv_step m0 p _ (ih (by omega)) hp

theorem loopInv_final (m0 : myObjType) : LoopInv m0 m0.tcount (subdivideLoop m0) :=
  loopInv_stateAfter m0 m0.tcount (le_refl _)

/-! ## Edge de-duplication -/

theorem edgeKey_mk (a b : Nat) : edgeKey s(a, b) = (min a b, max a b) := rfl

theorem edgeKey_injective : Function.Injective edgeKey := by
  intro e e'
  induction e using Sym2.ind with
  | _ a b =>
    induction e' using Sym2.ind with
    | _ c d =>
      intro h
      simp only [edgeKey_mk, Prod.mk.injEq] at h
      rw [Sym2.eq_iff]
      omega

theorem edgesOf_eq_edgeKey (m : myObjType) (t i : Nat) (hi : i < 3) :
    edgesOf m t i = edgeKey (edgeOf m t i) := by
  interval_cases i
  · rfl
  · rfl
  · simp only [edgesOf, edgeOf, edgeKey_mk]
    rw [min_comm, max_comm]

theorem mem_selectedEdges (m : myObjType) (e : Sym2 Nat) :
    e ∈ selectedEdges m ↔
      ∃ t i, 1 ≤ t ∧ t ≤ m.tcount ∧ m.selectedT t = true ∧ i < 3 ∧ e = edgeOf m t i := by
  simp only [selectedEdges, Finset.mem_biUnion, Finset.mem_filter, Finset.mem_Icc,
    Finset.mem_insert, Finset.mem_singleton]
  constructor
  · rintro ⟨t, ⟨⟨h1, h2⟩, h3⟩, h | h | h⟩
    · exact ⟨t, 0, h1, h2, h3, by decide, h⟩
    · exact ⟨t, 1, h1, h2, h3, by decide, h⟩
    · exact ⟨t, 2, h1, h2, h3, by decide, h⟩
  · rintro ⟨t, i, h1, h2, h3, h4, h5⟩
    refine ⟨t, ⟨⟨h1, h2⟩, h3⟩, ?_⟩
    interval_cases i
    · exact Or.inl h5
    · exact Or.inr (Or.inl h5)
    · exact Or.inr (Or.inr h5)

theorem selectedEdges_image (m : myObjType) :
    (selectedEdges m).image edgeKey
      = ((subdivideLoop m).edgeVertexMap.map Prod.fst).toFinset := by
  have h := loopInv_final m
  ext k
  simp only [Finset.mem_image, List.mem_toFinset, h.keyset k, mem_selectedEdges]
  constructor
  · rintro ⟨e, ⟨t, i, h1, h2, h3, h4, h5⟩, rfl⟩
    exact ⟨t, i, h1, h2, h3, h4, by rw [h5, edgesOf_eq_edgeKey m t i h4]⟩
  · rintro ⟨t, i, h1, h2, h3, h4, h5⟩
    exact ⟨edgeOf m t i, ⟨t, i, h1, h2, h3, h4, rfl⟩, by rw [h5, edgesOf_eq_edgeKey m t i h4]⟩

theorem subdivideLoop_vcount (m : myObjType) :
    (subdivideLoop m).mesh.vcount = m.vcount + (selectedEdges m).card := by
  have h := loopInv_final m
  rw [h.vc, ← Finset.card_image_of_injective _ edgeKey_injective, selectedEdges_image,
    List.toFinset_card_of_nodup h.keys, List.length_map]

theorem midpointOf_selected (m : myObjType) (t i : Nat) (h1 : 1 ≤ t) (h2 : t ≤ m.tcount)
    (h3 : m.selectedT t = true) (hi : i < 3) :
    (subdivideLoop m).edgeVertexMap.lookup (edgeKey (edgeOf m t i))
      = some (midpointOf m (m.tlist t i) (m.tlist t ((i + 1) % 3))) ∧
    midpointOf m (m.tlist t i) (m.tlist t ((i + 1) % 3)) = (subdivideLoop m).mesh.tlist t i := by
  have h := (loopInv_final m).central t i h1 h2 h3 hi
  rw [edgesOf_eq_edgeKey m t i hi] at h
  have e : edgeKey (edgeOf m t i)
      = (min (m.tlist t i) (m.tlist t ((i + 1) % 3)), max (m.tlist t i) (m.tlist t ((i + 1) % 3))) :=
    rfl
  have hm : midpointOf m (m.tlist t i) (m.tlist t ((i + 1) % 3)) = (subdivideLoop m).mesh.tlist t i := by
    unfold midpointOf
    rw [← e, h]
    rfl
  exact ⟨by rw [hm]; exact h, hm⟩

theorem midpointOf_edge (m : myObjType) (a b : Nat) (h : s(a, b) ∈ selectedEdges m) :
    (subdivideLoop m).edgeVertexMap.lookup (edgeKey s(a, b)) = some (midpointOf m a b) := by
  obtain ⟨t, i, h1, h2, h3, h4, h5⟩ := (mem_selectedEdges m _).mp h
  have hl := (midpointOf_selected m t i h1 h2 h3 h4).1
  rw [← h5] at hl
  have : ∃ x, (subdivideLoop m).edgeVertexMap.lookup (edgeKey s(a, b)) = some x := ⟨_, hl⟩
  obtain ⟨x, hx⟩ := this
  rw [hx]
  unfold midpointOf
  rw [← edgeKey_mk, hx]
  rfl

/-- C3. One call of `subdivide` raises `vcount` by exactly the number of distinct
unordered vertex pairs that are an edge of a triangle selected at entry. Every selected
triangle ends with the vertex `midpointOf m a b` in the place of its edge `{a, b}`, a
handle that depends on the unordered pair only (not on the triangle, nor on the order
of `a` and `b`), so two selected triangles sharing an edge receive the same midpoint
handle for it. The handle is a vertex created by this call, different edges receive
different handles, and every vertex created by the call is the midpoint of such an
edge. -/
theorem subdivide_edge_dedup (d : Derived) (m : myObjType) :
    (subdivide d m).vcount = m.vcount + (selectedEdges m).card ∧
    (∀ t i, 1 ≤ t → t ≤ m.tcount → m.selectedT t = true → i < 3 →
      (subdivide d m).tlist t i = midpointOf m (m.tlist t i) (m.tlist t ((i + 1) % 3))) ∧
    (∀ a b, midpointOf m a b = midpointOf m b a) ∧
    (∀ a b, s(a, b) ∈ selectedEdges m →
      m.vcount < midpointOf m a b ∧ midpointOf m a b ≤ (subdivide d m).vcount) ∧
    (∀ a b c e, s(a, b) ∈ selectedEdges m → s(c, e) ∈ selectedEdges m →
      midpointOf m a b = midpointOf m c e → s(a, b) = s(c, e)) ∧
    (∀ x, m.vcount < x → x ≤ (subdivide d m).vcount →
      ∃ a b, s(a, b) ∈ selectedEdges m ∧ midpointOf m a b = x) := by
  have h := loopInv_final m
  have hv : (subdivide d m).vcount = (subdivideLoop m).mesh.vcount := rfl
  have hrng : ∀ a b, s(a, b) ∈ selectedEdges m →
      m.vcount < midpointOf m a b ∧ midpointOf m a b ≤ (subdivide d m).vcount := by
    intro a b hab
    exact h.rng _ (lookup_mem (midpointOf_edge m a b hab))
  have hinj : ∀ a b c e, s(a, b) ∈ selectedEdges m → s(c, e) ∈ selectedEdges m →
      midpointOf m a b = midpointOf m c e → s(a, b) = s(c, e) := by
    intro a b c e hab hce heq
    have m1 := lookup_mem (midpointOf_edge m a b hab)
    have m2 := lookup_mem (midpointOf_edge m c e hce)
    have := List.inj_on_of_nodup_map h.vals m1 m2 heq
    exact edgeKey_injective (Prod.ext_iff.mp this).1
  refine ⟨by rw [hv]; exact subdivideLoop_vcount m, ?_, ?_, hrng, hinj, ?_⟩
  · intro t i h1 h2 h3 hi
    exact (midpointOf_selected m t i h1 h2 h3 hi).2.symm
  · intro a b
    unfold midpointOf
    rw [min_comm, max_comm]
  · -- every new vertex is a midpoint: the injective map into the new handles is onto
    have hsymm : ∀ a b, midpointOf m a b = midpointOf m b a := by
      intro a b
      unfold midpointOf
      rw [min_comm, max_comm]
    let f : Sym2 Nat → Nat := Sym2.lift ⟨fun a b => midpointOf m a b, hsymm⟩
    have hsub : (selectedEdges m).image f ⊆ Finset.Ioc m.vcount (subdivide d m).vcount := by
      intro x hx
      obtain ⟨e, he, rfl⟩ := Finset.mem_image.mp hx
      induction e using Sym2.ind with
      | _ a b => exact Finset.mem_Ioc.mpr (hrng a b he)
    have hcard : ((selectedEdges m).image f).card = (selectedEdges m).card := by
      apply Finset.card_image_of_injOn
      intro e he e' he' hee
      induction e using Sym2.ind with
      | _ a b =>
        induction e' using Sym2.ind with
        | _ c e => exact hinj a b c e he he' hee
    have heq := Finset.eq_of_subset_of_card_le hsub (by
      rw [hcard, Nat.card_Ioc, hv, subdivideLoop_vcount]; omega)
    intro x hx1 hx2
    have hx : x ∈ (selectedEdges m).image f := by
      rw [heq]; exact Finset.mem_Ioc.mpr ⟨hx1, hx2⟩
    obtain ⟨e, he, hfe⟩ := Finset.mem_image.mp hx
    induction e using Sym2.ind with
    | _ a b => exact ⟨a, b, he, hfe⟩

/-! ## Positions of the midpoints -/

theorem dadd_comm (x y : Double) : dadd x y = dadd y x := by
  cases x with
  | nan => cases y <;> rfl
  | inf a =>
    cases y with
    | nan => rfl
    | inf b =>
      simp only [dadd]
      by_cases h : a = b
      · subst h; rfl
      · rw [if_neg h, if_neg (show ¬ b = a from fun e => h e.symm)]
    | fin b y => rfl
  | fin a x =>
    cases y with
    | nan => rfl
    | inf b => rfl
    | fin b y =>
      simp only [dadd]
      by_cases h : a = b
      · subst h
        rw [if_pos rfl, if_pos rfl, Nat.add_comm]
      · rw [if_neg h, if_neg (show ¬ b = a from fun e => h e.symm)]
        by_cases hxy : x = y
        · subst hxy
          rw [if_pos rfl, if_pos rfl]
        · rw [if_neg hxy, if_neg (show ¬ y = x from fun e => hxy e.symm)]
          by_cases hlt : y < x
          · rw [if_pos hlt, if_neg (show ¬ x < y by omega)]
          · rw [if_neg hlt, if_pos (show x < y by omega)]

theorem average_comm (v1 v2 : Nat → Coord) (c : Nat) : average v1 v2 c = average v2 v1 c := by
  simp only [average]
  rw [dadd_comm]

/-- The sum of the doubles `0.1` and `0.2` rounds up, so their `average` is the double
`0.15000000000000002`, one unit in the last place above the double nearest to `0.15`. -/
theorem average_rounds :
    average (fun _ => Double.fin false (7205759403792794 * 2 ^ 1018))
      (fun _ => Double.fin false (7205759403792794 * 2 ^ 1019)) 0
      = Double.fin false (5404319552844596 * 2 ^ 1019) := by
  decide

/-- The sum of the largest finite double with itself overflows, and so does their
`average`. -/
theorem average_overflows :
    average (fun _ => Double.fin false ((2 ^ 53 - 1) * 2 ^ 2045))
      (fun _ => Double.fin false ((2 ^ 53 - 1) * 2 ^ 2045)) 0 = Double.inf false := by
  decide

theorem midpointStep_pos (m0 : myObjType) (t : Nat) (base : EdgeMap) (e : Nat → Nat × Nat)
    (j : Nat) (ms : MidState) (hinv : MidInv m0.vcount base e j ms)
    (hext : Extends m0 ms.mesh)
    (hj : e j = (min (ms.mesh.tlist t j) (ms.mesh.tlist t ((j + 1) % 3)),
      max (ms.mesh.tlist t j) (ms.mesh.tlist t ((j + 1) % 3))))
    (hw1 : ms.mesh.tlist t j ≤ m0.vcount) (hw2 : ms.mesh.tlist t ((j + 1) % 3) ≤ m0.vcount)
    (hpos : PosInv m0 ms.mesh.vlist ms.edgeVertexMap) :
    PosInv m0 (midpointStep t e ms j).mesh.vlist (midpointStep t e ms j).edgeVertexMap := by
  unfold midpointStep
  split
  · intro kx hkx a b ha hb hk c
    rcases List.mem_cons.mp hkx with he | hm
    · subst he
      simp only [] at hk
      rw [hj, Prod.mk.injEq] at hk
      simp only [set1, if_true, average]
      rw [hext.vl _ hw1, hext.vl _ hw2]
      have : (ms.mesh.tlist t j = a ∧ ms.mesh.tlist t ((j + 1) % 3) = b) ∨
          (ms.mesh.tlist t j = b ∧ ms.mesh.tlist t ((j + 1) % 3) = a) := by omega
      rcases this with ⟨h1, h2⟩ | ⟨h1, h2⟩
      · rw [h1, h2]
      · rw [h1, h2, dadd_comm]
    · have hr := hinv.rng kx hm
      have hne : kx.2 ≠ ms.mesh.vcount + 1 := by omega
      simp only [set1, hne, if_false]
      exact hpos kx hm a b ha hb hk c
  · exact hpos

theorem midpoints_pos (m0 : myObjType) (p : Nat) (s : SubdivideState) (t : Nat)
    (h : LoopInv m0 p s) (hw : ∀ i, i < 3 → s.mesh.tlist t i ≤ m0.vcount)
    (hpos : PosInv m0 s.mesh.vlist s.edgeVertexMap) :
    PosInv m0 (midpoints s t).mesh.vlist (midpoints s t).edgeVertexMap := by
  have h0 : MidInv m0.vcount s.edgeVertexMap (edgesOf s.mesh t) 0
      ⟨s.mesh, s.edgeVertexMap, fun _ => 0⟩ :=
    ⟨h.vc, h.keys, h.vals, h.rng, fun i hi => absurd hi (Nat.not_lt_zero _), fun _ _ hb => hb,
      fun k => ⟨fun hk => Or.inl hk, fun hk => hk.elim id (fun ⟨i, hi, _⟩ =>
        absurd hi (Nat.not_lt_zero _))⟩⟩
  have h1 := midpointStep_inv t _ _ _ 0 _ h0
  have h2 := midpointStep_inv t _ _ _ 1 _ h1
  have x0 : Extends m0 (⟨s.mesh, s.edgeVertexMap, fun _ => 0⟩ : MidState).mesh := h.ext
  have x1 := x0.trans (midpointStep_extends t (edgesOf s.mesh t) _ 0)
  have x2 := x1.trans (midpointStep_extends t (edgesOf s.mesh t) _ 1)
  have p0 : PosInv m0 (⟨s.mesh, s.edgeVertexMap, fun _ => 0⟩ : MidState).mesh.vlist
      (⟨s.mesh, s.edgeVertexMap, fun _ => 0⟩ : MidState).edgeVertexMap := hpos
  have e0 : (⟨s.mesh, s.edgeVertexMap, fun _ => 0⟩ : MidState).mesh.tlist = s.mesh.tlist := rfl
  have e1 := (midpointStep_mesh t (edgesOf s.mesh t) ⟨s.mesh, s.edgeVertexMap, fun _ => 0⟩ 0).2.1
  have e2 := (midpointStep_mesh t (edgesOf s.mesh t)
    (midpointStep t (edgesOf s.mesh t) ⟨s.mesh, s.edgeVertexMap, fun _ => 0⟩ 0) 1).2.1
  rw [e1] at e2
  have k0 : edgesOf s.mesh t 0 = (min (s.mesh.tlist t 0) (s.mesh.tlist t ((0 + 1) % 3)),
      max (s.mesh.tlist t 0) (s.mesh.tlist t ((0 + 1) % 3))) := rfl
  have k1 : edgesOf s.mesh t 1 = (min (s.mesh.tlist t 1) (s.mesh.tlist t ((1 + 1) % 3)),
      max (s.mesh.tlist t 1) (s.mesh.tlist t ((1 + 1) % 3))) := rfl
  have k2 : edgesOf s.mesh t 2 = (min (s.mesh.tlist t 2) (s.mesh.tlist t ((2 + 1) % 3)),
      max (s.mesh.tlist t 2) (s.mesh.tlist t ((2 + 1) % 3))) := by
    show (min (s.mesh.tlist t 0) (s.mesh.tlist t 2), max (s.mesh.tlist t 0) (s.mesh.tlist t 2))
      = (min (s.mesh.tlist t 2) (s.mesh.tlist t 0), max (s.mesh.tlist t 2) (s.mesh.tlist t 0))
    rw [min_comm, max_comm]
  have p1 := midpointStep_pos m0 t _ _ 0 _ h0 x0 k0 (hw 0 (by decide)) (hw 1 (by decide)) p0
  have p2 := midpointStep_pos m0 t _ _ 1 _ h1 x1 (by rw [e1]; exact k1)
    (by rw [e1]; exact hw 1 (by decide)) (by rw [e1]; exact hw 2 (by decide)) p1
  have p3 := midpointStep_pos m0 t _ _ 2 _ h2 x2 (by rw [e2]; exact k2)
    (by rw [e2]; exact hw 2 (by decide)) (by rw [e2]; exact hw 0 (by decide)) p2
  simp only [midpoints, foldl3]
  exact p3

theorem stateAfter_pos (m0 : myObjType) (hw : WellFormed m0) (p : Nat) (hp : p ≤ m0.tcount) :
    PosInv m0 (stateAfter m0 p).mesh.vlist (stateAfter m0 p).edgeVertexMap := by
  induction p with
  | zero => exact fun kx hkx => absurd hkx (List.not_mem_nil _)
  | succ p ih =>
    have h := loopInv_stateAfter m0 p (by omega)
    rw [stateAfter_succ]
    by_cases hs : m0.selectedT (p + 1) = true
    · have hs' : (stateAfter m0 p).mesh.selectedT (p + 1) = true := by
        rw [h.ext.sel _ hp]; exact hs
      obtain ⟨n1, _, _, _, _⟩ := subdivideTriangle_new (stateAfter m0 p) (p + 1)
        (le_trans hp h.ext.tc) hs'
      have hst : (subdivideTriangle (stateAfter m0 p) (p + 1)).mesh.vlist
          = (midpoints (stateAfter m0 p) (p + 1)).mesh.vlist := by
        have : subdivideTriangle (stateAfter m0 p) (p + 1)
            = ⟨stitched (stateAfter m0 p) (p + 1) 3,
              (midpoints (stateAfter m0 p) (p + 1)).edgeVertexMap⟩ := by
          simp [subdivideTriangle, hs']
        rw [this]
        exact (stitched_vcount _ _ 3).2
      rw [hst, n1]
      apply midpoints_pos m0 p _ _ h _ (ih (by omega))
      intro i hi
      rw [h.pending (p + 1) (Nat.lt_succ_self _) hp hs i]
      exact (hw (p + 1) i (Nat.succ_pos _) hp hi).2
    · have hs' : (stateAfter m0 p).mesh.selectedT (p + 1) = false := by
        rw [h.ext.sel _ hp]; simpa using hs
      have hst : subdivideTriangle (stateAfter m0 p) (p + 1) = stateAfter m0 p := by
        simp [subdivideTriangle, hs']
      rw [hst]
      exact ih (by omega)

/-- C4. Let `t = (v0, v1, v2)` be selected at entry of `subdivide` on a well-formed
mesh and let `m_i = midpointOf m v_i v_(i+1 mod 3)`. Each `m_i` is a vertex created by
the call, and its position is what `average` computes in `double` arithmetic from the
entry positions of `v_i` and `v_(i+1 mod 3)`: the rounded sum, halved.
After the call slot `t` holds `(m0, m1, m2)`, and three consecutive handles
`c+1, c+2, c+3` above the entry `tcount` hold the corner triangles
`(v_i, m_i, m_(i+2 mod 3))`, `i = 0, 1, 2`: one vertex of `t` (an entry vertex) and the
two midpoints of the edges of `t` that meet at it (new vertices). Each corner
triangle is marked selected and carries the three components of the normal that `t`
had at entry. -/
theorem subdivide_one_to_four (d : Derived) (m : myObjType) (hw : WellFormed m) (t : Nat)
    (h1 : 1 ≤ t) (h2 : t ≤ m.tcount) (h3 : m.selectedT t = true) :
    (∀ i, i < 3 →
      m.vcount < midpointOf m (m.tlist t i) (m.tlist t ((i + 1) % 3)) ∧
      midpointOf m (m.tlist t i) (m.tlist t ((i + 1) % 3)) ≤ (subdivide d m).vcount ∧
      (∀ c, (subdivide d m).vlist (midpointOf m (m.tlist t i) (m.tlist t ((i + 1) % 3))) c
        = average (m.vlist (m.tlist t i)) (m.vlist (m.tlist t ((i + 1) % 3))) c) ∧
      (subdivide d m).tlist t i = midpointOf m (m.tlist t i) (m.tlist t ((i + 1) % 3))) ∧
    ∃ c, m.tcount ≤ c ∧ c + 3 ≤ (subdivide d m).tcount ∧ ∀ i, i < 3 →
      (subdivide d m).tlist (c + 1 + i) 0 = m.tlist t i ∧
      m.tlist t i ≤ m.vcount ∧
      (subdivide d m).tlist (c + 1 + i) 1
        = midpointOf m (m.tlist t i) (m.tlist t ((i + 1) % 3)) ∧
      (subdivide d m).tlist (c + 1 + i) 2
        = midpointOf m (m.tlist t ((i + 2) % 3)) (m.tlist t i) ∧
      (subdivide d m).selectedT (c + 1 + i) = true ∧
      ∀ k, k < 3 → (subdivide d m).nlist (c + 1 + i) k = m.nlist t k := by
  have h := loopInv_final m
  have hpos := stateAfter_pos m hw m.tcount (le_refl _)
  have hmid : ∀ i, i < 3 → midpointOf m (m.tlist t i) (m.tlist t ((i + 1) % 3))
      = (subdivideLoop m).mesh.tlist t i := fun i hi => (midpointOf_selected m t i h1 h2 h3 hi).2
  constructor
  · intro i hi
    have hl := (midpointOf_selected m t i h1 h2 h3 hi).1
    have hr := h.rng _ (lookup_mem hl)
    refine ⟨hr.1, hr.2, ?_, (hmid i hi).symm⟩
    intro c
    exact hpos _ (lookup_mem hl) _ _ (hw t i h1 h2 hi).2
      (hw t _ h1 h2 (Nat.mod_lt _ (by decide))).2 rfl c
  · obtain ⟨c, c1, c2, c3⟩ := h.corners t h1 h2 h3
    refine ⟨c, c1, c2, fun i hi => ?_⟩
    obtain ⟨d0, d1, d2, d3, d4⟩ := c3 i hi
    refine ⟨d1, (hw t i h1 h2 hi).2, ?_, ?_, d0, d4⟩
    · rw [hmid i hi]; exact d2
    · have hi2 : (i + 2) % 3 < 3 := Nat.mod_lt _ (by decide)
      have e : ((i + 2) % 3 + 1) % 3 = i := by interval_cases i <;> rfl
      have := hmid ((i + 2) % 3) hi2
      rw [e] at this
      rw [this]; exact d3

/-! ## Triangle count -/

theorem stitchStep_tcount (t : Nat) (nm : Nat → Nat) (m : myObjType) (v : Nat) :
    (stitchStep t nm m v).tcount
      = m.tcount + if m.selectedT (idx (fnext m (makeOrTri t v))) = true then 0 else 1 := by
  unfold stitchStep
  simp only []
  cases h : m.selectedT (idx (fnext m (makeOrTri t v))) <;> simp

theorem stitched_tcount (m0 : myObjType) (s : SubdivideState) (t : Nat) (hext : Extends m0 s.mesh)
    (hadj : ∀ v, v < 3 → idx (fnext m0 (makeOrTri t v)) ≤ m0.tcount) (n : Nat) (hn : n ≤ 3) :
    (stitched s t n).tcount = s.mesh.tcount + 3 +
      ((List.range n).filter (fun v => !m0.selectedT (idx (fnext m0 (makeOrTri t v))))).length := by
  induction n with
  | zero => simpa [stitched] using centralMesh_tcount s t
  | succ n ih =>
    have hx := hext.trans (stitched_extends s t n)
    have hfn : fnext (stitched s t n) (makeOrTri t n) = fnext m0 (makeOrTri t n) := by
      simp only [fnext, hx.fn]
    rw [stitched_succ, stitchStep_tcount, ih (by omega), hfn, hx.sel _ (hadj n (by omega)),
      List.range_succ, List.filter_append]
    cases h : m0.selectedT (idx (fnext m0 (makeOrTri t n))) <;> simp [h]
    omega

theorem selectedUpTo_succ (m : myObjType) (p : Nat) :
    selectedUpTo m (p + 1)
      = selectedUpTo m p ++ if m.selectedT (p + 1) = true then [p + 1] else [] := by
  have e : 1 + 1 * p = p + 1 := by omega
  simp only [selectedUpTo, List.range'_concat, List.filter_append]
  rw [e]
  congr 1
  cases h : m.selectedT (p + 1) <;> simp [h]

theorem stateAfter_tcount (m0 : myObjType) (hadj : AdjInRange m0) (p : Nat) (hp : p ≤ m0.tcount) :
    (stateAfter m0 p).mesh.tcount
      = m0.tcount + 3 * (selectedUpTo m0 p).length
        + ((selectedUpTo m0 p).map (boundaryCount m0)).sum := by
  induction p with
  | zero => simp [stateAfter, selectedUpTo]
  | succ p ih =>
    have hext := stateAfter_extends m0 p
    rw [stateAfter_succ, selectedUpTo_succ]
    by_cases hs : m0.selectedT (p + 1) = true
    · have hs' : (stateAfter m0 p).mesh.selectedT (p + 1) = true := by
        rw [hext.sel _ hp]; exact hs
      have hst : subdivideTriangle (stateAfter m0 p) (p + 1)
          = ⟨stitched (stateAfter m0 p) (p + 1) 3,
            (midpoints (stateAfter m0 p) (p + 1)).edgeVertexMap⟩ := by
        simp [subdivideTriangle, hs']
      rw [hst]
      show (stitched (stateAfter m0 p) (p + 1) 3).tcount = _
      rw [stitched_tcount m0 _ (p + 1) hext (fun v hv => hadj (p + 1) v (Nat.succ_pos _) hp hv)
        3 (le_refl _), ih (by omega), if_pos hs]
      simp only [List.length_append, List.map_append, List.sum_append, List.length_singleton,
        List.map_cons, List.map_nil, List.sum_cons, List.sum_nil, boundaryCount]
      omega
    · have hs' : (stateAfter m0 p).mesh.selectedT (p + 1) = false := by
        rw [hext.sel _ hp]; simpa using hs
      have hst : subdivideTriangle (stateAfter m0 p) (p + 1) = stateAfter m0 p := by
        simp [subdivideTriangle, hs']
      rw [hst, ih (by omega), if_neg hs]
      simp

/-- C5. On a mesh whose adjacency table names triangle handles of the mesh, one call
of `subdivide` raises `tcount` by exactly `3 * S + B`, where `S` is the number of
triangles selected at entry and `B` the number of pairs of a selected triangle and one
of its edges whose across-edge neighbour is not selected. For the unit square of two
selected triangles sharing the diagonal, with its four outer edges mesh boundary,
`B = 0`, `vcount` grows by exactly `5` and `tcount` by exactly `6`. -/
theorem subdivide_tcount_delta (d : Derived) (m : myObjType) (hadj : AdjInRange m) :
    (subdivide d m).tcount = m.tcount + 3 * selectedCount m + stitchTotal m ∧
    (stitchTotal squareMesh = 0 ∧
      (subdivide d squareMesh).vcount = squareMesh.vcount + 5 ∧
      (subdivide d squareMesh).tcount = squareMesh.tcount + 6) := by
  refine ⟨stateAfter_tcount m hadj m.tcount (le_refl _), by decide, ?_, ?_⟩
  · show (subdivideLoop squareMesh).mesh.vcount = squareMesh.vcount + 5
    decide
  · show (subdivideLoop squareMesh).mesh.tcount = squareMesh.tcount + 6
    decide

theorem squareMesh_adjInRange : AdjInRange squareMesh := by
  intro t v h1 h2 h3
  change t ≤ 2 at h2
  interval_cases t <;> interval_cases v <;> decide

/-- C5 (witness). The square: two selected triangles, no unselected neighbour. -/
theorem subdivide_tcount_delta_witness :
    AdjInRange squareMesh ∧
    (subdivide keepDerived squareMesh).tcount
      = squareMesh.tcount + 3 * selectedCount squareMesh + stitchTotal squareMesh :=
  ⟨squareMesh_adjInRange, (subdivide_tcount_delta keepDerived squareMesh squareMesh_adjInRange).1⟩

theorem squareMesh_wellFormed : WellFormed squareMesh := by
  intro t i h1 h2 h3
  change t ≤ 2 at h2
  interval_cases t <;> interval_cases i <;> decide

/-- C4 (witness). Triangle `1` of the square: the midpoint of its edge `0`, from
`(0,0,0)` to `(1,0,0)`, has the first coordinate `0.5`, which is `2^1073 * 2^-1074`. -/
theorem subdivide_one_to_four_witness :
    WellFormed squareMesh ∧ squareMesh.selectedT 1 = true ∧
    (subdivide keepDerived squareMesh).tlist 1 0
      = midpointOf squareMesh (squareMesh.tlist 1 0) (squareMesh.tlist 1 ((0 + 1) % 3)) ∧
    (subdivide keepDerived squareMesh).vlist
        (midpointOf squareMesh (squareMesh.tlist 1 0) (squareMesh.tlist 1 ((0 + 1) % 3))) 0
      = Double.fin false (2 ^ 1073) :=
  ⟨squareMesh_wellFormed, by decide,
    ((subdivide_one_to_four keepDerived squareMesh squareMesh_wellFormed 1 (by decide)
      (by decide) (by decide)).1 0 (by decide)).2.2.2,
    ((subdivide_one_to_four keepDerived squareMesh squareMesh_wellFormed 1 (by decide)
      (by decide) (by decide)).1 0 (by decide)).2.2.1 0⟩

/-! ## The incidence invariant under the steps of `subdivide` -/

theorem count_push_back (l : List Nat) (x h : Nat) :
    (push_back l x).count h = l.count h + if h = x then 1 else 0 := by
  unfold push_back
  rw [List.count_append, List.count_singleton]
  by_cases hx : h = x
  · subst hx; simp
  · have : ¬ x = h := fun e => hx e.symm
    simp [hx, this]

theorem count_remove (l : List Nat) (x h : Nat) :
    (remove l x).count h = if h = x then 0 else l.count h := by
  unfold remove
  by_cases hx : h = x
  · subst hx
    simp [List.count_eq_zero]
  · simp [hx, List.count_filter]

theorem occ_le_one (m : myObjType) (hd : DistinctVerts m) (v h : Nat) : occ m v h ≤ 1 := by
  unfold occ
  split
  · next hh =>
    obtain ⟨d1, d2, d3⟩ := hd h hh.1 hh.2
    split_ifs <;> omega
  · exact Nat.zero_le _

theorem occ_pos_iff (m : myObjType) (v h : Nat) :
    0 < occ m v h ↔ (1 ≤ h ∧ h ≤ m.tcount ∧ ∃ i, i < 3 ∧ m.tlist h i = v) := by
  unfold occ
  constructor
  · intro hp
    split at hp
    · next hh =>
      refine ⟨hh.1, hh.2, ?_⟩
      by_cases h0 : m.tlist h 0 = v
      · exact ⟨0, by decide, h0⟩
      · by_cases h1 : m.tlist h 1 = v
        · exact ⟨1, by decide, h1⟩
        · by_cases h2 : m.tlist h 2 = v
          · exact ⟨2, by decide, h2⟩
          · simp [h0, h1, h2] at hp
    · exact absurd hp (Nat.lt_irrefl _)
  · rintro ⟨h1, h2, i, hi, e⟩
    rw [if_pos ⟨h1, h2⟩]
    interval_cases i
    · rw [if_pos e]; omega
    · rw [if_pos e]; omega
    · rw [if_pos e]; omega

theorem incidence_of_good (m : myObjType) (hg : Good m) : Incidence m := by
  constructor
  · intro v h1 h2
    rw [List.nodup_iff_count_le_one]
    intro h
    rw [hg.inc v h1 h2 h]
    exact occ_le_one m hg.dv v h
  · intro v h1 h2 h
    rw [← List.count_pos_iff, hg.inc v h1 h2 h]
    exact occ_pos_iff m v h

theorem good_of_incidence (m : myObjType) (hw : WellFormed m) (hd : DistinctVerts m)
    (hi : Incidence m) : Good m := by
  refine ⟨hw, hd, ?_⟩
  intro v h1 h2 h
  have hle := occ_le_one m hd v h
  by_cases hm : h ∈ m.vToTList v
  · rw [List.count_eq_one_of_mem (hi.1 v h1 h2) hm]
    have := (occ_pos_iff m v h).mpr ((hi.2 v h1 h2 h).mp hm)
    omega
  · rw [List.count_eq_zero_of_not_mem hm]
    have : ¬ 0 < occ m v h := fun hp => hm ((hi.2 v h1 h2 h).mpr ((occ_pos_iff m v h).mp hp))
    omega

theorem set1_push_count (vt : Nat → List Nat) (a h v h' : Nat) :
    (set1 vt a (push_back (vt a) h) v).count h'
      = (vt v).count h' + if v = a ∧ h' = h then 1 else 0 := by
  unfold set1
  by_cases e : v = a
  · subst e
    rw [if_pos rfl, count_push_back]
    by_cases eh : h' = h <;> simp [eh]
  · rw [if_neg e]
    simp [e]

theorem set1_remove_count (vt : Nat → List Nat) (a h v h' : Nat) :
    (set1 vt a (remove (vt a) h) v).count h'
      = if v = a ∧ h' = h then 0 else (vt v).count h' := by
  unfold set1
  by_cases e : v = a
  · subst e
    rw [if_pos rfl, count_remove]
    by_cases eh : h' = h <;> simp [eh]
  · rw [if_neg e]
    simp [e]

theorem pushIncidence_count (tl : Nat → Nat → Nat) (h : Nat) (vt : Nat → List Nat) (v h' : Nat) :
    (pushIncidence tl h vt v).count h' = (vt v).count h' +
      if h' = h then
        (if tl h 0 = v then 1 else 0) + (if tl h 1 = v then 1 else 0)
          + (if tl h 2 = v then 1 else 0)
      else 0 := by
  simp only [pushIncidence, foldl3]
  rw [set1_push_count, set1_push_count, set1_push_count]
  by_cases eh : h' = h
  · simp only [eh, and_true, if_true]
    have e0 : (v = tl h 0) = (tl h 0 = v) := propext eq_comm
    have e1 : (v = tl h 1) = (tl h 1 = v) := propext eq_comm
    have e2 : (v = tl h 2) = (tl h 2 = v) := propext eq_comm
    simp only [e0, e1, e2]
    omega
  · simp [eh]
theorem occ_congr (m m' : myObjType) (htc : m'.tcount = m.tcount)
    (htl : ∀ h, 1 ≤ h → h ≤ m.tcount → ∀ j, m'.tlist h j = m.tlist h j) (v h : Nat) :
    occ m' v h = occ m v h := by
  unfold occ
  rw [htc]
  split
  · next hh => rw [htl h hh.1 hh.2, htl h hh.1 hh.2, htl h hh.1 hh.2]
  · rfl

theorem occ_in (m : myObjType) (v h : Nat) (hh : 1 ≤ h ∧ h ≤ m.tcount) :
    occ m v h = (if m.tlist h 0 = v then 1 else 0) + (if m.tlist h 1 = v then 1 else 0)
      + (if m.tlist h 2 = v then 1 else 0) := if_pos hh

theorem occ_out (m : myObjType) (v h : Nat) (hh : ¬ (1 ≤ h ∧ h ≤ m.tcount)) :
    occ m v h = 0 := if_neg hh

/-- A new vertex with an empty incidence list keeps the mesh good. -/
theorem Good.newVertex (m m' : myObjType) (hg : Good m) (hvc : m'.vcount = m.vcount + 1)
    (htc : m'.tcount = m.tcount) (htl : m'.tlist = m.tlist)
    (hvt : m'.vToTList = set1 m.vToTList (m.vcount + 1) []) : Good m' := by
  refine ⟨?_, ?_, ?_⟩
  · intro t i h1 h2 h3
    rw [htl, hvc]
    rw [htc] at h2
    have := hg.wf t i h1 h2 h3
    omega
  · intro t h1 h2
    rw [htl]
    rw [htc] at h2
    exact hg.dv t h1 h2
  · intro v h1 h2 h
    rw [occ_congr m m' htc (fun _ _ _ _ => by rw [htl]), hvt]
    rw [hvc] at h2
    unfold set1
    by_cases e : v = m.vcount + 1
    · rw [if_pos e]
      have : ¬ 0 < occ m v h := by
        intro hp
        obtain ⟨a, b, i, hi, hv⟩ := (occ_pos_iff m v h).mp hp
        have := (hg.wf h i a b hi).2
        omega
      simp
      omega
    · rw [if_neg e]
      exact hg.inc v h1 (by omega) h

/-- Appending a triangle with three distinct vertices of the mesh, entered in the
incidence lists of its vertices, keeps the mesh good. -/
theorem Good.append (m m' : myObjType) (hg : Good m) (hvc : m'.vcount = m.vcount)
    (htc : m'.tcount = m.tcount + 1)
    (htl : ∀ h, h ≠ m.tcount + 1 → ∀ j, m'.tlist h j = m.tlist h j)
    (hvt : m'.vToTList = pushIncidence m'.tlist (m.tcount + 1) m.vToTList)
    (hrng : ∀ j, j < 3 → 1 ≤ m'.tlist (m.tcount + 1) j ∧ m'.tlist (m.tcount + 1) j ≤ m.vcount)
    (hdv : m'.tlist (m.tcount + 1) 0 ≠ m'.tlist (m.tcount + 1) 1 ∧
      m'.tlist (m.tcount + 1) 1 ≠ m'.tlist (m.tcount + 1) 2 ∧
      m'.tlist (m.tcount + 1) 0 ≠ m'.tlist (m.tcount + 1) 2) : Good m' := by
  refine ⟨?_, ?_, ?_⟩
  · intro t i h1 h2 h3
    rw [hvc]
    by_cases e : t = m.tcount + 1
    · subst e; exact hrng i h3
    · rw [htl t e]
      exact hg.wf t i h1 (by omega) h3
  · intro t h1 h2
    by_cases e : t = m.tcount + 1
    · subst e; exact hdv
    · rw [htl t e, htl t e, htl t e]
      exact hg.dv t h1 (by omega)
  · intro v h1 h2 h
    rw [hvc] at h2
    rw [hvt, pushIncidence_count, hg.inc v h1 h2 h]
    by_cases e : h = m.tcount + 1
    · subst e
      rw [occ_out m v _ (by omega), if_pos rfl, occ_in m' v _ ⟨by omega, by omega⟩]
      omega
    · rw [if_neg e]
      by_cases hh : 1 ≤ h ∧ h ≤ m.tcount
      · rw [occ_in m v h hh, occ_in m' v h ⟨hh.1, by omega⟩, htl h e, htl h e, htl h e]
        rfl
      · rw [occ_out m v h hh, occ_out m' v h (by omega)]

/-- Replacing the vertex in place `j` of triangle `a` by a vertex `new` that the
triangle does not have, with `a` leaving the incidence list of the old vertex and
entering the one of `new`, keeps the mesh good. -/
theorem Good.replace (m m' : myObjType) (a j new : Nat) (hg : Good m)
    (ha1 : 1 ≤ a) (ha2 : a ≤ m.tcount) (hj : j < 3)
    (hn1 : 1 ≤ new) (hn2 : new ≤ m.vcount) (hnew : ∀ i, i < 3 → m.tlist a i ≠ new)
    (hvc : m'.vcount = m.vcount) (htc : m'.tcount = m.tcount)
    (htl : m'.tlist = set2 m.tlist a j new)
    (hvt : ∀ v h, (m'.vToTList v).count h =
      if h = a then
        (if v = m.tlist a j then 0
          else if v = new then (m.vToTList v).count h + 1 else (m.vToTList v).count h)
      else (m.vToTList v).count h) : Good m' := by
  obtain ⟨d1, d2, d3⟩ := hg.dv a ha1 ha2
  have n0 := hnew 0 (by decide)
  have n1 := hnew 1 (by decide)
  have n2 := hnew 2 (by decide)
  refine ⟨?_, ?_, ?_⟩
  · intro t i h1 h2 h3
    rw [htl, hvc]
    rw [htc] at h2
    unfold set2
    split
    · exact ⟨hn1, hn2⟩
    · exact hg.wf t i h1 h2 h3
  · intro t h1 h2
    rw [htc] at h2
    rw [htl]
    by_cases e : t = a
    · subst e
      interval_cases j <;> simp [set2] <;> omega
    · simp only [set2, e, false_and, if_false]
      exact hg.dv t h1 h2
  · intro v h1 h2 h
    rw [hvc] at h2
    rw [hvt v h]
    by_cases e : h = a
    · subst e
      rw [if_pos rfl]
      have hc := hg.inc v h1 h2 h
      rw [occ_in m v h ⟨ha1, ha2⟩] at hc
      rw [occ_in m' v h ⟨ha1, by omega⟩, htl]
      interval_cases j <;> simp only [set2, true_and, if_true] <;> simp <;>
        split_ifs at hc ⊢ <;> omega
    · rw [if_neg e, hg.inc v h1 h2 h]
      by_cases hh : 1 ≤ h ∧ h ≤ m.tcount
      · rw [occ_in m v h hh, occ_in m' v h ⟨hh.1, by omega⟩, htl]
        simp only [set2, e, false_and, if_false]
      · rw [occ_out m v h hh, occ_out m' v h (by omega)]
theorem midpointStep_good (t : Nat) (e : Nat → Nat × Nat) (ms : MidState) (i : Nat)
    (hg : Good ms.mesh) : Good (midpointStep t e ms i).mesh := by
  unfold midpointStep
  split
  · exact Good.newVertex ms.mesh _ hg rfl rfl rfl rfl
  · exact hg

theorem midpoints_good (s : SubdivideState) (t : Nat) (hg : Good s.mesh) :
    Good (midpoints s t).mesh := by
  simp only [midpoints, foldl3]
  have h0 : Good (⟨s.mesh, s.edgeVertexMap, fun _ => 0⟩ : MidState).mesh := hg
  exact midpointStep_good _ _ _ _ (midpointStep_good _ _ _ _ (midpointStep_good _ _ _ _ h0))

theorem cornerStep_good (t : Nat) (nm : Nat → Nat) (m : myObjType) (i : Nat) (hg : Good m)
    (ht : t ≤ m.tcount)
    (hr0 : 1 ≤ m.tlist t i ∧ m.tlist t i ≤ m.vcount)
    (hr1 : 1 ≤ nm i ∧ nm i ≤ m.vcount)
    (hr2 : 1 ≤ nm ((i + 2) % 3) ∧ nm ((i + 2) % 3) ≤ m.vcount)
    (hd : m.tlist t i ≠ nm i ∧ nm i ≠ nm ((i + 2) % 3) ∧ m.tlist t i ≠ nm ((i + 2) % 3)) :
    Good (cornerStep t nm m i) := by
  have hne : t ≠ m.tcount + 1 := by omega
  have r0 : (cornerStep t nm m i).tlist (m.tcount + 1) 0 = m.tlist t i := by
    simp [cornerStep, set2, hne]
  have r1 : (cornerStep t nm m i).tlist (m.tcount + 1) 1 = nm i := by
    simp [cornerStep, set2]
  have r2 : (cornerStep t nm m i).tlist (m.tcount + 1) 2 = nm ((i + 2) % 3) := by
    simp [cornerStep, set2]
  refine Good.append m _ hg rfl rfl ?_ rfl ?_ ?_
  · intro h hh j
    simp [cornerStep, set2, hh]
  · intro j hj
    interval_cases j
    · rw [r0]; exact hr0
    · rw [r1]; exact hr1
    · rw [r2]; exact hr2
  · rw [r0, r1, r2]; exact hd

theorem centralStep_good (t : Nat) (nm : Nat → Nat) (m : myObjType) (i : Nat) (hg : Good m)
    (ht1 : 1 ≤ t) (ht : t ≤ m.tcount) (hi : i < 3) (hr : 1 ≤ nm i ∧ nm i ≤ m.vcount)
    (hnew : ∀ j, j < 3 → m.tlist t j ≠ nm i) : Good (centralStep t nm m i) := by
  refine Good.replace m _ t i (nm i) hg ht1 ht hi hr.1 hr.2 hnew rfl rfl rfl ?_
  intro v h
  have hne := hnew i hi
  have e1 : set2 m.tlist t i (nm i) t i = nm i := by simp [set2]
  simp only [centralStep, e1]
  rw [set1_push_count, set1_remove_count]
  have hne' : nm i ≠ m.tlist t i := fun e => hne e.symm
  by_cases eh : h = t <;> by_cases ev : v = m.tlist t i <;> by_cases ev' : v = nm i <;>
    simp [eh, ev, ev', hne, hne']

theorem stitchCopy_snd (tl : Nat → Nat → Nat) (a h : Nat) (nl : Nat → Nat → Coord)
    (vt : Nat → List Nat) : (stitchCopy tl a h (nl, vt)).2 = pushIncidence tl h vt := rfl

theorem stitchStep_good (t : Nat) (nm : Nat → Nat) (m : myObjType) (v : Nat) (hg : Good m)
    (hA : m.selectedT (idx (fnext m (makeOrTri t v))) = false →
      1 ≤ idx (fnext m (makeOrTri t v)) ∧ idx (fnext m (makeOrTri t v)) ≤ m.tcount ∧
      1 ≤ nm v ∧ nm v ≤ m.vcount ∧
      ∀ i, i < 3 → m.tlist (idx (fnext m (makeOrTri t v))) i ≠ nm v) :
    Good (stitchStep t nm m v) := by
  unfold stitchStep
  simp only []
  split
  · next hb =>
    have hsel : m.selectedT (idx (fnext m (makeOrTri t v))) = false := by simpa using hb
    obtain ⟨a1, a2, n1, n2, hnew⟩ := hA hsel
    generalize idx (fnext m (makeOrTri t v)) = a at *
    generalize ver (fnext m (makeOrTri t v)) % 3 = k at *
    have hk1 : (k + 1) % 3 < 3 := Nat.mod_lt _ (by decide)
    have hk2 : (k + 2) % 3 < 3 := Nat.mod_lt _ (by decide)
    have hkk : (k + 1) % 3 ≠ (k + 2) % 3 := by omega
    have hne : a ≠ m.tcount + 1 := by omega
    obtain ⟨d1, d2, d3⟩ := hg.dv a a1 a2
    -- the mesh after the new triangle is appended
    let m1 : myObjType :=
      { m with
        tcount := m.tcount + 1
        tlist := set2 (set2 (set2 m.tlist (m.tcount + 1) 0 (m.tlist a ((k + 1) % 3)))
          (m.tcount + 1) 1
          (set2 m.tlist (m.tcount + 1) 0 (m.tlist a ((k + 1) % 3)) a ((k + 2) % 3)))
          (m.tcount + 1) 2 (nm v)
        vToTList := pushIncidence (set2 (set2 (set2 m.tlist (m.tcount + 1) 0
          (m.tlist a ((k + 1) % 3))) (m.tcount + 1) 1
          (set2 m.tlist (m.tcount + 1) 0 (m.tlist a ((k + 1) % 3)) a ((k + 2) % 3)))
          (m.tcount + 1) 2 (nm v)) (m.tcount + 1) m.vToTList }
    have r0 : m1.tlist (m.tcount + 1) 0 = m.tlist a ((k + 1) % 3) := by
      simp [m1, set2]
    have r1 : m1.tlist (m.tcount + 1) 1 = m.tlist a ((k + 2) % 3) := by
      simp [m1, set2, hne]
    have r2 : m1.tlist (m.tcount + 1) 2 = nm v := by
      simp [m1, set2]
    have rold : ∀ h, h ≠ m.tcount + 1 → ∀ j, m1.tlist h j = m.tlist h j := by
      intro h hh j
      simp [m1, set2, hh]
    have hg1 : Good m1 := by
      refine Good.append m m1 hg rfl rfl rold rfl ?_ ?_
      · intro j hj
        interval_cases j
        · rw [r0]; exact hg.wf a _ a1 a2 hk1
        · rw [r1]; exact hg.wf a _ a1 a2 hk2
        · rw [r2]; exact ⟨n1, n2⟩
      · rw [r0, r1, r2]
        refine ⟨?_, hnew _ hk2, hnew _ hk1⟩
        have : k % 3 = 0 ∨ k % 3 = 1 ∨ k % 3 = 2 := by omega
        rcases this with h0 | h0 | h0
        · have e1 : (k + 1) % 3 = 1 := by omega
          have e2 : (k + 2) % 3 = 2 := by omega
          rw [e1, e2]; exact d2
        · have e1 : (k + 1) % 3 = 2 := by omega
          have e2 : (k + 2) % 3 = 0 := by omega
          rw [e1, e2]; exact fun h => d3 h.symm
        · have e1 : (k + 1) % 3 = 0 := by omega
          have e2 : (k + 2) % 3 = 1 := by omega
          rw [e1, e2]; exact d1
    refine Good.replace m1 _ a ((k + 1) % 3) (nm v) hg1 a1 (Nat.le_succ_of_le a2) hk1 n1 n2
      (fun i hi => by rw [rold a hne]; exact hnew i hi) rfl rfl rfl ?_
    intro x h
    have hold : m1.tlist a ((k + 1) % 3) ≠ nm v := by rw [rold a hne]; exact hnew _ hk1
    show (set1 (set1 m1.vToTList (nm v) (push_back (m1.vToTList (nm v)) a))
        (m1.tlist a ((k + 1) % 3))
        (remove (set1 m1.vToTList (nm v) (push_back (m1.vToTList (nm v)) a)
          (m1.tlist a ((k + 1) % 3))) a) x).count h = _
    rw [set1_remove_count, set1_push_count]
    by_cases eh : h = a <;> by_cases ev : x = m1.tlist a ((k + 1) % 3) <;>
      by_cases ev' : x = nm v <;> simp [eh, ev, ev']
  · exact hg

/-! ## The triples of the stitched neighbours -/

theorem edgeOf_injective (m : myObjType) (a : Nat) (hd : m.tlist a 0 ≠ m.tlist a 1 ∧
    m.tlist a 1 ≠ m.tlist a 2 ∧ m.tlist a 0 ≠ m.tlist a 2) (k k' : Nat) (hk : k < 3)
    (hk' : k' < 3) (h : edgeOf m a k = edgeOf m a k') : k = k' := by
  obtain ⟨d1, d2, d3⟩ := hd
  unfold edgeOf at h
  rw [Sym2.eq_iff] at h
  interval_cases k <;> interval_cases k' <;> simp at h <;> omega

theorem edgesOf_injective (m : myObjType) (a : Nat) (hd : m.tlist a 0 ≠ m.tlist a 1 ∧
    m.tlist a 1 ≠ m.tlist a 2 ∧ m.tlist a 0 ≠ m.tlist a 2) (k k' : Nat) (hk : k < 3)
    (hk' : k' < 3) (h : edgesOf m a k = edgesOf m a k') : k = k' := by
  rw [edgesOf_eq_edgeKey m a k hk, edgesOf_eq_edgeKey m a k' hk'] at h
  exact edgeOf_injective m a hd k k' hk hk' (edgeKey_injective h)

theorem Track.mono {m0 : myObjType} {mp mp' : EdgeMap} {t n t2 n2 : Nat} {m m' : myObjType}
    (h : Track m0 mp t n m)
    (hrow : ∀ a j, 1 ≤ a → a ≤ m0.tcount → m0.selectedT a = false → m'.tlist a j = m.tlist a j)
    (hmp : ∀ k x, mp.lookup k = some x → mp'.lookup k = some x)
    (hpr : ∀ t' v', Processed t n t' v' → Processed t2 n2 t' v') :
    Track m0 mp' t2 n2 m' := by
  intro a j a1 a2 a3 hj
  rw [hrow a j a1 a2 a3]
  rcases h a j a1 a2 a3 hj with h0 | ⟨t', v', p1, p2, p3, p4, p5, p6, p7, p8⟩
  · exact Or.inl h0
  · exact Or.inr ⟨t', v', hpr _ _ p1, p2, p3, p4, p5, p6, p7, hmp _ _ p8⟩

/-- The midpoint of the edge that is about to be stitched is not yet a vertex of the
unselected neighbour. -/
theorem Track.fresh {m0 : myObjType} {mp : EdgeMap} {t n : Nat} {m : myObjType}
    (h : Track m0 mp t n m) (hw : WellFormed m0) (hd : DistinctVerts m0)
    (hadj : AdjConsistent m0) (hvals : (mp.map Prod.snd).Nodup)
    (hrng : ∀ kx, kx ∈ mp → m0.vcount < kx.2)
    (ht1 : 1 ≤ t) (ht2 : t ≤ m0.tcount) (hts : m0.selectedT t = true) (hn : n < 3)
    (x : Nat) (hx : mp.lookup (edgesOf m0 t n) = some x)
    (hsel : m0.selectedT (idx (fnext m0 (makeOrTri t n))) = false) (i : Nat) (hi : i < 3) :
    m.tlist (idx (fnext m0 (makeOrTri t n))) i ≠ x := by
  obtain ⟨a1, a2, hcons⟩ := hadj t n ht1 ht2 hn
  have hat : idx (fnext m0 (makeOrTri t n)) ≠ t := by
    intro e
    rw [e, hts] at hsel
    exact Bool.noConfusion hsel
  obtain ⟨c1, c2, c3⟩ := hcons hat
  have hxr := hrng _ (lookup_mem hx)
  rcases h _ i a1 a2 hsel hi with h0 | ⟨t', v', p1, p2, p3, p4, p5, p6, p7, p8⟩
  · rw [h0]
    have := (hw _ i a1 a2 hi).2
    simp only [] at hxr
    omega
  · intro e
    rw [e] at p8
    have hkey := List.inj_on_of_nodup_map hvals (lookup_mem p8) (lookup_mem hx) rfl
    have hkey' : edgesOf m0 t' v' = edgesOf m0 t n := (Prod.ext_iff.mp hkey).1
    rw [edgesOf_eq_edgeKey m0 t' v' p5, edgesOf_eq_edgeKey m0 t n hn] at hkey'
    have hedge := edgeKey_injective hkey'
    obtain ⟨_, _, hcons'⟩ := hadj t' v' p2 p3 p5
    have hat' : idx (fnext m0 (makeOrTri t' v')) ≠ t' := by
      intro e'
      rw [p6] at e'
      rw [e', p4] at hsel
      exact Bool.noConfusion hsel
    obtain ⟨c1', c2', c3'⟩ := hcons' hat'
    rw [p6] at c1' c2' c3'
    have hk : ver (fnext m0 (makeOrTri t' v')) % 3 = ver (fnext m0 (makeOrTri t n)) % 3 :=
      edgeOf_injective m0 _ (hd _ a1 a2) _ _ (Nat.mod_lt _ (by decide))
        (Nat.mod_lt _ (by decide)) (by rw [c1', c1, hedge])
    rw [hk] at c2' c3'
    rw [c2] at c2'
    rw [c3] at c3'
    rcases p1 with hlt | ⟨_, hlt⟩
    · omega
    · omega

theorem Track.stitch {m0 : myObjType} {mp : EdgeMap} {t n : Nat} {m : myObjType}
    (h : Track m0 mp t n m) (nm : Nat → Nat) (hfn : m.fnlist = m0.fnlist)
    (htc : m0.tcount ≤ m.tcount)
    (ht1 : 1 ≤ t) (ht2 : t ≤ m0.tcount) (hts : m0.selectedT t = true) (hn : n < 3)
    (hx : mp.lookup (edgesOf m0 t n) = some (nm n)) :
    Track m0 mp t (n + 1) (stitchStep t nm m n) := by
  have hpr : ∀ t' v', Processed t n t' v' → Processed t (n + 1) t' v' := by
    intro t' v' hp
    rcases hp with hp | ⟨hp1, hp2⟩
    · exact Or.inl hp
    · exact Or.inr ⟨hp1, Nat.lt_succ_of_lt hp2⟩
  have hfn' : fnext m (makeOrTri t n) = fnext m0 (makeOrTri t n) := by
    simp only [fnext, hfn]
  unfold stitchStep
  simp only []
  split
  · intro a j a1 a2 a3 hj
    have hne : a ≠ m.tcount + 1 := by omega
    by_cases e : a = idx (fnext m (makeOrTri t n)) ∧ j = (ver (fnext m (makeOrTri t n)) % 3 + 1) % 3
    · right
      refine ⟨t, n, Or.inr ⟨rfl, Nat.lt_succ_self _⟩, ht1, ht2, hts, hn, ?_, ?_, ?_⟩
      · rw [← hfn']; exact e.1.symm
      · rw [← hfn', e.2]; omega
      · have : set2 (set2 (set2 (set2 m.tlist (m.tcount + 1) 0
            (m.tlist (idx (fnext m (makeOrTri t n))) ((ver (fnext m (makeOrTri t n)) % 3 + 1) % 3)))
            (m.tcount + 1) 1
            (set2 m.tlist (m.tcount + 1) 0
              (m.tlist (idx (fnext m (makeOrTri t n)))
                ((ver (fnext m (makeOrTri t n)) % 3 + 1) % 3))
              (idx (fnext m (makeOrTri t n))) ((ver (fnext m (makeOrTri t n)) % 3 + 2) % 3)))
            (m.tcount + 1) 2 (nm n)) (idx (fnext m (makeOrTri t n)))
            ((ver (fnext m (makeOrTri t n)) % 3 + 1) % 3) (nm n) a j = nm n := by
          simp only [set2]
          rw [if_pos e]
        simp only [this]
        exact hx
    · have : set2 (set2 (set2 (set2 m.tlist (m.tcount + 1) 0
            (m.tlist (idx (fnext m (makeOrTri t n))) ((ver (fnext m (makeOrTri t n)) % 3 + 1) % 3)))
            (m.tcount + 1) 1
            (set2 m.tlist (m.tcount + 1) 0
              (m.tlist (idx (fnext m (makeOrTri t n)))
                ((ver (fnext m (makeOrTri t n)) % 3 + 1) % 3))
              (idx (fnext m (makeOrTri t n))) ((ver (fnext m (makeOrTri t n)) % 3 + 2) % 3)))
            (m.tcount + 1) 2 (nm n)) (idx (fnext m (makeOrTri t n)))
            ((ver (fnext m (makeOrTri t n)) % 3 + 1) % 3) (nm n) a j = m.tlist a j := by
        simp only [set2]
        rw [if_neg e]
        simp only [hne, false_and, if_false]
      simp only [this]
      rcases h a j a1 a2 a3 hj with h0 | ⟨t', v', p1, p2, p3, p4, p5, p6, p7, p8⟩
      · exact Or.inl h0
      · exact Or.inr ⟨t', v', hpr _ _ p1, p2, p3, p4, p5, p6, p7, p8⟩
  · exact h.mono (fun _ _ _ _ _ => rfl) (fun _ _ hk => hk) hpr
/-! ## `subdivide` keeps the incidence lists exact -/

theorem cornerStep_fields (t : Nat) (nm : Nat → Nat) (m : myObjType) (i : Nat) :
    (cornerStep t nm m i).vcount = m.vcount ∧ (cornerStep t nm m i).tcount = m.tcount + 1 :=
  ⟨rfl, rfl⟩

theorem cornerMesh_good (s : SubdivideState) (t v0 : Nat)
    (hg : Good (midpoints s t).mesh) (ht : t ≤ s.mesh.tcount)
    (hro : ∀ i, i < 3 → 1 ≤ s.mesh.tlist t i ∧ s.mesh.tlist t i ≤ v0)
    (hnr : ∀ i, i < 3 → v0 < (midpoints s t).newMidpointVertices i ∧
      (midpoints s t).newMidpointVertices i ≤ (midpoints s t).mesh.vcount)
    (hinj : ∀ i j, i < 3 → j < 3 → (midpoints s t).newMidpointVertices i
      = (midpoints s t).newMidpointVertices j → i = j) :
    Good (cornerMesh s t) := by
  obtain ⟨e1, e2, _, _, _⟩ := midpoints_mesh s t
  have ht0 : t ≤ (midpoints s t).mesh.tcount := by rw [e1]; exact ht
  have hrow0 : ∀ i, (midpoints s t).mesh.tlist t i = s.mesh.tlist t i := fun i => by rw [e2]
  have key : ∀ (m : myObjType) (i : Nat), i < 3 → Good m → t ≤ m.tcount →
      m.vcount = (midpoints s t).mesh.vcount → (∀ j, m.tlist t j = s.mesh.tlist t j) →
      Good (cornerStep t (midpoints s t).newMidpointVertices m i) ∧
      t ≤ (cornerStep t (midpoints s t).newMidpointVertices m i).tcount ∧
      (cornerStep t (midpoints s t).newMidpointVertices m i).vcount
        = (midpoints s t).mesh.vcount ∧
      (∀ j, (cornerStep t (midpoints s t).newMidpointVertices m i).tlist t j
        = s.mesh.tlist t j) := by
    intro m i hi hgm htm hvm hrm
    have hi2 : (i + 2) % 3 < 3 := Nat.mod_lt _ (by decide)
    have hne : i ≠ (i + 2) % 3 := by omega
    have a := hro i hi
    have b := hnr i hi
    have c := hnr _ hi2
    refine ⟨cornerStep_good t _ m i hgm htm ?_ ?_ ?_ ?_, Nat.le_succ_of_le htm, hvm, ?_⟩
    · rw [hrm, hvm]; omega
    · rw [hvm]; omega
    · rw [hvm]; omega
    · rw [hrm]
      refine ⟨by omega, fun e => hne (hinj _ _ hi hi2 e), by omega⟩
    · intro j
      rw [cornerStep_tlist_old _ _ _ _ _ htm, hrm]
  obtain ⟨g1, t1, v1, r1⟩ := key _ 0 (by decide) hg ht0 rfl hrow0
  obtain ⟨g2, t2, v2, r2⟩ := key _ 1 (by decide) g1 t1 v1 r1
  obtain ⟨g3, _, _, _⟩ := key _ 2 (by decide) g2 t2 v2 r2
  simp only [cornerMesh, foldl3]
  exact g3

theorem centralStep_row (t : Nat) (nm : Nat → Nat) (m : myObjType) (i j : Nat) :
    (centralStep t nm m i).tlist t j = if j = i then nm i else m.tlist t j := by
  simp [centralStep, set2]

theorem centralMesh_good (s : SubdivideState) (t v0 : Nat)
    (hg : Good (cornerMesh s t)) (ht1 : 1 ≤ t) (ht : t ≤ s.mesh.tcount)
    (hro : ∀ i, i < 3 → 1 ≤ s.mesh.tlist t i ∧ s.mesh.tlist t i ≤ v0)
    (hnr : ∀ i, i < 3 → v0 < (midpoints s t).newMidpointVertices i ∧
      (midpoints s t).newMidpointVertices i ≤ (midpoints s t).mesh.vcount)
    (hinj : ∀ i j, i < 3 → j < 3 → (midpoints s t).newMidpointVertices i
      = (midpoints s t).newMidpointVertices j → i = j) :
    Good (centralMesh s t) := by
  have hrow0 : ∀ j, (cornerMesh s t).tlist t j = s.mesh.tlist t j :=
    cornerMesh_tlist_old s t t ht
  have htc : t ≤ (cornerMesh s t).tcount := by rw [cornerMesh_tcount]; omega
  have hvc : (cornerMesh s t).vcount = (midpoints s t).mesh.vcount := rfl
  have n0 := hnr 0 (by decide)
  have n1 := hnr 1 (by decide)
  have n2 := hnr 2 (by decide)
  have i01 : (midpoints s t).newMidpointVertices 0 ≠ (midpoints s t).newMidpointVertices 1 :=
    fun e => absurd (hinj 0 1 (by decide) (by decide) e) (by decide)
  have i02 : (midpoints s t).newMidpointVertices 0 ≠ (midpoints s t).newMidpointVertices 2 :=
    fun e => absurd (hinj 0 2 (by decide) (by decide) e) (by decide)
  have i12 : (midpoints s t).newMidpointVertices 1 ≠ (midpoints s t).newMidpointVertices 2 :=
    fun e => absurd (hinj 1 2 (by decide) (by decide) e) (by decide)
  have g1 : Good (centralStep t (midpoints s t).newMidpointVertices (cornerMesh s t) 0) := by
    refine centralStep_good t _ _ 0 hg ht1 htc (by decide) ⟨by omega, by rw [hvc]; omega⟩ ?_
    intro j hj
    rw [hrow0]
    have := hro j hj
    omega
  have g2 : Good (centralStep t (midpoints s t).newMidpointVertices
      (centralStep t (midpoints s t).newMidpointVertices (cornerMesh s t) 0) 1) := by
    refine centralStep_good t _ _ 1 g1 ht1 htc (by decide) ⟨by omega, ?_⟩ ?_
    · show _ ≤ (midpoints s t).mesh.vcount
      omega
    · intro j hj
      rw [centralStep_row, hrow0]
      have := hro j hj
      split
      · exact i01
      · omega
  have g3 : Good (centralStep t (midpoints s t).newMidpointVertices
      (centralStep t (midpoints s t).newMidpointVertices
        (centralStep t (midpoints s t).newMidpointVertices (cornerMesh s t) 0) 1) 2) := by
    refine centralStep_good t _ _ 2 g2 ht1 htc (by decide) ⟨by omega, ?_⟩ ?_
    · show _ ≤ (midpoints s t).mesh.vcount
      omega
    · intro j hj
      rw [centralStep_row, centralStep_row, hrow0]
      have := hro j hj
      split
      · exact i12
      · split
        · exact i02
        · omega
  simp only [centralMesh, foldl3]
  exact g3

theorem subdivideTriangle_good (m0 : myObjType) (hw : WellFormed m0) (hd : DistinctVerts m0)
    (hadj : AdjConsistent m0) (p : Nat) (s : SubdivideState) (hL : LoopInv m0 p s)
    (hg : Good s.mesh) (htr : Track m0 s.edgeVertexMap (p + 1) 0 s.mesh)
    (hp : p + 1 ≤ m0.tcount) :
    Good (subdivideTriangle s (p + 1)).mesh ∧
    Track m0 (subdivideTriangle s (p + 1)).edgeVertexMap (p + 2) 0
      (subdivideTriangle s (p + 1)).mesh := by
  have hsel0 : s.mesh.selectedT (p + 1) = m0.selectedT (p + 1) := hL.ext.sel _ hp
  by_cases hs : m0.selectedT (p + 1) = true
  · have hs' : s.mesh.selectedT (p + 1) = true := hsel0.trans hs
    have htc : p + 1 ≤ s.mesh.tcount := le_trans hp hL.ext.tc
    have hst : subdivideTriangle s (p + 1)
        = ⟨stitched s (p + 1) 3, (midpoints s (p + 1)).edgeVertexMap⟩ := by
      simp [subdivideTriangle, hs']
    have hmid := midpoints_inv m0 p s (p + 1) hL
    have hrow : ∀ i, s.mesh.tlist (p + 1) i = m0.tlist (p + 1) i :=
      hL.pending (p + 1) (Nat.lt_succ_self _) hp hs
    rw [edgesOf_congr _ _ _ hrow] at hmid
    have hro : ∀ i, i < 3 → 1 ≤ s.mesh.tlist (p + 1) i ∧ s.mesh.tlist (p + 1) i ≤ m0.vcount := by
      intro i hi
      rw [hrow]
      exact hw (p + 1) i (Nat.succ_pos _) hp hi
    have hnr : ∀ i, i < 3 → m0.vcount < (midpoints s (p + 1)).newMidpointVertices i ∧
        (midpoints s (p + 1)).newMidpointVertices i ≤ (midpoints s (p + 1)).mesh.vcount :=
      fun i hi => hmid.rng _ (lookup_mem (hmid.nm i hi))
    have hinj : ∀ i j, i < 3 → j < 3 → (midpoints s (p + 1)).newMidpointVertices i
        = (midpoints s (p + 1)).newMidpointVertices j → i = j := by
      intro i j hi hj e
      have h1 := lookup_mem (hmid.nm i hi)
      have h2 := lookup_mem (hmid.nm j hj)
      have hk := List.inj_on_of_nodup_map hmid.vals h1 h2 e
      exact edgesOf_injective m0 (p + 1) (hd _ (Nat.succ_pos _) hp) i j hi hj
        (Prod.ext_iff.mp hk).1
    have gc := cornerMesh_good s (p + 1) m0.vcount (midpoints_good s (p + 1) hg) htc hro hnr hinj
    have gz := centralMesh_good s (p + 1) m0.vcount gc (Nat.succ_pos _) htc hro hnr hinj
    have tz : Track m0 (midpoints s (p + 1)).edgeVertexMap (p + 1) 0 (centralMesh s (p + 1)) := by
      refine htr.mono ?_ hmid.stable (fun _ _ h => h)
      intro a j a1 a2 a3
      have hne : a ≠ p + 1 := by
        intro e
        rw [e, hs] at a3
        exact Bool.noConfusion a3
      rw [centralMesh_tlist_other s _ a hne, cornerMesh_tlist_old s _ a (le_trans a2 hL.ext.tc)]
    have hstep : ∀ n, n ≤ 3 → Good (stitched s (p + 1) n) ∧
        Track m0 (midpoints s (p + 1)).edgeVertexMap (p + 1) n (stitched s (p + 1) n) := by
      intro n
      induction n with
      | zero => exact fun _ => ⟨gz, tz⟩
      | succ n ih =>
        intro hn
        obtain ⟨gn, tn⟩ := ih (by omega)
        have hx := hL.ext.trans (stitched_extends s (p + 1) n)
        have hfn : fnext (stitched s (p + 1) n) (makeOrTri (p + 1) n)
            = fnext m0 (makeOrTri (p + 1) n) := by
          simp only [fnext, hx.fn]
        have hvc : (stitched s (p + 1) n).vcount = (midpoints s (p + 1)).mesh.vcount :=
          (stitched_vcount s (p + 1) n).1
        obtain ⟨a1, a2, _⟩ := hadj (p + 1) n (Nat.succ_pos _) hp (by omega)
        rw [stitched_succ]
        refine ⟨stitchStep_good _ _ _ _ gn ?_,
          tn.stitch _ hx.fn hx.tc (Nat.succ_pos _) hp hs (by omega) (hmid.nm n (by omega))⟩
        rw [hfn, hx.sel _ a2]
        intro hsel
        have b := hnr n (by omega)
        refine ⟨a1, le_trans a2 hx.tc, by omega, by rw [hvc]; exact b.2, ?_⟩
        exact tn.fresh hw hd hadj hmid.vals (fun kx hkx => (hmid.rng kx hkx).1)
          (Nat.succ_pos _) hp hs (by omega) _ (hmid.nm n (by omega)) hsel
    obtain ⟨g3, t3⟩ := hstep 3 (le_refl _)
    rw [hst]
    refine ⟨g3, t3.mono (fun _ _ _ _ _ => rfl) (fun _ _ h => h) ?_⟩
    intro t' v' hp'
    rcases hp' with h1 | ⟨h1, _⟩
    · exact Or.inl (by omega)
    · exact Or.inl (by omega)
  · have hs' : s.mesh.selectedT (p + 1) = false := by
      rw [hsel0]; simpa using hs
    have hst : subdivideTriangle s (p + 1) = s := by simp [subdivideTriangle, hs']
    rw [hst]
    refine ⟨hg, htr.mono (fun _ _ _ _ _ => rfl) (fun _ _ h => h) ?_⟩
    intro t' v' hp'
    rcases hp' with h1 | ⟨_, h2⟩
    · exact Or.inl (by omega)
    · exact absurd h2 (Nat.not_lt_zero _)

theorem stateAfter_good (m0 : myObjType) (hw : WellFormed m0) (hd : DistinctVerts m0)
    (hadj : AdjConsistent m0) (hg : Good m0) (p : Nat) (hp : p ≤ m0.tcount) :
    Good (stateAfter m0 p).mesh ∧
    Track m0 (stateAfter m0 p).edgeVertexMap (p + 1) 0 (stateAfter m0 p).mesh := by
  induction p with
  | zero => exact ⟨hg, fun _ _ _ _ _ _ => Or.inl rfl⟩
  | succ p ih =>
    obtain ⟨g, tr⟩ := ih (by omega)
    rw [stateAfter_succ]
    exact subdivideTriangle_good m0 hw hd hadj p _ (loopInv_stateAfter m0 p (by omega)) g tr hp

/-- C1. On a well-formed mesh whose triangles have three distinct vertices, whose face
adjacency is consistent with the vertex triples and whose incidence lists are exact
(for every vertex handle `v`, `vToTList[v]` is a duplicate-free list of exactly the
triangle handles whose triple contains `v`), the incidence lists are exact again when
`subdivide` returns, for every vertex handle `1..vcount` and triangle handle
`1..tcount` of the refined mesh. -/
theorem subdivide_preserves_incidence (d : Derived) (m : myObjType) (hw : WellFormed m)
    (hd : DistinctVerts m) (hadj : AdjConsistent m) (hi : Incidence m) :
    Incidence (subdivide d m) :=
  incidence_of_good (subdivideLoop m).mesh
    (stateAfter_good m hw hd hadj (good_of_incidence m hw hd hi) m.tcount (le_refl _)).1
theorem wedgeMesh_wellFormed : WellFormed wedgeMesh := by
  intro t i h1 h2 h3
  change t ≤ 3 at h2
  interval_cases t <;> interval_cases i <;> decide

theorem wedgeMesh_distinctVerts : DistinctVerts wedgeMesh := by
  intro t h1 h2
  change t ≤ 3 at h2
  interval_cases t <;> decide

theorem wedgeMesh_adjConsistent : AdjConsistent wedgeMesh := by
  intro t v h1 h2 h3
  change t ≤ 3 at h2
  interval_cases t <;> interval_cases v <;> decide

theorem wedgeMesh_incidence : Incidence wedgeMesh := by
  constructor
  · intro v hv1 hv2
    change v ≤ 5 at hv2
    interval_cases v <;> decide
  · intro v hv1 hv2 h
    change v ≤ 5 at hv2
    constructor
    · intro hh
      interval_cases v <;> simp [wedgeMesh] at hh <;> rcases hh with rfl | rfl | rfl <;>
        first
          | exact ⟨by decide, by decide, 0, by decide, by decide⟩
          | exact ⟨by decide, by decide, 1, by decide, by decide⟩
          | exact ⟨by decide, by decide, 2, by decide, by decide⟩
    · rintro ⟨h1, h2, i, hi, e⟩
      change h ≤ 3 at h2
      interval_cases h <;> interval_cases i <;> interval_cases v <;>
        first
          | (exfalso; revert e; decide)
          | decide

/-- C1 (witness). The wedge, whose unselected triangle `3` is stitched from two
sides. -/
theorem subdivide_preserves_incidence_witness :
    WellFormed wedgeMesh ∧ DistinctVerts wedgeMesh ∧ AdjConsistent wedgeMesh ∧
    Incidence wedgeMesh ∧ Incidence (subdivide keepDerived wedgeMesh) :=
  ⟨wedgeMesh_wellFormed, wedgeMesh_distinctVerts, wedgeMesh_adjConsistent, wedgeMesh_incidence,
    subdivide_preserves_incidence keepDerived wedgeMesh wedgeMesh_wellFormed
      wedgeMesh_distinctVerts wedgeMesh_adjConsistent wedgeMesh_incidence⟩

/-- C6 (the code at the failing input). The wedge is a well-formed mesh of triangles
with distinct vertices, consistent adjacency and exact incidence lists. Its unselected
triangle `3` is stitched first along its edge `1-2` and then along its edge `2-3`. The
triangle `7` appended by the first stitch is `(2,3,6)`; the second stitch splits the
slot `3` instead, so after `subdivide` triangle `7` still contains both endpoints `2`
and `3` of the edge of the selected triangle `2 = (3,2,5)` and not the midpoint `9` of
that edge, which the central triangle `2 = (9,10,11)` uses. -/
theorem subdivide_wedge_crack :
    WellFormed wedgeMesh ∧ DistinctVerts wedgeMesh ∧ AdjConsistent wedgeMesh ∧
    Incidence wedgeMesh ∧
    wedgeMesh.selectedT 2 = true ∧ wedgeMesh.tlist 2 0 = 3 ∧ wedgeMesh.tlist 2 1 = 2 ∧
    (subdivide keepDerived wedgeMesh).tcount = 11 ∧
    (subdivide keepDerived wedgeMesh).tlist 2 0 = 9 ∧
    (subdivide keepDerived wedgeMesh).tlist 7 0 = 2 ∧
    (subdivide keepDerived wedgeMesh).tlist 7 1 = 3 ∧
    (subdivide keepDerived wedgeMesh).tlist 7 2 = 6 :=
  ⟨wedgeMesh_wellFormed, wedgeMesh_distinctVerts, wedgeMesh_adjConsistent, wedgeMesh_incidence,
    by decide⟩

/-- C20. The comparator of the relaxer's queue returns the difference
`key e1 - key e2` of the two valence sums in `size_t` arithmetic, and the queue uses it
as a boolean. For valence sums in the range of `size_t` it is true exactly when the two
keys differ; it answers the same for the swapped pair, and for two candidates with
different keys it is true in both directions, so it does not tell a lower key from a
higher one. -/
theorem cmp_is_key_difference (m : myObjType) (e1 e2 : OrTri)
    (h1 : key m e1 < 2 ^ 64) (h2 : key m e2 < 2 ^ 64) :
    cmp m e1 e2 = (((key m e1 : Int) - (key m e2 : Int)) % 2 ^ 64).toNat ∧
    (cmpBool m e1 e2 = true ↔ key m e1 ≠ key m e2) ∧
    cmpBool m e1 e2 = cmpBool m e2 e1 ∧
    (key m e1 ≠ key m e2 → cmpBool m e1 e2 = true ∧ cmpBool m e2 e1 = true) := by
  have hd : cmp m e1 e2 = (((key m e1 : Int) - (key m e2 : Int)) % 2 ^ 64).toNat := by
    unfold cmp key
    push_cast
    congr 2
    ring
  have hb : cmpBool m e1 e2 = true ↔ key m e1 ≠ key m e2 := by
    unfold cmpBool
    rw [decide_eq_true_iff, hd]
    norm_num at h1 h2 ⊢
    omega
  refine ⟨hd, hb, cmpBool_symm m e1 e2, fun hne => ⟨hb.mpr hne, ?_⟩⟩
  rw [← cmpBool_symm m e1 e2]
  exact hb.mpr hne

/-- C20 (witness). Two candidates of the strip with keys `6` and `5`. -/
theorem cmp_is_key_difference_witness :
    key stripMesh ⟨2, 2⟩ < 2 ^ 64 ∧ key stripMesh ⟨2, 0⟩ < 2 ^ 64 ∧
    (cmpBool stripMesh ⟨2, 2⟩ ⟨2, 0⟩ = true ↔ key stripMesh ⟨2, 2⟩ ≠ key stripMesh ⟨2, 0⟩) :=
  ⟨by decide, by decide,
    (cmp_is_key_difference stripMesh ⟨2, 2⟩ ⟨2, 0⟩ (by decide) (by decide)).2.1⟩

/-! ## Selection flags in `subdivide` -/

theorem stitchStep_selectedT (t : Nat) (nm : Nat → Nat) (m : myObjType) (v : Nat) :
    (stitchStep t nm m v).selectedT = m.selectedT := by
  unfold stitchStep
  simp only []
  split <;> rfl

theorem stitched_selectedT (s : SubdivideState) (t n : Nat) :
    (stitched s t n).selectedT = (centralMesh s t).selectedT := by
  induction n with
  | zero => rfl
  | succ n ih => rw [stitched_succ, stitchStep_selectedT, ih]

theorem cornerMesh_selectedT (s : SubdivideState) (t h : Nat) :
    (cornerMesh s t).selectedT h = true ↔
      (s.mesh.selectedT h = true ∨ ∃ i, i < 3 ∧ h = s.mesh.tcount + 1 + i) := by
  obtain ⟨e1, _, _, e4, _⟩ := midpoints_mesh s t
  simp only [cornerMesh, foldl3, cornerStep, set1, e1, e4]
  constructor
  · intro hh
    split at hh
    · next e => exact Or.inr ⟨2, by decide, by omega⟩
    · split at hh
      · next e => exact Or.inr ⟨1, by decide, by omega⟩
      · split at hh
        · next e => exact Or.inr ⟨0, by decide, by omega⟩
        · exact Or.inl hh
  · rintro (hh | ⟨i, hi, e⟩)
    · split
      · rfl
      · split
        · rfl
        · split
          · rfl
          · exact hh
    · interval_cases i
      · have a1 : ¬ h = s.mesh.tcount + 1 + 1 + 1 := by omega
        have a2 : ¬ h = s.mesh.tcount + 1 + 1 := by omega
        have a3 : h = s.mesh.tcount + 1 := by omega
        simp [a1, a2, a3]
      · have a1 : ¬ h = s.mesh.tcount + 1 + 1 + 1 := by omega
        have a2 : h = s.mesh.tcount + 1 + 1 := by omega
        simp [a1, a2]
      · have a1 : h = s.mesh.tcount + 1 + 1 + 1 := by omega
        simp [a1]

theorem subdivideTriangle_selectedT (s : SubdivideState) (t h : Nat) :
    (subdivideTriangle s t).mesh.selectedT h = true ↔
      (s.mesh.selectedT h = true ∨
        (s.mesh.selectedT t = true ∧ ∃ i, i < 3 ∧ h = s.mesh.tcount + 1 + i)) := by
  unfold subdivideTriangle
  split
  · next hs =>
    constructor
    · exact fun hh => Or.inl hh
    · rintro (hh | ⟨h1, _⟩)
      · exact hh
      · rw [hs] at h1; exact Bool.noConfusion h1
  · next hs =>
    have hs' : s.mesh.selectedT t = true := by simpa using hs
    show (stitched s t 3).selectedT h = true ↔ _
    rw [stitched_selectedT, (centralMesh_fields s t).2.2.2, cornerMesh_selectedT]
    constructor
    · rintro (hh | hh)
      · exact Or.inl hh
      · exact Or.inr ⟨hs', hh⟩
    · rintro (hh | ⟨_, hh⟩)
      · exact Or.inl hh
      · exact Or.inr hh

theorem stateAfter_selectedT (m : myObjType) (p : Nat) (hp : p ≤ m.tcount) (h : Nat) :
    (stateAfter m p).mesh.selectedT h = true ↔
      (m.selectedT h = true ∨ ∃ t i, 1 ≤ t ∧ t ≤ p ∧ m.selectedT t = true ∧ i < 3 ∧
        h = (stateAfter m (t - 1)).mesh.tcount + 1 + i) := by
  induction p with
  | zero =>
    constructor
    · exact fun hh => Or.inl hh
    · rintro (hh | ⟨t, i, h1, h2, _⟩)
      · exact hh
      · omega
  | succ p ih =>
    have hx := stateAfter_extends m p
    rw [stateAfter_succ, subdivideTriangle_selectedT, ih (by omega), hx.sel (p + 1) hp]
    constructor
    · rintro ((hh | ⟨t, i, h1, h2, h3, h4, h5⟩) | ⟨h1, i, hi, e⟩)
      · exact Or.inl hh
      · exact Or.inr ⟨t, i, h1, by omega, h3, h4, h5⟩
      · exact Or.inr ⟨p + 1, i, by omega, le_refl _, h1, hi, e⟩
    · rintro (hh | ⟨t, i, h1, h2, h3, h4, h5⟩)
      · exact Or.inl (Or.inl hh)
      · rcases Nat.lt_succ_iff_lt_or_eq.mp (Nat.lt_succ_of_le h2) with hlt | heq
        · exact Or.inl (Or.inr ⟨t, i, h1, by omega, h3, h4, h5⟩)
        · subst heq
          exact Or.inr ⟨h3, i, h4, h5⟩

theorem stateAfter_mono (m : myObjType) (p q : Nat) (hpq : p ≤ q) :
    Extends (stateAfter m p).mesh (stateAfter m q).mesh := by
  induction q with
  | zero =>
    have : p = 0 := by omega
    subst this
    exact Extends.refl _
  | succ q ih =>
    rcases Nat.lt_or_ge p (q + 1) with hlt | hge
    · rw [stateAfter_succ]
      exact (ih (by omega)).trans (subdivideTriangle_extends _ _)
    · have : p = q + 1 := by omega
      subst this
      exact Extends.refl _

/-- The handles that the body of the outer loop appends for a selected triangle:
three corner triangles first, the stitch triangles above them. -/
theorem stitched_tcount_bounds (s : SubdivideState) (t n : Nat) :
    s.mesh.tcount + 3 ≤ (stitched s t n).tcount ∧
    (stitched s t n).tcount ≤ (stitched s t (n + 1)).tcount := by
  constructor
  · have := (stitched_extends_central s t n).tc
    rw [centralMesh_tcount] at this
    exact this
  · rw [stitched_succ]
    exact (stitchStep_extends _ _ _ _).tc

theorem stitched_tcount_le (s : SubdivideState) (t n k : Nat) (h : n ≤ k) :
    (stitched s t n).tcount ≤ (stitched s t k).tcount := by
  induction k with
  | zero =>
    have : n = 0 := by omega
    subst this
    exact le_refl _
  | succ k ih =>
    rcases Nat.lt_or_ge n (k + 1) with hlt | hge
    · exact le_trans (ih (by omega)) (stitched_tcount_bounds s t k).2
    · have : n = k + 1 := by omega
      subst this
      exact le_refl _

theorem stateAfter_tcount_selected (m : myObjType) (t : Nat) (h1 : 1 ≤ t) (h2 : t ≤ m.tcount)
    (hs : m.selectedT t = true) :
    (stateAfter m t).mesh.tcount = (stitched (stateAfter m (t - 1)) t 3).tcount := by
  have e : t = (t - 1) + 1 := by omega
  have hx := stateAfter_extends m (t - 1)
  have hs' : (stateAfter m (t - 1)).mesh.selectedT t = true := by rw [hx.sel t h2]; exact hs
  conv_lhs => rw [e, stateAfter_succ, ← e]
  simp [subdivideTriangle, hs']

theorem stitch_not_corner (m : myObjType) (h : Nat) (hst : isStitchHandle m h) :
    ¬ isCornerHandle m h := by
  obtain ⟨t, v, t1, t2, t3, hv, hinc, he⟩ := hst
  rintro ⟨t', i, c1, c2, c3, hi, hc⟩
  have b1 := (stitched_tcount_bounds (stateAfter m (t - 1)) t v).1
  have b2 := stitched_tcount_le (stateAfter m (t - 1)) t (v + 1) 3 (by omega)
  have e3 := stateAfter_tcount_selected m t t1 t2 t3
  have e3' := stateAfter_tcount_selected m t' c1 c2 c3
  have b1' := (stitched_tcount_bounds (stateAfter m (t' - 1)) t' 3).1
  rcases Nat.lt_trichotomy t' t with hlt | heq | hgt
  · have := (stateAfter_mono m t' (t - 1) (by omega)).tc
    omega
  · subst heq
    omega
  · have := (stateAfter_mono m t (t' - 1) (by omega)).tc
    omega

/-- C16 (as amended). `subdivide` never clears a selection flag: a flag set at entry
is set at return. Every corner triangle appended during the call is a handle above
the entry `tcount` and is marked selected at return. The flag of every other handle
is at return what it was at entry; in particular a triangle appended by the boundary
stitch is not marked and keeps the flag its handle had at entry. -/
theorem subdivide_selection_growth (d : Derived) (m : myObjType) :
    (∀ h, m.selectedT h = true → (subdivide d m).selectedT h = true) ∧
    (∀ h, isCornerHandle m h →
      m.tcount < h ∧ h ≤ (subdivide d m).tcount ∧ (subdivide d m).selectedT h = true) ∧
    (∀ h, ¬ isCornerHandle m h → (subdivide d m).selectedT h = m.selectedT h) ∧
    (∀ h, isStitchHandle m h →
      m.tcount < h ∧ h ≤ (subdivide d m).tcount ∧
      (subdivide d m).selectedT h = m.selectedT h) := by
  have hsel : ∀ h, (subdivide d m).selectedT h = true ↔
      (m.selectedT h = true ∨ isCornerHandle m h) := by
    intro h
    show (stateAfter m m.tcount).mesh.selectedT h = true ↔ _
    rw [stateAfter_selectedT m m.tcount (le_refl _) h]
    constructor
    · rintro (hh | ⟨t, i, h1, h2, h3, h4, h5⟩)
      · exact Or.inl hh
      · exact Or.inr ⟨t, i, h1, h2, h3, h4, h5⟩
    · rintro (hh | ⟨t, i, h1, h2, h3, h4, h5⟩)
      · exact Or.inl hh
      · exact Or.inr ⟨t, i, h1, h2, h3, h4, h5⟩
  have hkeep : ∀ h, ¬ isCornerHandle m h → (subdivide d m).selectedT h = m.selectedT h := by
    intro h hn
    cases hm : m.selectedT h
    · cases hr : (subdivide d m).selectedT h
      · rfl
      · rcases (hsel h).mp hr with h1 | h1
        · rw [hm] at h1; exact Bool.noConfusion h1
        · exact absurd h1 hn
    · exact (hsel h).mpr (Or.inl hm)
  refine ⟨fun h hh => (hsel h).mpr (Or.inl hh), ?_, hkeep, ?_⟩
  · intro h hc
    refine ⟨?_, ?_, (hsel h).mpr (Or.inr hc)⟩
    · obtain ⟨t, i, h1, h2, h3, h4, h5⟩ := hc
      have := (stateAfter_extends m (t - 1)).tc
      omega
    · obtain ⟨t, i, h1, h2, h3, h4, h5⟩ := hc
      have b1 := (stitched_tcount_bounds (stateAfter m (t - 1)) t 3).1
      have e3 := stateAfter_tcount_selected m t h1 h2 h3
      have := (stateAfter_mono m t m.tcount h2).tc
      show h ≤ (stateAfter m m.tcount).mesh.tcount
      omega
  · intro h hst
    refine ⟨?_, ?_, hkeep h (stitch_not_corner m h hst)⟩
    · obtain ⟨t, v, t1, t2, t3, hv, hinc, he⟩ := hst
      have b1 := (stitched_tcount_bounds (stateAfter m (t - 1)) t v).1
      have := (stateAfter_extends m (t - 1)).tc
      omega
    · obtain ⟨t, v, t1, t2, t3, hv, hinc, he⟩ := hst
      have b2 := stitched_tcount_le (stateAfter m (t - 1)) t (v + 1) 3 (by omega)
      have e3 := stateAfter_tcount_selected m t t1 t2 t3
      have := (stateAfter_mono m t m.tcount t2).tc
      show h ≤ (stateAfter m m.tcount).mesh.tcount
      omega

/-- C16 (counterexample). In the wedge, handle `7` is appended by the boundary stitch
of triangle `1`; it lies above the entry `tcount = 3` and is not marked selected when
`subdivide` returns. -/
theorem subdivide_stitch_triangle_unselected :
    isStitchHandle wedgeMesh 7 ∧ wedgeMesh.tcount < 7 ∧
    7 ≤ (subdivide keepDerived wedgeMesh).tcount ∧
    (subdivide keepDerived wedgeMesh).selectedT 7 = false := by
  refine ⟨⟨1, 0, by decide, by decide, by decide, by decide, by decide, by decide⟩,
    by decide, by decide, by decide⟩

/-! ## Frame of `subdivide` -/

theorem stitchStep_tlist_other (t : Nat) (nm : Nat → Nat) (m : myObjType) (v h : Nat)
    (h1 : h ≠ m.tcount + 1) (h2 : h ≠ idx (fnext m (makeOrTri t v))) (j : Nat) :
    (stitchStep t nm m v).tlist h j = m.tlist h j := by
  unfold stitchStep
  simp only []
  split
  · simp [set2, h1, h2]
  · rfl

theorem stitched_tlist_other (m0 : myObjType) (s : SubdivideState) (t a : Nat)
    (hext : Extends m0 s.mesh) (ha : a ≤ m0.tcount)
    (hn : ∀ v, v < 3 → idx (fnext m0 (makeOrTri t v)) ≠ a) (n : Nat) (hn3 : n ≤ 3) (j : Nat) :
    (stitched s t n).tlist a j = (centralMesh s t).tlist a j := by
  induction n with
  | zero => rfl
  | succ n ih =>
    have hx := hext.trans (stitched_extends s t n)
    have hfn : fnext (stitched s t n) (makeOrTri t n) = fnext m0 (makeOrTri t n) := by
      simp only [fnext, hx.fn]
    rw [stitched_succ, stitchStep_tlist_other _ _ _ _ _ (by have := hx.tc; omega)
      (by rw [hfn]; exact fun e => hn n (by omega) e.symm), ih (by omega)]

theorem stateAfter_tlist_untouched (m : myObjType) (a : Nat) (ha : a ≤ m.tcount)
    (hs : m.selectedT a = false)
    (hn : ∀ t v, 1 ≤ t → t ≤ m.tcount → m.selectedT t = true → v < 3 →
      idx (fnext m (makeOrTri t v)) ≠ a) (p : Nat) (hp : p ≤ m.tcount) (i : Nat) :
    (stateAfter m p).mesh.tlist a i = m.tlist a i := by
  induction p with
  | zero => rfl
  | succ p ih =>
    have hx := stateAfter_extends m p
    rw [stateAfter_succ]
    by_cases hsel : m.selectedT (p + 1) = true
    · have hs' : (stateAfter m p).mesh.selectedT (p + 1) = true := by
        rw [hx.sel _ hp]; exact hsel
      have hst : subdivideTriangle (stateAfter m p) (p + 1)
          = ⟨stitched (stateAfter m p) (p + 1) 3,
            (midpoints (stateAfter m p) (p + 1)).edgeVertexMap⟩ := by
        simp [subdivideTriangle, hs']
      have hne : a ≠ p + 1 := by
        intro e
        rw [e, hsel] at hs
        exact Bool.noConfusion hs
      rw [hst]
      show (stitched (stateAfter m p) (p + 1) 3).tlist a i = _
      rw [stitched_tlist_other m _ (p + 1) a hx ha
        (fun v hv => hn (p + 1) v (Nat.succ_pos _) hp hsel hv) 3 (le_refl _),
        centralMesh_tlist_other _ _ a hne, cornerMesh_tlist_old _ _ a (le_trans ha hx.tc)]
      exact ih (by omega)
    · have hs' : (stateAfter m p).mesh.selectedT (p + 1) = false := by
        rw [hx.sel _ hp]; simpa using hsel
      have hst : subdivideTriangle (stateAfter m p) (p + 1) = stateAfter m p := by
        simp [subdivideTriangle, hs']
      rw [hst]
      exact ih (by omega)

/-- C18. `subdivide` never decreases `vcount` or `tcount` and leaves the position of
every vertex handle up to the entry `vcount` as it was. A triangle of the entry mesh
that is not selected and is not the across-edge neighbour of an edge of a selected
triangle keeps its vertex triple; so an entry slot whose triple differs at return is a
selected triangle or the across-edge neighbour of a selected triangle. -/
theorem subdivide_frame (d : Derived) (m : myObjType) :
    m.vcount ≤ (subdivide d m).vcount ∧ m.tcount ≤ (subdivide d m).tcount ∧
    (∀ v, v ≤ m.vcount → ∀ c, (subdivide d m).vlist v c = m.vlist v c) ∧
    (∀ a, a ≤ m.tcount → m.selectedT a = false →
      (∀ t v, 1 ≤ t → t ≤ m.tcount → m.selectedT t = true → v < 3 →
        idx (fnext m (makeOrTri t v)) ≠ a) →
      ∀ i, (subdivide d m).tlist a i = m.tlist a i) ∧
    (∀ a i, a ≤ m.tcount → (subdivide d m).tlist a i ≠ m.tlist a i →
      m.selectedT a = true ∨
      ∃ t v, 1 ≤ t ∧ t ≤ m.tcount ∧ m.selectedT t = true ∧ v < 3 ∧
        idx (fnext m (makeOrTri t v)) = a) := by
  have hx := stateAfter_extends m m.tcount
  have hrow : ∀ a, a ≤ m.tcount → m.selectedT a = false →
      (∀ t v, 1 ≤ t → t ≤ m.tcount → m.selectedT t = true → v < 3 →
        idx (fnext m (makeOrTri t v)) ≠ a) →
      ∀ i, (subdivide d m).tlist a i = m.tlist a i := fun a ha hs hn i =>
    stateAfter_tlist_untouched m a ha hs hn m.tcount (le_refl _) i
  refine ⟨hx.vc, hx.tc, hx.vl, hrow, ?_⟩
  intro a i ha hne
  by_contra hcon
  rw [not_or] at hcon
  apply hne
  apply hrow a ha (by simpa using hcon.1)
  intro t v h1 h2 h3 h4 e
  exact hcon.2 ⟨t, v, h1, h2, h3, h4, e⟩

/-! ## Winding of the 1-to-4 split -/

/-- C19. For a triangle `t = (v0, v1, v2)` selected at entry, with
`m_i = midpointOf m v_i v_(i+1 mod 3)`, read every triple as the directed edges
`a -> b`, `b -> c`, `c -> a`. Corner `i` (handle `c + 1 + i`) has the directed edges
`v_i -> m_i`, `m_i -> m_(i+2)`, `m_(i+2) -> v_i`; the central triangle (slot `t`) has
the directed edge `m_(i+2) -> m_i`, the interior edge of corner `i` the other way
round; the two halves `v_i -> m_i` (corner `i`) and `m_i -> v_(i+1)` (corner `i+1`)
run along the directed edge `v_i -> v_(i+1)` of the parent. When the three vertices
of `t` differ, the three midpoints differ, so the three interior edges are three
different edges. -/
theorem subdivide_winding (d : Derived) (m : myObjType) (t : Nat) (h1 : 1 ≤ t)
    (h2 : t ≤ m.tcount) (h3 : m.selectedT t = true) :
    (∃ c, m.tcount ≤ c ∧ c + 3 ≤ (subdivide d m).tcount ∧ ∀ i, i < 3 →
      dirEdge m t i = (m.tlist t i, m.tlist t ((i + 1) % 3)) ∧
      dirEdge (subdivide d m) (c + 1 + i) 0
        = (m.tlist t i, midpointOf m (m.tlist t i) (m.tlist t ((i + 1) % 3))) ∧
      dirEdge (subdivide d m) (c + 1 + i) 1
        = (midpointOf m (m.tlist t i) (m.tlist t ((i + 1) % 3)),
            midpointOf m (m.tlist t ((i + 2) % 3)) (m.tlist t i)) ∧
      dirEdge (subdivide d m) (c + 1 + i) 2
        = (midpointOf m (m.tlist t ((i + 2) % 3)) (m.tlist t i), m.tlist t i) ∧
      dirEdge (subdivide d m) t ((i + 2) % 3)
        = (midpointOf m (m.tlist t ((i + 2) % 3)) (m.tlist t i),
            midpointOf m (m.tlist t i) (m.tlist t ((i + 1) % 3))) ∧
      dirEdge (subdivide d m) (c + 1 + (i + 1) % 3) 2
        = (midpointOf m (m.tlist t i) (m.tlist t ((i + 1) % 3)), m.tlist t ((i + 1) % 3))) ∧
    (m.tlist t 0 ≠ m.tlist t 1 ∧ m.tlist t 1 ≠ m.tlist t 2 ∧ m.tlist t 0 ≠ m.tlist t 2 →
      midpointOf m (m.tlist t 0) (m.tlist t 1) ≠ midpointOf m (m.tlist t 1) (m.tlist t 2) ∧
      midpointOf m (m.tlist t 1) (m.tlist t 2) ≠ midpointOf m (m.tlist t 2) (m.tlist t 0) ∧
      midpointOf m (m.tlist t 0) (m.tlist t 1) ≠ midpointOf m (m.tlist t 2) (m.tlist t 0)) := by
  have h := loopInv_final m
  have hmid : ∀ i, i < 3 → midpointOf m (m.tlist t i) (m.tlist t ((i + 1) % 3))
      = (subdivideLoop m).mesh.tlist t i := fun i hi => (midpointOf_selected m t i h1 h2 h3 hi).2
  have hmid2 : ∀ i, i < 3 → midpointOf m (m.tlist t ((i + 2) % 3)) (m.tlist t i)
      = (subdivideLoop m).mesh.tlist t ((i + 2) % 3) := by
    intro i hi
    have e : ((i + 2) % 3 + 1) % 3 = i := by interval_cases i <;> rfl
    have := hmid ((i + 2) % 3) (Nat.mod_lt _ (by decide))
    rw [e] at this
    exact this
  constructor
  · obtain ⟨c, c1, c2, c3⟩ := h.corners t h1 h2 h3
    refine ⟨c, c1, c2, fun i hi => ?_⟩
    obtain ⟨_, d1, d2, d3, _⟩ := c3 i hi
    have hi1 : (i + 1) % 3 < 3 := Nat.mod_lt _ (by decide)
    obtain ⟨_, f1, f2, f3, _⟩ := c3 ((i + 1) % 3) hi1
    have e1 : ((i + 1) % 3 + 2) % 3 = i := by interval_cases i <;> rfl
    have e2 : ((i + 2) % 3 + 1) % 3 = i := by interval_cases i <;> rfl
    rw [e1] at f3
    refine ⟨rfl, ?_, ?_, ?_, ?_, ?_⟩
    · show ((subdivideLoop m).mesh.tlist (c + 1 + i) 0, (subdivideLoop m).mesh.tlist (c + 1 + i) 1)
        = _
      rw [d1, d2, hmid i hi]
    · show ((subdivideLoop m).mesh.tlist (c + 1 + i) 1, (subdivideLoop m).mesh.tlist (c + 1 + i) 2)
        = _
      rw [d2, d3, hmid i hi, hmid2 i hi]
    · show ((subdivideLoop m).mesh.tlist (c + 1 + i) 2, (subdivideLoop m).mesh.tlist (c + 1 + i) 0)
        = _
      rw [d3, d1, hmid2 i hi]
    · show ((subdivideLoop m).mesh.tlist t ((i + 2) % 3),
        (subdivideLoop m).mesh.tlist t (((i + 2) % 3 + 1) % 3)) = _
      rw [e2, hmid i hi, hmid2 i hi]
    · show ((subdivideLoop m).mesh.tlist (c + 1 + (i + 1) % 3) 2,
        (subdivideLoop m).mesh.tlist (c + 1 + (i + 1) % 3) 0) = _
      rw [f3, f1, hmid i hi]
  · intro hd
    have hne : ∀ i j, i < 3 → j < 3 → i ≠ j →
        (subdivideLoop m).mesh.tlist t i ≠ (subdivideLoop m).mesh.tlist t j := by
      intro i j hi hj hij e
      have l1 := lookup_mem (h.central t i h1 h2 h3 hi)
      have l2 := lookup_mem (h.central t j h1 h2 h3 hj)
      have hk := List.inj_on_of_nodup_map h.vals l1 l2 e
      exact hij (edgesOf_injective m t hd i j hi hj (Prod.ext_iff.mp hk).1)
    have a0 := hmid 0 (by decide)
    have a1 := hmid 1 (by decide)
    have a2 := hmid 2 (by decide)
    simp only [Nat.reduceAdd, Nat.reduceMod] at a0 a1 a2
    rw [a0, a1, a2]
    exact ⟨hne 0 1 (by decide) (by decide) (by decide), hne 1 2 (by decide) (by decide) (by decide),
      hne 0 2 (by decide) (by decide) (by decide)⟩

/-- C19 (witness). Triangle `1` of the square. -/
theorem subdivide_winding_witness :
    squareMesh.selectedT 1 = true ∧
    (squareMesh.tlist 1 0 ≠ squareMesh.tlist 1 1 ∧ squareMesh.tlist 1 1 ≠ squareMesh.tlist 1 2 ∧
        squareMesh.tlist 1 0 ≠ squareMesh.tlist 1 2 →
      midpointOf squareMesh (squareMesh.tlist 1 0) (squareMesh.tlist 1 1)
          ≠ midpointOf squareMesh (squareMesh.tlist 1 1) (squareMesh.tlist 1 2) ∧
      midpointOf squareMesh (squareMesh.tlist 1 1) (squareMesh.tlist 1 2)
          ≠ midpointOf squareMesh (squareMesh.tlist 1 2) (squareMesh.tlist 1 0) ∧
      midpointOf squareMesh (squareMesh.tlist 1 0) (squareMesh.tlist 1 1)
          ≠ midpointOf squareMesh (squareMesh.tlist 1 2) (squareMesh.tlist 1 0)) :=
  ⟨by decide,
    (subdivide_winding keepDerived squareMesh 1 (by decide) (by decide) (by decide)).2⟩

/-! ## The boundary stitch -/

theorem stitchCopy_nlist_new (tl : Nat → Nat → Nat) (a h : Nat)
    (s : (Nat → Nat → Coord) × (Nat → List Nat)) (hne : a ≠ h) (j : Nat) (hj : j < 3) :
    (stitchCopy tl a h s).1 h j = s.1 a j := by
  unfold stitchCopy
  interval_cases j <;> simp [foldl3, set2, hne]

theorem stitchStep_boundary (t : Nat) (nm : Nat → Nat) (m : myObjType) (v : Nat)
    (hs : m.selectedT (idx (fnext m (makeOrTri t v))) = false)
    (hne : idx (fnext m (makeOrTri t v)) ≠ m.tcount + 1) :
    (stitchStep t nm m v).tcount = m.tcount + 1 ∧
    (stitchStep t nm m v).tlist (m.tcount + 1) 0
      = m.tlist (idx (fnext m (makeOrTri t v))) ((ver (fnext m (makeOrTri t v)) % 3 + 1) % 3) ∧
    (stitchStep t nm m v).tlist (m.tcount + 1) 1
      = m.tlist (idx (fnext m (makeOrTri t v))) ((ver (fnext m (makeOrTri t v)) % 3 + 2) % 3) ∧
    (stitchStep t nm m v).tlist (m.tcount + 1) 2 = nm v ∧
    (∀ j, j < 3 → (stitchStep t nm m v).nlist (m.tcount + 1) j
      = m.nlist (idx (fnext m (makeOrTri t v))) j) ∧
    (stitchStep t nm m v).tlist (idx (fnext m (makeOrTri t v)))
      ((ver (fnext m (makeOrTri t v)) % 3 + 1) % 3) = nm v ∧
    (∀ j, j ≠ (ver (fnext m (makeOrTri t v)) % 3 + 1) % 3 →
      (stitchStep t nm m v).tlist (idx (fnext m (makeOrTri t v))) j
        = m.tlist (idx (fnext m (makeOrTri t v))) j) := by
  have hne' : m.tcount + 1 ≠ idx (fnext m (makeOrTri t v)) := fun e => hne e.symm
  unfold stitchStep
  simp only [hs, Bool.not_false, if_true]
  refine ⟨trivial, ?_, ?_, ?_, ?_, ?_, ?_⟩
  · simp only [set2]
    simp [hne, hne']
  · simp only [set2]
    simp [hne, hne']
  · simp only [set2]
    simp [hne, hne']
  · intro j hj
    exact stitchCopy_nlist_new _ _ _ _ hne j hj
  · simp only [set2]
    simp
  · intro j hj
    simp only [set2]
    rw [if_neg (fun e => hj e.2)]
    simp [hne]

theorem stitched_mono (s : SubdivideState) (t n n' : Nat) (h : n ≤ n') :
    Extends (stitched s t n) (stitched s t n') := by
  induction n', h using Nat.le_induction with
  | base => exact Extends.refl _
  | succ k _ ih =>
    rw [stitched_succ]
    exact ih.trans (stitchStep_extends _ _ _ _)

theorem stitched_tlist_keep (s : SubdivideState) (t h n n' : Nat) (hnn : n ≤ n')
    (hh : h ≤ (stitched s t n).tcount)
    (hne : ∀ v, n ≤ v → v < n' → idx (fnext s.mesh (makeOrTri t v)) ≠ h) (j : Nat) :
    (stitched s t n').tlist h j = (stitched s t n).tlist h j := by
  induction n', hnn using Nat.le_induction with
  | base => rfl
  | succ k hk ih =>
    have hx := stitched_extends s t k
    have hfn : fnext (stitched s t k) (makeOrTri t k) = fnext s.mesh (makeOrTri t k) := by
      simp only [fnext, hx.fn]
    have hm := (stitched_mono s t n k hk).tc
    rw [stitched_succ, stitchStep_tlist_other _ _ _ _ _ (by omega)
      (by rw [hfn]; exact fun e => hne k hk (by omega) e.symm)]
    exact ih (fun v h1 h2 => hne v h1 (by omega))

theorem subdivideTriangle_tlist_keep (s : SubdivideState) (t h : Nat) (hh : h ≤ s.mesh.tcount)
    (hne : s.mesh.selectedT t = true →
      h ≠ t ∧ ∀ v, v < 3 → idx (fnext s.mesh (makeOrTri t v)) ≠ h) (j : Nat) :
    (subdivideTriangle s t).mesh.tlist h j = s.mesh.tlist h j := by
  by_cases hsel : s.mesh.selectedT t = true
  · have hst : subdivideTriangle s t = ⟨stitched s t 3, (midpoints s t).edgeVertexMap⟩ := by
      simp [subdivideTriangle, hsel]
    rw [hst]
    show (stitched s t 3).tlist h j = _
    have h0 : h ≤ (stitched s t 0).tcount := le_trans hh (stitched_extends s t 0).tc
    rw [stitched_tlist_keep s t h 0 3 (by omega) h0 (fun v _ hv => (hne hsel).2 v hv)]
    show (centralMesh s t).tlist h j = _
    rw [centralMesh_tlist_other _ _ h (hne hsel).1, cornerMesh_tlist_old _ _ h hh]
  · have hst : subdivideTriangle s t = s := by
      simp [subdivideTriangle, hsel]
    rw [hst]

theorem stateAfter_tlist_keep (m : myObjType) (h p q : Nat) (hpq : p ≤ q) (hq : q ≤ m.tcount)
    (hh : h ≤ (stateAfter m p).mesh.tcount)
    (hne : ∀ t, p < t → t ≤ q → m.selectedT t = true →
      h ≠ t ∧ ∀ v, v < 3 → idx (fnext m (makeOrTri t v)) ≠ h) (j : Nat) :
    (stateAfter m q).mesh.tlist h j = (stateAfter m p).mesh.tlist h j := by
  induction q, hpq using Nat.le_induction with
  | base => rfl
  | succ k hk ih =>
    have hx := stateAfter_extends m k
    have hm := (stateAfter_mono m p k hk).tc
    rw [stateAfter_succ, subdivideTriangle_tlist_keep _ _ h (by omega)]
    · exact ih (by omega) (fun t h1 h2 => hne t h1 (by omega))
    · intro hsel
      rw [hx.sel _ hq] at hsel
      have := hne (k + 1) (by omega) (le_refl _) hsel
      refine ⟨this.1, fun v hv => ?_⟩
      have hfn : fnext (stateAfter m k).mesh (makeOrTri (k + 1) v)
          = fnext m (makeOrTri (k + 1) v) := by
        simp only [fnext, hx.fn]
      rw [hfn]
      exact this.2 v hv

theorem stateAfter_tlist_locked (m : myObjType) (h p q : Nat) (hh : h ≤ p) (hpq : p ≤ q)
    (hm : h ≤ m.tcount) (hs : m.selectedT h = true) (j : Nat) :
    (stateAfter m q).mesh.tlist h j = (stateAfter m p).mesh.tlist h j := by
  induction q, hpq using Nat.le_induction with
  | base => rfl
  | succ k hk ih =>
    have hx := stateAfter_extends m k
    rw [stateAfter_succ, subdivideTriangle_tlist_locked _ _ h (le_trans hm hx.tc)
      (by rw [hx.sel _ hm]; exact hs) (by omega)]
    exact ih

theorem newMidpoint_eq_midpointOf (m : myObjType) (p v : Nat) (hp : p + 1 ≤ m.tcount)
    (hs : m.selectedT (p + 1) = true) (hv : v < 3) :
    (midpoints (stateAfter m p) (p + 1)).newMidpointVertices v
      = midpointOf m (m.tlist (p + 1) v) (m.tlist (p + 1) ((v + 1) % 3)) := by
  have hx := stateAfter_extends m p
  rw [(midpointOf_selected m (p + 1) v (by omega) hp hs hv).2]
  show _ = (stateAfter m m.tcount).mesh.tlist (p + 1) v
  rw [stateAfter_tlist_locked m (p + 1) (p + 1) m.tcount (le_refl _) hp hp hs, stateAfter_succ]
  exact ((subdivideTriangle_new _ _ (le_trans hp hx.tc)
    (by rw [hx.sel _ hp]; exact hs)).2.2.2.1 v hv).symm
theorem stripMesh_adjInRange : AdjInRange stripMesh := by
  intro t v h1 h2 h3
  change t ≤ 4 at h2
  interval_cases t <;> interval_cases v <;> decide

theorem stitch_split_sets (T : Nat → Nat → Nat) (a : Nat → Nat) (A n k mid : Nat) (hk : k < 3)
    (r1 : T A k = a k) (r2 : T A ((k + 1) % 3) = mid) (r3 : T A ((k + 2) % 3) = a ((k + 2) % 3))
    (r4 : T n 0 = a ((k + 1) % 3)) (r5 : T n 1 = a ((k + 2) % 3)) (r6 : T n 2 = mid)
    (hd : a 0 ≠ a 1 ∧ a 1 ≠ a 2 ∧ a 0 ≠ a 2) (m0 : a 0 < mid) (m1 : a 1 < mid)
    (m2 : a 2 < mid) :
    (T A 0 = mid ∨ T A 1 = mid ∨ T A 2 = mid) ∧ (T n 0 = mid ∨ T n 1 = mid ∨ T n 2 = mid) ∧
    (T A 0 = a ((k + 2) % 3) ∨ T A 1 = a ((k + 2) % 3) ∨ T A 2 = a ((k + 2) % 3)) ∧
    (T n 0 = a ((k + 2) % 3) ∨ T n 1 = a ((k + 2) % 3) ∨ T n 2 = a ((k + 2) % 3)) ∧
    (T A 0 = a k ∨ T A 1 = a k ∨ T A 2 = a k) ∧
    ¬ (T A 0 = a ((k + 1) % 3) ∨ T A 1 = a ((k + 1) % 3) ∨ T A 2 = a ((k + 1) % 3)) ∧
    (T n 0 = a ((k + 1) % 3) ∨ T n 1 = a ((k + 1) % 3) ∨ T n 2 = a ((k + 1) % 3)) ∧
    ¬ (T n 0 = a k ∨ T n 1 = a k ∨ T n 2 = a k) := by
  obtain ⟨d1, d2, d3⟩ := hd
  interval_cases k
  · simp only [Nat.reduceAdd, Nat.reduceMod] at r1 r2 r3 r4 r5 r6 ⊢
    rw [r1, r2, r3, r4, r5, r6]
    refine ⟨Or.inr (Or.inl rfl), Or.inr (Or.inr rfl), Or.inr (Or.inr rfl), Or.inr (Or.inl rfl),
      Or.inl rfl, ?_, Or.inl rfl, ?_⟩
    · rintro (e | e | e)
      · exact d1 e
      · omega
      · exact d2 e.symm
    · rintro (e | e | e)
      · exact d1 e.symm
      · exact d3 e.symm
      · omega
  · simp only [Nat.reduceAdd, Nat.reduceMod] at r1 r2 r3 r4 r5 r6 ⊢
    rw [r1, r2, r3, r4, r5, r6]
    refine ⟨Or.inr (Or.inr rfl), Or.inr (Or.inr rfl), Or.inl rfl, Or.inr (Or.inl rfl),
      Or.inr (Or.inl rfl), ?_, Or.inl rfl, ?_⟩
    · rintro (e | e | e)
      · exact d3 e
      · exact d2 e
      · omega
    · rintro (e | e | e)
      · exact d2 e.symm
      · exact d1 e
      · omega
  · simp only [Nat.reduceAdd, Nat.reduceMod] at r1 r2 r3 r4 r5 r6 ⊢
    rw [r1, r2, r3, r4, r5, r6]
    refine ⟨Or.inl rfl, Or.inr (Or.inr rfl), Or.inr (Or.inl rfl), Or.inr (Or.inl rfl),
      Or.inr (Or.inr rfl), ?_, Or.inl rfl, ?_⟩
    · rintro (e | e | e)
      · omega
      · exact d1 e.symm
      · exact d3 e.symm
    · rintro (e | e | e)
      · exact d3 e
      · exact d2 e
      · omega

/-- The boundary stitch, one iteration and the case of a neighbour that is stitched
once. Let edge `v` of the selected triangle `t` have the across-edge neighbour `A`,
a triangle of the entry mesh that is not selected, reached at edge index
`k = ver(fnext(makeOrTri(t, v))) % 3`, let `mid` be the midpoint vertex of edge `v`
and `n` the value of `tcount` after the increment of this iteration of the boundary
loop. The iteration appends triangle `n` with the triple `(A[k+1], A[k+2], mid)` and
the normal of `A`, and rewrites entry `k+1` of `A` to `mid`, leaving the other two
entries. When `(t, v)` is the only edge of a selected triangle that leads to `A` and
the adjacency stays inside the mesh, this is what `subdivide` returns: `A` is
`(A[k], mid, A[k+2])` at the places `k, k+1, k+2` and `n` is `(A[k+1], A[k+2], mid)`,
so `A` has the directed edge `mid -> A[k+2]` and `n` the directed edge
`A[k+2] -> mid`; on a well-formed mesh without degenerate triangles each of the two
contains `mid` and `A[k+2]`, `A` contains `A[k]` and not `A[k+1]`, and `n` contains
`A[k+1]` and not `A[k]`. -/
theorem subdivide_stitch_split (d : Derived) (m : myObjType) (t v A k mid n : Nat)
    (h1 : 1 ≤ t) (h2 : t ≤ m.tcount) (h3 : m.selectedT t = true) (hv : v < 3)
    (eA : A = idx (fnext m (makeOrTri t v))) (ek : k = ver (fnext m (makeOrTri t v)) % 3)
    (em : mid = midpointOf m (m.tlist t v) (m.tlist t ((v + 1) % 3)))
    (en : n = (beforeStitch m t v).tcount + 1)
    (hA : A ≤ m.tcount) (hu : m.selectedT A = false) :
    ((beforeStitch m t (v + 1)).tcount = n ∧ m.tcount < n ∧
      (beforeStitch m t (v + 1)).tlist n 0 = (beforeStitch m t v).tlist A ((k + 1) % 3) ∧
      (beforeStitch m t (v + 1)).tlist n 1 = (beforeStitch m t v).tlist A ((k + 2) % 3) ∧
      (beforeStitch m t (v + 1)).tlist n 2 = mid ∧
      (∀ j, j < 3 → (beforeStitch m t (v + 1)).nlist n j = (beforeStitch m t v).nlist A j) ∧
      (beforeStitch m t (v + 1)).tlist A k = (beforeStitch m t v).tlist A k ∧
      (beforeStitch m t (v + 1)).tlist A ((k + 1) % 3) = mid ∧
      (beforeStitch m t (v + 1)).tlist A ((k + 2) % 3)
        = (beforeStitch m t v).tlist A ((k + 2) % 3)) ∧
    (AdjInRange m →
      (∀ t' v', 1 ≤ t' → t' ≤ m.tcount → m.selectedT t' = true → v' < 3 →
        idx (fnext m (makeOrTri t' v')) = A → t' = t ∧ v' = v) →
      (n ≤ (subdivide d m).tcount ∧
        (subdivide d m).tlist A k = m.tlist A k ∧
        (subdivide d m).tlist A ((k + 1) % 3) = mid ∧
        (subdivide d m).tlist A ((k + 2) % 3) = m.tlist A ((k + 2) % 3) ∧
        (subdivide d m).tlist n 0 = m.tlist A ((k + 1) % 3) ∧
        (subdivide d m).tlist n 1 = m.tlist A ((k + 2) % 3) ∧
        (subdivide d m).tlist n 2 = mid ∧
        (∀ j, j < 3 → (subdivide d m).nlist n j = m.nlist A j) ∧
        dirEdge (subdivide d m) A ((k + 1) % 3) = (mid, m.tlist A ((k + 2) % 3)) ∧
        dirEdge (subdivide d m) n 1 = (m.tlist A ((k + 2) % 3), mid)) ∧
      (WellFormed m → DistinctVerts m → 1 ≤ A →
        hasVertex (subdivide d m) A mid ∧ hasVertex (subdivide d m) n mid ∧
        hasVertex (subdivide d m) A (m.tlist A ((k + 2) % 3)) ∧
        hasVertex (subdivide d m) n (m.tlist A ((k + 2) % 3)) ∧
        hasVertex (subdivide d m) A (m.tlist A k) ∧
        ¬ hasVertex (subdivide d m) A (m.tlist A ((k + 1) % 3)) ∧
        hasVertex (subdivide d m) n (m.tlist A ((k + 1) % 3)) ∧
        ¬ hasVertex (subdivide d m) n (m.tlist A k))) := by
  obtain ⟨p, rfl⟩ : ∃ p, t = p + 1 := ⟨t - 1, by omega⟩
  have hb : ∀ w, beforeStitch m (p + 1) w = stitched (stateAfter m p) (p + 1) w := fun w => by
    simp [beforeStitch]
  rw [hb] at en
  rw [hb, hb]
  have hx := stateAfter_extends m p
  have hM : Extends m (stitched (stateAfter m p) (p + 1) v) := hx.trans (stitched_extends _ _ _)
  have hfn : fnext (stitched (stateAfter m p) (p + 1) v) (makeOrTri (p + 1) v)
      = fnext m (makeOrTri (p + 1) v) := by
    simp only [fnext, hM.fn]
  have hk3 : k < 3 := by rw [ek]; exact Nat.mod_lt _ (by decide)
  have hk12 : k ≠ (k + 1) % 3 ∧ (k + 2) % 3 ≠ (k + 1) % 3 := by
    interval_cases k <;> decide
  have hmid := newMidpoint_eq_midpointOf m p v h2 h3 hv
  rw [← em] at hmid
  have hstep := stitchStep_boundary (p + 1) (midpoints (stateAfter m p) (p + 1)).newMidpointVertices
    (stitched (stateAfter m p) (p + 1) v) v
    (by rw [hfn, ← eA, hM.sel _ hA]; exact hu)
    (by rw [hfn, ← eA]; have := hM.tc; omega)
  rw [← stitched_succ, hfn, ← eA, ← ek, ← en, hmid] at hstep
  obtain ⟨s1, s2, s3, s4, s5, s6, s7⟩ := hstep
  have hnm : m.tcount < n := by have := hM.tc; omega
  have step : (stitched (stateAfter m p) (p + 1) (v + 1)).tcount = n ∧ m.tcount < n ∧
      (stitched (stateAfter m p) (p + 1) (v + 1)).tlist n 0
        = (stitched (stateAfter m p) (p + 1) v).tlist A ((k + 1) % 3) ∧
      (stitched (stateAfter m p) (p + 1) (v + 1)).tlist n 1
        = (stitched (stateAfter m p) (p + 1) v).tlist A ((k + 2) % 3) ∧
      (stitched (stateAfter m p) (p + 1) (v + 1)).tlist n 2 = mid ∧
      (∀ j, j < 3 → (stitched (stateAfter m p) (p + 1) (v + 1)).nlist n j
        = (stitched (stateAfter m p) (p + 1) v).nlist A j) ∧
      (stitched (stateAfter m p) (p + 1) (v + 1)).tlist A k
        = (stitched (stateAfter m p) (p + 1) v).tlist A k ∧
      (stitched (stateAfter m p) (p + 1) (v + 1)).tlist A ((k + 1) % 3) = mid ∧
      (stitched (stateAfter m p) (p + 1) (v + 1)).tlist A ((k + 2) % 3)
        = (stitched (stateAfter m p) (p + 1) v).tlist A ((k + 2) % 3) :=
    ⟨s1, hnm, s2, s3, s4, s5, s7 k hk12.1, s6, s7 _ hk12.2⟩
  refine ⟨step, fun hadj huniq => ?_⟩
  -- the row of `A` is the entry row when the stitch is reached
  have hsel' : (stateAfter m p).mesh.selectedT (p + 1) = true := by rw [hx.sel _ h2]; exact h3
  have hAt : A ≠ p + 1 := by
    intro e
    rw [e, h3] at hu
    exact Bool.noConfusion hu
  have hfnS : ∀ w, fnext (stateAfter m p).mesh (makeOrTri (p + 1) w)
      = fnext m (makeOrTri (p + 1) w) := fun w => by simp only [fnext, hx.fn]
  have hrowA : ∀ j, (stitched (stateAfter m p) (p + 1) v).tlist A j = m.tlist A j := by
    intro j
    rw [stitched_tlist_keep _ _ A 0 v (by omega)
      (le_trans hA (hx.trans (stitched_extends _ _ 0)).tc)
      (fun w _ hw => by
        rw [hfnS]
        intro e
        have := (huniq (p + 1) w h1 h2 h3 (by omega) e).2
        omega)]
    show (centralMesh (stateAfter m p) (p + 1)).tlist A j = _
    rw [centralMesh_tlist_other _ _ A hAt, cornerMesh_tlist_old _ _ A (le_trans hA hx.tc)]
    have := stateAfter_tlist_keep m A 0 p (by omega) (by omega) hA
      (fun t' ht1 ht2 hts => ⟨fun e => by rw [e, hts] at hu; exact Bool.noConfusion hu,
        fun w hw e => by
          have := (huniq t' w (by omega) (by omega) hts hw e).1
          omega⟩) j
    exact this
  have hnl : ∀ j, (stitched (stateAfter m p) (p + 1) v).nlist A j = m.nlist A j :=
    fun j => hM.nl A hA j
  -- rows that no later iteration touches
  have hfinal : ∀ h, h ≤ (stitched (stateAfter m p) (p + 1) (v + 1)).tcount →
      (h = A ∨ m.tcount < h) → ∀ j,
      (subdivide d m).tlist h j = (stitched (stateAfter m p) (p + 1) (v + 1)).tlist h j := by
    intro h hh hcase j
    have hst : stateAfter m (p + 1) = ⟨stitched (stateAfter m p) (p + 1) 3,
        (midpoints (stateAfter m p) (p + 1)).edgeVertexMap⟩ := by
      rw [stateAfter_succ]
      simp [subdivideTriangle, hsel']
    have e3 : (stateAfter m (p + 1)).mesh.tlist h j
        = (stitched (stateAfter m p) (p + 1) (v + 1)).tlist h j := by
      rw [hst]
      show (stitched (stateAfter m p) (p + 1) 3).tlist h j = _
      apply stitched_tlist_keep _ _ h (v + 1) 3 (by omega) hh
      intro w hw1 hw2
      rw [hfnS]
      intro e
      rcases hcase with hc | hc
      · have := (huniq (p + 1) w h1 h2 h3 hw2 (by rw [e, hc])).2
        omega
      · have := hadj (p + 1) w h1 h2 hw2
        omega
    show (stateAfter m m.tcount).mesh.tlist h j = _
    rw [← e3]
    apply stateAfter_tlist_keep m h (p + 1) m.tcount h2 (le_refl _)
    · rw [hst]
      exact le_trans hh (stitched_mono _ _ _ _ (by omega)).tc
    · intro t' ht1 ht2 hts
      rcases hcase with hc | hc
      · refine ⟨fun e => ?_, fun w hw e => ?_⟩
        · rw [← hc, e, hts] at hu
          exact Bool.noConfusion hu
        · have := (huniq t' w (by omega) ht2 hts hw (by rw [e, hc])).1
          omega
      · refine ⟨fun e => by omega, fun w hw e => ?_⟩
        have := hadj t' w (by omega) ht2 hw
        omega
  have hnfin : n ≤ (subdivide d m).tcount := by
    show n ≤ (stateAfter m m.tcount).mesh.tcount
    have hst : (stateAfter m (p + 1)).mesh.tcount
        = (stitched (stateAfter m (p + 1 - 1)) (p + 1) 3).tcount :=
      stateAfter_tcount_selected m (p + 1) h1 h2 h3
    simp only [Nat.add_sub_cancel] at hst
    have a1 := (stitched_mono (stateAfter m p) (p + 1) (v + 1) 3 (by omega)).tc
    have a2 := (stateAfter_mono m (p + 1) m.tcount h2).tc
    omega
  have hN : ∀ j, (subdivide d m).tlist n j
      = (stitched (stateAfter m p) (p + 1) (v + 1)).tlist n j :=
    hfinal n (by omega) (Or.inr hnm)
  have hAf : ∀ j, (subdivide d m).tlist A j
      = (stitched (stateAfter m p) (p + 1) (v + 1)).tlist A j :=
    hfinal A (by have := hM.tc; omega) (Or.inl rfl)
  have r1 : (subdivide d m).tlist A k = m.tlist A k := by rw [hAf, step.2.2.2.2.2.2.1, hrowA]
  have r2 : (subdivide d m).tlist A ((k + 1) % 3) = mid := by rw [hAf, s6]
  have r3 : (subdivide d m).tlist A ((k + 2) % 3) = m.tlist A ((k + 2) % 3) := by
    rw [hAf, step.2.2.2.2.2.2.2.2, hrowA]
  have r4 : (subdivide d m).tlist n 0 = m.tlist A ((k + 1) % 3) := by rw [hN, s2, hrowA]
  have r5 : (subdivide d m).tlist n 1 = m.tlist A ((k + 2) % 3) := by rw [hN, s3, hrowA]
  have r6 : (subdivide d m).tlist n 2 = mid := by rw [hN, s4]
  have r7 : ∀ j, j < 3 → (subdivide d m).nlist n j = m.nlist A j := by
    intro j hj
    show (stateAfter m m.tcount).mesh.nlist n j = _
    have hst : stateAfter m (p + 1) = ⟨stitched (stateAfter m p) (p + 1) 3,
        (midpoints (stateAfter m p) (p + 1)).edgeVertexMap⟩ := by
      rw [stateAfter_succ]
      simp [subdivideTriangle, hsel']
    have b1 := (stateAfter_mono m (p + 1) m.tcount h2).nl n (by
      rw [hst]
      exact le_trans (le_of_eq s1.symm) (stitched_mono _ _ _ _ (by omega)).tc) j
    rw [b1, hst]
    show (stitched (stateAfter m p) (p + 1) 3).nlist n j = _
    rw [(stitched_mono (stateAfter m p) (p + 1) (v + 1) 3 (by omega)).nl n (le_of_eq s1.symm) j,
      s5 j hj, hnl]
  refine ⟨⟨hnfin, r1, r2, r3, r4, r5, r6, r7, ?_, ?_⟩, fun hw hd hA1 => ?_⟩
  · show ((subdivide d m).tlist A ((k + 1) % 3), (subdivide d m).tlist A (((k + 1) % 3 + 1) % 3))
      = _
    have e : ((k + 1) % 3 + 1) % 3 = (k + 2) % 3 := by omega
    rw [e, r2, r3]
  · show ((subdivide d m).tlist n 1, (subdivide d m).tlist n 2) = _
    rw [r5, r6]
  · have hmv : m.vcount < mid := by
      have hl := (midpointOf_selected m (p + 1) v h1 h2 h3 hv).1
      rw [← em] at hl
      exact ((loopInv_final m).rng _ (lookup_mem hl)).1
    have hwA := hw A
    have hdA := hd A hA1 hA
    have w0 := (hwA 0 hA1 hA (by decide)).2
    have w1 := (hwA 1 hA1 hA (by decide)).2
    have w2 := (hwA 2 hA1 hA (by decide)).2
    exact stitch_split_sets (subdivide d m).tlist (m.tlist A) A n k mid hk3 r1 r2 r3 r4 r5 r6 hdA
      (by omega) (by omega) (by omega)
theorem stripMesh_stitch_unique (t v : Nat) (h1 : 1 ≤ t) (h2 : t ≤ stripMesh.tcount)
    (h3 : stripMesh.selectedT t = true) (h4 : v < 3)
    (h5 : idx (fnext stripMesh (makeOrTri t v)) = 4) : t = 3 ∧ v = 1 := by
  change t ≤ 4 at h2
  interval_cases t <;> interval_cases v <;> revert h3 h5 <;> decide

/-- The stitch on the strip: edge `1` of triangle `3 = (3,4,5)` leads to the unselected
triangle `4 = (4,6,5)` at edge index `2`; the midpoint of `4-5` is vertex `12`, the
appended triangle is `14 = (4,6,12)` and triangle `4` becomes `(12,6,5)`. -/
theorem subdivide_stitch_split_witness :
    stripMesh.selectedT 3 = true ∧ stripMesh.selectedT 4 = false ∧ AdjInRange stripMesh ∧
    14 ≤ (subdivide keepDerived stripMesh).tcount ∧
    (subdivide keepDerived stripMesh).tlist 4 2 = 5 ∧
    (subdivide keepDerived stripMesh).tlist 4 0 = 12 ∧
    (subdivide keepDerived stripMesh).tlist 4 1 = 6 ∧
    (subdivide keepDerived stripMesh).tlist 14 0 = 4 ∧
    (subdivide keepDerived stripMesh).tlist 14 1 = 6 ∧
    (subdivide keepDerived stripMesh).tlist 14 2 = 12 ∧
    (∀ j, j < 3 → (subdivide keepDerived stripMesh).nlist 14 j = stripMesh.nlist 4 j) ∧
    dirEdge (subdivide keepDerived stripMesh) 4 0 = (12, 6) ∧
    dirEdge (subdivide keepDerived stripMesh) 14 1 = (6, 12) :=
  ⟨by decide, by decide, stripMesh_adjInRange,
    ((subdivide_stitch_split keepDerived stripMesh 3 1 4 2 12 14 (by decide) (by decide)
      (by decide) (by decide) (by decide) (by decide) (by decide) (by decide) (by decide)
      (by decide)).2 stripMesh_adjInRange stripMesh_stitch_unique).1⟩

/-! ## The edge flip -/

theorem flipEdge_rows (m : myObjType) (edge : OrTri)
    (hne : idx (fnext m edge) ≠ idx edge) :
    (∀ j, (flipEdge m edge).tlist (idx edge) j
      = if j = ver edge then m.tlist (idx (fnext m edge)) ((ver (fnext m edge) + 2) % 3)
        else m.tlist (idx edge) j) ∧
    (∀ j, (flipEdge m edge).tlist (idx (fnext m edge)) j
      = if j = (if ver (fnext m edge) < 3 then (ver (fnext m edge) + 1) % 3
            else ver (fnext m edge) % 3)
        then m.tlist (idx edge) ((ver edge + 2) % 3)
        else m.tlist (idx (fnext m edge)) j) := by
  have hne' : idx edge ≠ idx (fnext m edge) := fun e => hne e.symm
  have hv : (ver edge + 2) % 3 ≠ ver edge := by omega
  constructor
  · intro j
    simp [flipEdge, set2, hne']
  · intro j
    simp [flipEdge, set2, hne, hv]

theorem swap_logic (B1 B2 H1 H2 : Nat → Prop) (o dst far1 far2 : Nat)
    (b1 : ∀ x, B1 x ↔ (x = o ∨ x = dst ∨ x = far1))
    (b2 : ∀ x, B2 x ↔ (x = o ∨ x = dst ∨ x = far2))
    (t1 : ∀ x, H1 x ↔ (x = far2 ∨ x = dst ∨ x = far1))
    (t2 : ∀ x, H2 x ↔ (x = far1 ∨ x = o ∨ x = far2)) :
    (∀ x, (B1 x ∨ B2 x) ↔ (x = o ∨ x = dst ∨ x = far1 ∨ x = far2)) ∧
    (∀ x, (H1 x ∨ H2 x) ↔ (x = o ∨ x = dst ∨ x = far1 ∨ x = far2)) ∧
    (o ≠ dst → far1 ≠ o → far1 ≠ dst → far2 ≠ o → far2 ≠ dst →
      ∀ x, (H1 x ∧ H2 x) ↔ (x = far1 ∨ x = far2)) ∧
    (o ≠ dst → far1 ≠ o → far1 ≠ dst → far2 ≠ o → far2 ≠ dst → ¬ (H1 o ∧ H1 dst)) ∧
    (o ≠ dst → far1 ≠ o → far1 ≠ dst → far2 ≠ o → far2 ≠ dst → ¬ (H2 o ∧ H2 dst)) := by
  refine ⟨fun x => ?_, fun x => ?_, fun g1 g2 g3 g4 g5 x => ?_, fun g1 g2 g3 g4 g5 => ?_,
    fun g1 g2 g3 g4 g5 => ?_⟩
  · rw [b1, b2]
    tauto
  · rw [t1, t2]
    tauto
  · rw [t1, t2]
    omega
  · rw [t1, t1]
    omega
  · rw [t2, t2]
    omega

/-- C11. Let `edge = (tri1, ver1)` with `ver1` in `0..2`, `o = org(edge)`,
`dst = dest(edge)`, `far1 = tlist[tri1][(ver1+2)%3]`, and let
`fnext(edge) = (tri2, ver2)`, `tri2 != tri1`, `ver2` in `0..5`, be the same directed
edge `o -> dst` in `tri2`, with `far2 = tlist[tri2][(ver2+2)%3]`. After the flip
`tri1` is `(far2, dst, far1)` at the places `ver1, ver1+1, ver1+2`, the vertices of
`tri2` are `far1`, `o` and `far2`, and the vertices of the two triangles together are
`o, dst, far1, far2` as before. When `o != dst` and neither far vertex is `o` or `dst`,
the common vertices of the two triangles are exactly `far1` and `far2` and neither
triangle contains both `o` and `dst`. -/
theorem flipEdge_diagonal_swap (m : myObjType) (edge : OrTri) (tri1 tri2 o dst far1 far2 : Nat)
    (h1 : ver edge < 3) (h2 : ver (fnext m edge) < 6)
    (e1 : tri1 = idx edge) (e2 : tri2 = idx (fnext m edge)) (hne : tri2 ≠ tri1)
    (eo : o = org m edge) (ed : dst = dest m edge)
    (ef1 : far1 = m.tlist tri1 ((ver edge + 2) % 3))
    (ef2 : far2 = m.tlist tri2 ((ver (fnext m edge) + 2) % 3))
    (ho : org m (fnext m edge) = o) (hd : dest m (fnext m edge) = dst) :
    ((flipEdge m edge).tlist tri1 (ver edge) = far2 ∧
      (flipEdge m edge).tlist tri1 ((ver edge + 1) % 3) = dst ∧
      (flipEdge m edge).tlist tri1 ((ver edge + 2) % 3) = far1) ∧
    (∀ x, hasVertex (flipEdge m edge) tri1 x ↔ (x = far2 ∨ x = dst ∨ x = far1)) ∧
    (∀ x, hasVertex (flipEdge m edge) tri2 x ↔ (x = far1 ∨ x = o ∨ x = far2)) ∧
    (∀ x, (hasVertex m tri1 x ∨ hasVertex m tri2 x) ↔ (x = o ∨ x = dst ∨ x = far1 ∨ x = far2)) ∧
    (∀ x, (hasVertex (flipEdge m edge) tri1 x ∨ hasVertex (flipEdge m edge) tri2 x) ↔
      (x = o ∨ x = dst ∨ x = far1 ∨ x = far2)) ∧
    (o ≠ dst → far1 ≠ o → far1 ≠ dst → far2 ≠ o → far2 ≠ dst →
      (∀ x, (hasVertex (flipEdge m edge) tri1 x ∧ hasVertex (flipEdge m edge) tri2 x) ↔
        (x = far1 ∨ x = far2)) ∧
      ¬ (hasVertex (flipEdge m edge) tri1 o ∧ hasVertex (flipEdge m edge) tri1 dst) ∧
      ¬ (hasVertex (flipEdge m edge) tri2 o ∧ hasVertex (flipEdge m edge) tri2 dst)) := by
  subst e1 e2
  obtain ⟨r1, r2⟩ := flipEdge_rows m edge hne
  rw [← ef2] at r1
  rw [← ef1] at r2
  unfold org at eo ho
  unfold dest at ed hd
  rw [if_pos h1] at eo ed
  have T1 : ((flipEdge m edge).tlist (idx edge) (ver edge) = far2 ∧
      (flipEdge m edge).tlist (idx edge) ((ver edge + 1) % 3) = dst ∧
      (flipEdge m edge).tlist (idx edge) ((ver edge + 2) % 3) = far1) ∧
      (∀ x, hasVertex (flipEdge m edge) (idx edge) x ↔ (x = far2 ∨ x = dst ∨ x = far1)) ∧
      (∀ x, hasVertex m (idx edge) x ↔ (x = o ∨ x = dst ∨ x = far1)) := by
    unfold hasVertex
    simp only [r1]
    clear r1 r2 ho hd ef2
    generalize ver edge = v1 at *
    interval_cases v1 <;>
      simp only [Nat.reduceAdd, Nat.reduceMod, if_true, if_false, Nat.reduceEqDiff,
        OfNat.ofNat_ne_zero, OfNat.zero_ne_ofNat, Nat.succ_ne_self, if_pos, if_neg] at * <;>
      subst eo ed ef1 <;>
      exact ⟨⟨trivial, rfl, rfl⟩,
        fun x => by constructor <;> rintro (rfl | rfl | rfl) <;> simp,
        fun x => by constructor <;> rintro (rfl | rfl | rfl) <;> simp⟩
  have T2 : (∀ x, hasVertex (flipEdge m edge) (idx (fnext m edge)) x ↔
        (x = far1 ∨ x = o ∨ x = far2)) ∧
      (∀ x, hasVertex m (idx (fnext m edge)) x ↔ (x = o ∨ x = dst ∨ x = far2)) := by
    unfold hasVertex
    simp only [r2]
    clear r1 r2 eo ed ef1 T1
    generalize ver (fnext m edge) = v2 at *
    interval_cases v2 <;>
      simp only [Nat.reduceAdd, Nat.reduceMod, Nat.reduceLT, if_true, if_false,
        Nat.reduceEqDiff, OfNat.ofNat_ne_zero, OfNat.zero_ne_ofNat, Nat.succ_ne_self,
        if_pos, if_neg] at * <;>
      subst ho hd ef2 <;>
      exact ⟨fun x => by constructor <;> rintro (rfl | rfl | rfl) <;> simp,
        fun x => by constructor <;> rintro (rfl | rfl | rfl) <;> simp⟩
  obtain ⟨t1, t2, t3⟩ := T1
  obtain ⟨t4, t5⟩ := T2
  obtain ⟨u1, u2, u3, u4, u5⟩ := swap_logic _ _ _ _ o dst far1 far2 t3 t5 t2 t4
  exact ⟨t1, t2, t4, u1, u2, fun g1 g2 g3 g4 g5 =>
    ⟨u3 g1 g2 g3 g4 g5, u4 g1 g2 g3 g4 g5, u5 g1 g2 g3 g4 g5⟩⟩

/-- C11 (witness). The diagonal `3 -> 1` of the square, `edge = (1, 2)` with
`fnext(edge) = (2, 3)`: the flip leaves `1 = (1,2,4)` and `2 = (2,3,4)`. -/
theorem flipEdge_diagonal_swap_witness :
    org squareMesh (fnext squareMesh ⟨1, 2⟩) = 3 ∧ dest squareMesh (fnext squareMesh ⟨1, 2⟩) = 1 ∧
    ((flipEdge squareMesh ⟨1, 2⟩).tlist 1 2 = 4 ∧ (flipEdge squareMesh ⟨1, 2⟩).tlist 1 0 = 1 ∧
      (flipEdge squareMesh ⟨1, 2⟩).tlist 1 1 = 2) ∧
    (∀ x, hasVertex (flipEdge squareMesh ⟨1, 2⟩) 2 x ↔ (x = 2 ∨ x = 3 ∨ x = 4)) :=
  ⟨by decide, by decide,
    (flipEdge_diagonal_swap squareMesh ⟨1, 2⟩ 1 2 3 1 2 4 (by decide) (by decide) (by decide)
      (by decide) (by decide) (by decide) (by decide) (by decide) (by decide) (by decide)
      (by decide)).1,
    (flipEdge_diagonal_swap squareMesh ⟨1, 2⟩ 1 2 3 1 2 4 (by decide) (by decide) (by decide)
      (by decide) (by decide) (by decide) (by decide) (by decide) (by decide) (by decide)
      (by decide)).2.2.1⟩

/-! ## The candidates of `relax` -/

theorem getD_mem_of (S : OrTri → Prop) (c : List OrTri) (i : Nat) (value : OrTri)
    (hv : S value) (hc : ∀ x, x ∈ c → S x) : S (c.getD i value) := by
  by_cases h : i < c.length
  · rw [List.getD_eq_getElem c value h]
    exact hc _ (List.getElem_mem h)
  · rw [List.getD_eq_default c value (by omega)]
    exact hv

theorem set_mem_of (S : OrTri → Prop) (c : List OrTri) (i : Nat) (y : OrTri)
    (hy : S y) (hc : ∀ x, x ∈ c → S x) : ∀ x, x ∈ c.set i y → S x := by
  intro x hx
  rcases List.mem_or_eq_of_mem_set hx with h | h
  · exact hc x h
  · rw [h]; exact hy

theorem pushHeapAux_mem (S : OrTri → Prop) (comp : OrTri → OrTri → Bool) (topIndex : Nat)
    (value : OrTri) (hv : S value) (fuel : Nat) (c : List OrTri) (holeIndex : Nat)
    (hc : ∀ x, x ∈ c → S x) :
    ∀ x, x ∈ pushHeapAux comp topIndex value fuel c holeIndex → S x := by
  induction fuel generalizing c holeIndex with
  | zero =>
    simp only [pushHeapAux]
    exact set_mem_of S c _ _ hv hc
  | succ n ih =>
    simp only [pushHeapAux]
    split
    · exact ih _ _ (set_mem_of S c _ _ (getD_mem_of S c _ _ hv hc) hc)
    · exact set_mem_of S c _ _ hv hc

theorem adjustHeapAux_mem (S : OrTri → Prop) (comp : OrTri → OrTri → Bool) (len : Nat)
    (value : OrTri) (hv : S value) (fuel : Nat) (c : List OrTri) (holeIndex secondChild : Nat)
    (hc : ∀ x, x ∈ c → S x) :
    ∀ x, x ∈ (adjustHeapAux comp len value fuel c holeIndex secondChild).1 → S x := by
  induction fuel generalizing c holeIndex secondChild with
  | zero =>
    simp only [adjustHeapAux]
    exact hc
  | succ n ih =>
    simp only [adjustHeapAux]
    split
    · exact ih _ _ _ (set_mem_of S c _ _ (getD_mem_of S c _ _ hv hc) hc)
    · exact hc

theorem adjustHeap_mem (S : OrTri → Prop) (comp : OrTri → OrTri → Bool) (len : Nat)
    (value : OrTri) (hv : S value) (c : List OrTri) (hc : ∀ x, x ∈ c → S x) :
    ∀ x, x ∈ adjustHeap comp len value c → S x := by
  have h1 := adjustHeapAux_mem S comp len value hv len c 0 0 hc
  simp only [adjustHeap]
  split
  · exact pushHeapAux_mem S comp 0 value hv len _ _
      (set_mem_of S _ _ _ (getD_mem_of S _ _ _ hv h1) h1)
  · exact pushHeapAux_mem S comp 0 value hv len _ _ h1

theorem gnuHeap_conservative : gnuHeap.Conservative := by
  refine ⟨fun comp c => ?_, fun comp c => ?_⟩
  · show ∀ x, x ∈ gnuPushHeap comp c → x ∈ c
    unfold gnuPushHeap
    split
    · exact fun x hx => hx
    · next value hl =>
      exact pushHeapAux_mem (fun x => x ∈ c) comp 0 value (List.mem_of_getLast?_eq_some hl) _ c _
        (fun x hx => hx)
  · show ∀ x, x ∈ gnuPopHeap comp c → x ∈ c
    unfold gnuPopHeap
    split
    · split
      · next value top hl hh =>
        exact adjustHeap_mem (fun x => x ∈ c) comp _ value (List.mem_of_getLast?_eq_some hl) _
          (set_mem_of (fun x => x ∈ c) c _ top (List.mem_of_mem_head? (by rw [hh]; rfl)) (fun x hx => hx))
      · exact fun x hx => hx
    · exact fun x hx => hx

theorem queuePush_mem (H : HeapOps) (hC : H.Conservative) (m : myObjType) (q : List OrTri)
    (e x : OrTri) (hx : x ∈ queuePush H m q e) : x ∈ q ∨ x = e := by
  have := hC.1 _ _ x hx
  simpa using this

theorem queuePop_mem (H : HeapOps) (hC : H.Conservative) (m : myObjType) (q : List OrTri)
    (x : OrTri) (hx : x ∈ queuePop H m q) : x ∈ q :=
  hC.2 _ _ x (List.mem_of_mem_dropLast hx)

theorem enqueueEdge_candidates (H : HeapOps) (hC : H.Conservative) (m : myObjType) (t : Nat)
    (ht1 : 1 ≤ t) (ht2 : t ≤ m.tcount) (hs : m.selectedT t = true) (q : List OrTri) (i : Nat)
    (hi : i < 3) (hq : ∀ x, x ∈ q → IsCandidate m x) :
    ∀ x, x ∈ enqueueEdge H m t q i → IsCandidate m x := by
  unfold enqueueEdge
  simp only []
  split
  · exact hq
  · next hc =>
    rw [not_or] at hc
    intro x hx
    rcases queuePush_mem H hC m q _ x hx with h | h
    · exact hq x h
    · rw [h]
      exact ⟨ht1, ht2, hi, hs, hc.1, by simpa using hc.2⟩

theorem enqueueTriangle_candidates (H : HeapOps) (hC : H.Conservative) (m : myObjType) (t : Nat)
    (ht1 : 1 ≤ t) (ht2 : t ≤ m.tcount) (q : List OrTri)
    (hq : ∀ x, x ∈ q → IsCandidate m x) :
    ∀ x, x ∈ enqueueTriangle H m q t → IsCandidate m x := by
  unfold enqueueTriangle
  split
  · exact hq
  · next hs =>
    have hs' : m.selectedT t = true := by simpa using hs
    rw [foldl3]
    exact enqueueEdge_candidates H hC m t ht1 ht2 hs' _ 2 (by decide)
      (enqueueEdge_candidates H hC m t ht1 ht2 hs' _ 1 (by decide)
        (enqueueEdge_candidates H hC m t ht1 ht2 hs' _ 0 (by decide) hq))

theorem enqueue_fold_candidates (H : HeapOps) (hC : H.Conservative) (m : myObjType)
    (l : List Nat) (hl : ∀ t, t ∈ l → 1 ≤ t ∧ t ≤ m.tcount) (q : List OrTri)
    (hq : ∀ x, x ∈ q → IsCandidate m x) :
    ∀ x, x ∈ l.foldl (enqueueTriangle H m) q → IsCandidate m x := by
  induction l generalizing q with
  | nil => exact hq
  | cons t l ih =>
    rw [List.foldl_cons]
    exact ih (fun t' ht' => hl t' (List.mem_cons_of_mem _ ht')) _
      (enqueueTriangle_candidates H hC m t (hl t (List.mem_cons_self _ _)).1
        (hl t (List.mem_cons_self _ _)).2 q hq)

theorem enqueueAll_candidates (H : HeapOps) (hC : H.Conservative) (m : myObjType) :
    ∀ x, x ∈ enqueueAll H m → IsCandidate m x := by
  apply enqueue_fold_candidates H hC m
  · intro t ht
    rw [List.mem_range'_1] at ht
    omega
  · intro x hx
    exact absurd hx (List.not_mem_nil _)

theorem relaxBody_queue_mem (H : HeapOps) (hC : H.Conservative)
    (accept : myObjType → Nat → Nat → Bool) (s : RelaxState) :
    ∀ x, x ∈ (relaxBody H accept s).edgeQueue → x ∈ s.edgeQueue := by
  unfold relaxBody
  split
  · exact fun x hx => hx
  · next edge rest hq =>
    simp only []
    have hp := queuePop_mem H hC s.mesh s.edgeQueue
    split
    · exact hp
    · split
      · exact hp
      · exact hp

/-- The invariant of the flip loop on the selection: the queue holds candidates only
and every triangle in `modifiedTriangles` is selected. -/
theorem relaxLoop_candidates (H : HeapOps) (hC : H.Conservative)
    (accept : myObjType → Nat → Nat → Bool) (step : Int) (m : myObjType) (k : Nat) :
    (∀ x, x ∈ (relaxLoop H accept step k (relaxInit H m)).edgeQueue → IsCandidate m x) ∧
    (∀ t, t ∈ (relaxLoop H accept step k (relaxInit H m)).modifiedTriangles →
      m.selectedT t = true) := by
  induction k with
  | zero =>
    exact ⟨enqueueAll_candidates H hC m, fun t ht => absurd ht (List.not_mem_nil _)⟩
  | succ n ih =>
    rw [relaxLoop_succ]
    split
    · refine ⟨fun x hx => ih.1 x (relaxBody_queue_mem H hC accept _ x hx), ?_⟩
      rcases relaxBody_cases H accept (relaxLoop H accept step n (relaxInit H m)) with
        ⟨_, _, hmod⟩ | ⟨edge, rest, hq, _, _, _, _, hmod⟩
      · rw [hmod]; exact ih.2
      · rw [hmod]
        have hfn : fnext (relaxLoop H accept step n (relaxInit H m)).mesh edge = fnext m edge := by
          simp only [fnext, (relaxLoop_inv H accept step m n).1]
        have hc := ih.1 edge (by rw [hq]; exact List.mem_cons_self _ _)
        intro t ht
        simp only [List.mem_cons] at ht
        rcases ht with h | h | h
        · rw [h, hfn]; exact hc.2.2.2.2.2
        · rw [h]; exact hc.2.2.2.1
        · exact ih.2 t h
    · exact ih

theorem relax_tlist (H : HeapOps) (d : Derived) (accept : myObjType → Nat → Nat → Bool)
    (step : Int) (m : myObjType) :
    (relax H d accept step m).1.tlist = (relaxFinal H accept step m).mesh.tlist := rfl

/-- C14. Every flip that `relax` performs is on an edge `0..2` of a triangle of the
mesh that is selected at entry, whose across-edge neighbour is another triangle and is
selected at entry: never on a mesh-boundary edge, whose neighbour is the triangle
itself, and never on an edge whose neighbour is unselected. A triangle that is not
selected at entry has its entry triple in the mesh that `relax` leaves. The heap
routines are any that put no new value into the vector. -/
theorem relax_stays_in_selection (H : HeapOps) (hC : H.Conservative) (d : Derived)
    (accept : myObjType → Nat → Nat → Bool) (step : Int) (m : myObjType) :
    (∀ k edge, performsFlip H accept step m k edge →
      ver edge < 3 ∧ 1 ≤ idx edge ∧ idx edge ≤ m.tcount ∧
      idx (fnext m edge) ≠ idx edge ∧
      m.selectedT (idx edge) = true ∧ m.selectedT (idx (fnext m edge)) = true) ∧
    (∀ t, m.selectedT t = false → ∀ k i, (meshBefore H accept step m k).tlist t i = m.tlist t i) ∧
    (∀ t, m.selectedT t = false → ∀ i, (relax H d accept step m).1.tlist t i = m.tlist t i) := by
  have hrow : ∀ t, m.selectedT t = false → ∀ k i,
      (relaxLoop H accept step k (relaxInit H m)).mesh.tlist t i = m.tlist t i := by
    intro t ht k i
    apply (relaxLoop_inv H accept step m k).2 t
    intro hmem
    rw [(relaxLoop_candidates H hC accept step m k).2 t hmem] at ht
    exact Bool.noConfusion ht
  refine ⟨fun k edge hk => ?_, fun t ht k i => hrow t ht k i, fun t ht i => ?_⟩
  · obtain ⟨_, hhead, _⟩ := hk
    have hc := (relaxLoop_candidates H hC accept step m k).1 edge (List.mem_of_mem_head? (by rw [hhead]; rfl))
    exact ⟨hc.2.2.1, hc.1, hc.2.1, hc.2.2.2.2.1, hc.2.2.2.1, hc.2.2.2.2.2⟩
  · rw [relax_tlist]
    exact hrow t ht _ i

/-- C14 (witness). The strip with the heap routines of libstdc++: the unselected
triangle `4` keeps `(4,6,5)`. -/
theorem relax_stays_in_selection_witness :
    gnuHeap.Conservative ∧
    (relax gnuHeap keepDerived (fun _ _ _ => true) 2 stripMesh).1.tlist 4 0 = 4 ∧
    (relax gnuHeap keepDerived (fun _ _ _ => true) 2 stripMesh).1.tlist 4 1 = 6 ∧
    (relax gnuHeap keepDerived (fun _ _ _ => true) 2 stripMesh).1.tlist 4 2 = 5 :=
  ⟨gnuHeap_conservative,
    (relax_stays_in_selection gnuHeap gnuHeap_conservative keepDerived (fun _ _ _ => true) 2
      stripMesh).2.2 4 (by decide) 0,
    (relax_stays_in_selection gnuHeap gnuHeap_conservative keepDerived (fun _ _ _ => true) 2
      stripMesh).2.2 4 (by decide) 1,
    (relax_stays_in_selection gnuHeap gnuHeap_conservative keepDerived (fun _ _ _ => true) 2
      stripMesh).2.2 4 (by decide) 2⟩

/-! ## The angle test -/

theorem angleLe_eq_true (a : Option ℚ) (r : ℚ) :
    angleLe a r = true ↔ ∃ x, a = some x ∧ x ≤ r := by
  cases a with
  | none => simp [angleLe]
  | some y => simp [angleLe]

theorem relaxBody_head (H : HeapOps) (accept : myObjType → Nat → Nat → Bool) (s : RelaxState)
    (edge : OrTri) (hq : s.edgeQueue.head? = some edge) :
    (accept s.mesh (idx edge) (idx (fnext s.mesh edge)) = false →
      (relaxBody H accept s).mesh = s.mesh ∧
      (relaxBody H accept s).numRelaxedEdges = s.numRelaxedEdges ∧
      (relaxBody H accept s).modifiedTriangles = s.modifiedTriangles) ∧
    (idx edge ∉ s.modifiedTriangles → idx (fnext s.mesh edge) ∉ s.modifiedTriangles →
      accept s.mesh (idx edge) (idx (fnext s.mesh edge)) = true →
      (relaxBody H accept s).mesh = flipEdge s.mesh edge ∧
      (relaxBody H accept s).numRelaxedEdges = s.numRelaxedEdges + 1 ∧
      (relaxBody H accept s).modifiedTriangles
        = idx (fnext s.mesh edge) :: idx edge :: s.modifiedTriangles) := by
  unfold relaxBody
  split
  · next hnil =>
    rw [hnil] at hq
    exact Option.noConfusion hq
  · next e rest hcons =>
    rw [hcons] at hq
    simp only [List.head?_cons, Option.some.injEq] at hq
    subst hq
    simp only []
    constructor
    · intro ha
      split
      · exact ⟨rfl, rfl, rfl⟩
      · rw [if_neg (by rw [ha]; exact Bool.false_ne_true)]
        exact ⟨rfl, rfl, rfl⟩
    · intro h1 h2 ha
      rw [if_neg (by rw [not_or]; exact ⟨h1, h2⟩), if_pos ha]
      exact ⟨rfl, rfl, rfl⟩

/-- C13. Take iteration `k + 1` of the flip loop of `relax`, which pops `edge`, and let
`a` be the angle computed for its two triangles in the mesh `s` of that moment. When
`a` exceeds `relaxationMaxDeviation`, the iteration leaves every vertex triple and the
flip counter as they are and performs no flip. When neither triangle is in
`modifiedTriangles`, the iteration performs the flip, replacing the mesh by the
flipped one and raising the counter by one, if and only if `a` is a number that is
`<= relaxationMaxDeviation`; otherwise mesh and counter stay. -/
theorem relax_angle_bound (H : HeapOps) (angle : myObjType → Nat → Nat → Option ℚ)
    (relaxationMaxDeviation : ℚ) (step : Int) (m : myObjType) (k : Nat) (edge : OrTri)
    (s s' : RelaxState) (a : Option ℚ)
    (hs : s = relaxLoop H (angleTest angle relaxationMaxDeviation) step k (relaxInit H m))
    (hs' : s' = relaxLoop H (angleTest angle relaxationMaxDeviation) step (k + 1) (relaxInit H m))
    (ha : a = angle s.mesh (idx edge) (idx (fnext s.mesh edge)))
    (hg : relaxGuard step s = true) (hq : s.edgeQueue.head? = some edge) :
    (∀ x, a = some x → relaxationMaxDeviation < x →
      s'.mesh.tlist = s.mesh.tlist ∧ s'.numRelaxedEdges = s.numRelaxedEdges ∧
      ¬ performsFlip H (angleTest angle relaxationMaxDeviation) step m k edge) ∧
    (idx edge ∉ s.modifiedTriangles → idx (fnext s.mesh edge) ∉ s.modifiedTriangles →
      (performsFlip H (angleTest angle relaxationMaxDeviation) step m k edge ↔
        ∃ x, a = some x ∧ x ≤ relaxationMaxDeviation) ∧
      ((∃ x, a = some x ∧ x ≤ relaxationMaxDeviation) →
        s'.mesh = flipEdge s.mesh edge ∧ s'.numRelaxedEdges = s.numRelaxedEdges + 1) ∧
      (¬ (∃ x, a = some x ∧ x ≤ relaxationMaxDeviation) →
        s'.mesh = s.mesh ∧ s'.numRelaxedEdges = s.numRelaxedEdges)) := by
  have hstep : s' = relaxBody H (angleTest angle relaxationMaxDeviation) s := by
    rw [hs', relaxLoop_succ, ← hs, if_pos hg]
  obtain ⟨b1, b2⟩ := relaxBody_head H (angleTest angle relaxationMaxDeviation) s edge hq
  have hacc : angleTest angle relaxationMaxDeviation s.mesh (idx edge) (idx (fnext s.mesh edge))
      = true ↔ ∃ x, a = some x ∧ x ≤ relaxationMaxDeviation := by
    rw [ha]
    exact angleLe_eq_true _ _
  have hpf : performsFlip H (angleTest angle relaxationMaxDeviation) step m k edge ↔
      (relaxBody H (angleTest angle relaxationMaxDeviation) s).numRelaxedEdges
        = s.numRelaxedEdges + 1 := by
    unfold performsFlip
    simp only [← hs]
    exact ⟨fun h => h.2.2, fun h => ⟨hg, hq, h⟩⟩
  have hno : ¬ (∃ x, a = some x ∧ x ≤ relaxationMaxDeviation) →
      s'.mesh = s.mesh ∧ s'.numRelaxedEdges = s.numRelaxedEdges ∧
      ¬ performsFlip H (angleTest angle relaxationMaxDeviation) step m k edge := by
    intro hn
    have hf : angleTest angle relaxationMaxDeviation s.mesh (idx edge) (idx (fnext s.mesh edge))
        = false := by
      rw [← Bool.not_eq_true, hacc]
      exact hn
    obtain ⟨c1, c2, _⟩ := b1 hf
    rw [hstep]
    refine ⟨c1, c2, fun hp => ?_⟩
    rw [hpf, c2] at hp
    omega
  constructor
  · intro x hx hlt
    have hn : ¬ (∃ y, a = some y ∧ y ≤ relaxationMaxDeviation) := by
      rintro ⟨y, hy, hle⟩
      rw [hx] at hy
      cases hy
      exact absurd hlt (not_lt.mpr hle)
    obtain ⟨c1, c2, c3⟩ := hno hn
    exact ⟨by rw [c1], c2, c3⟩
  · intro h1 h2
    have hyes : (∃ x, a = some x ∧ x ≤ relaxationMaxDeviation) →
        s'.mesh = flipEdge s.mesh edge ∧ s'.numRelaxedEdges = s.numRelaxedEdges + 1 := by
      intro hy
      obtain ⟨c1, c2, _⟩ := b2 h1 h2 (hacc.mpr hy)
      rw [hstep]
      exact ⟨c1, c2⟩
    refine ⟨⟨fun hp => ?_, fun hy => ?_⟩, hyes, fun hn => ⟨(hno hn).1, (hno hn).2.1⟩⟩
    · by_contra hn
      exact (hno hn).2.2 hp
    · rw [hpf, ← hstep]
      exact (hyes hy).2

/-- C13 (witness). The square with the heap routines of libstdc++ and threshold `1`:
with the angle `0` the first iteration flips the diagonal, with the angle `2` it
leaves the triples and the counter. -/
theorem relax_angle_bound_witness :
    relaxGuard 1 (relaxInit gnuHeap squareMesh) = true ∧
    (relaxInit gnuHeap squareMesh).edgeQueue.head? = some ⟨1, 2⟩ ∧
    (performsFlip gnuHeap (angleTest (fun _ _ _ => some 0) 1) 1 squareMesh 0 ⟨1, 2⟩ ↔
      ∃ x, (some 0 : Option ℚ) = some x ∧ x ≤ 1) ∧
    ((relaxLoop gnuHeap (angleTest (fun _ _ _ => some 2) 1) 1 1 (relaxInit gnuHeap squareMesh)).mesh.tlist
        = (relaxInit gnuHeap squareMesh).mesh.tlist ∧
      (relaxLoop gnuHeap (angleTest (fun _ _ _ => some 2) 1) 1 1
          (relaxInit gnuHeap squareMesh)).numRelaxedEdges
        = (relaxInit gnuHeap squareMesh).numRelaxedEdges ∧
      ¬ performsFlip gnuHeap (angleTest (fun _ _ _ => some 2) 1) 1 squareMesh 0 ⟨1, 2⟩) :=
  ⟨by decide, by decide,
    ((relax_angle_bound gnuHeap (fun _ _ _ => some 0) 1 1 squareMesh 0 ⟨1, 2⟩
      (relaxInit gnuHeap squareMesh)
      (relaxLoop gnuHeap (angleTest (fun _ _ _ => some 0) 1) 1 1 (relaxInit gnuHeap squareMesh))
      (some 0) rfl rfl rfl (by decide) (by decide)).2
        (by simp [relaxInit]) (by simp [relaxInit])).1,
    (relax_angle_bound gnuHeap (fun _ _ _ => some 2) 1 1 squareMesh 0 ⟨1, 2⟩
      (relaxInit gnuHeap squareMesh)
      (relaxLoop gnuHeap (angleTest (fun _ _ _ => some 2) 1) 1 1 (relaxInit gnuHeap squareMesh))
      (some 2) rfl rfl rfl (by decide) (by decide)).1 2 rfl (by norm_num)⟩

/-! ## Frame of `relax` -/

theorem relaxLoop_fields (H : HeapOps) (accept : myObjType → Nat → Nat → Bool) (step : Int)
    (m : myObjType) (k : Nat) :
    (relaxLoop H accept step k (relaxInit H m)).mesh.selectedT = m.selectedT ∧
    (relaxLoop H accept step k (relaxInit H m)).mesh.vcount = m.vcount ∧
    (relaxLoop H accept step k (relaxInit H m)).mesh.tcount = m.tcount ∧
    (relaxLoop H accept step k (relaxInit H m)).mesh.vlist = m.vlist := by
  induction k with
  | zero => exact ⟨rfl, rfl, rfl, rfl⟩
  | succ n ih =>
    rw [relaxLoop_succ]
    split
    · rcases relaxBody_cases H accept (relaxLoop H accept step n (relaxInit H m)) with
        ⟨_, hm, _⟩ | ⟨edge, rest, _, _, _, _, hm, _⟩
      · rw [hm]; exact ih
      · rw [hm]; exact ih
    · exact ih

theorem relaxLoop_stop (H : HeapOps) (accept : myObjType → Nat → Nat → Bool) (step : Int)
    (s : RelaxState) (j k : Nat) (hjk : j ≤ k)
    (hg : relaxGuard step (relaxLoop H accept step j s) = false) :
    relaxLoop H accept step k s = relaxLoop H accept step j s := by
  induction k, hjk using Nat.le_induction with
  | base => rfl
  | succ n _ ih =>
    rw [relaxLoop_succ, ih, if_neg (by rw [hg]; exact Bool.false_ne_true)]

theorem relaxLoop_frozen (H : HeapOps) (accept : myObjType → Nat → Nat → Bool) (step : Int)
    (s : RelaxState) (j k : Nat) (hjk : j ≤ k) (t : Nat)
    (ht : t ∈ (relaxLoop H accept step j s).modifiedTriangles) (i : Nat) :
    (relaxLoop H accept step k s).mesh.tlist t i = (relaxLoop H accept step j s).mesh.tlist t i := by
  induction k, hjk using Nat.le_induction with
  | base => rfl
  | succ n hn ih =>
    have hmem := relaxLoop_modified_mono H accept step s j n hn t ht
    rw [relaxLoop_succ]
    split
    · rcases relaxBody_cases H accept (relaxLoop H accept step n s) with
        ⟨_, hm, _⟩ | ⟨edge, rest, _, h1, h2, _, hm, _⟩
      · rw [hm]; exact ih
      · rw [hm, flipEdge_tlist_other _ _ _ (fun e => h1 (e ▸ hmem)) (fun e => h2 (e ▸ hmem))]
        exact ih
    · exact ih

theorem relaxLoop_modified_flipped (H : HeapOps) (accept : myObjType → Nat → Nat → Bool)
    (step : Int) (m : myObjType) (k : Nat) :
    ∀ t, t ∈ (relaxLoop H accept step k (relaxInit H m)).modifiedTriangles →
      ∃ j edge, j < k ∧ performsFlip H accept step m j edge ∧
        (t = idx edge ∨ t = idx (fnext m edge)) := by
  induction k with
  | zero => exact fun t ht => absurd ht (List.not_mem_nil _)
  | succ n ih =>
    have hold : ∀ t, t ∈ (relaxLoop H accept step n (relaxInit H m)).modifiedTriangles →
        ∃ j edge, j < n + 1 ∧ performsFlip H accept step m j edge ∧
          (t = idx edge ∨ t = idx (fnext m edge)) := by
      intro t ht
      obtain ⟨j, edge, h1, h2, h3⟩ := ih t ht
      exact ⟨j, edge, by omega, h2, h3⟩
    rw [relaxLoop_succ]
    split
    · next hg =>
      rcases relaxBody_cases H accept (relaxLoop H accept step n (relaxInit H m)) with
        ⟨_, _, hmod⟩ | ⟨edge, rest, hq, _, _, hn, _, hmod⟩
      · rw [hmod]; exact hold
      · rw [hmod]
        have hfn : fnext (relaxLoop H accept step n (relaxInit H m)).mesh edge = fnext m edge := by
          simp only [fnext, (relaxLoop_inv H accept step m n).1]
        have hp : performsFlip H accept step m n edge := ⟨hg, by rw [hq]; rfl, hn⟩
        intro t ht
        simp only [List.mem_cons] at ht
        rcases ht with h | h | h
        · exact ⟨n, edge, by omega, hp, Or.inr (by rw [h, hfn])⟩
        · exact ⟨n, edge, by omega, hp, Or.inl h⟩
        · exact hold t h
    · exact hold

theorem performsFlip_lt (H : HeapOps) (hL : H.Lawful) (accept : myObjType → Nat → Nat → Bool)
    (step : Int) (m : myObjType) (k : Nat) (edge : OrTri)
    (hp : performsFlip H accept step m k edge) : k < (enqueueAll H m).length := by
  by_contra hk
  have hdone := relaxLoop_done H hL accept step (enqueueAll H m).length (relaxInit H m) (le_refl _)
  have := relaxLoop_stop H accept step (relaxInit H m) (enqueueAll H m).length k (by omega) hdone
  have hg := hp.1
  rw [this, hdone] at hg
  exact Bool.noConfusion hg

theorem distinct3 (a : Nat → Nat) (h : a 0 ≠ a 1 ∧ a 1 ≠ a 2 ∧ a 0 ≠ a 2) (k : Nat) (hk : k < 3) :
    a ((k + 2) % 3) ≠ a k ∧ a ((k + 2) % 3) ≠ a ((k + 1) % 3) := by
  obtain ⟨h1, h2, h3⟩ := h
  interval_cases k
  · exact ⟨fun e => h3 e.symm, fun e => h2 e.symm⟩
  · exact ⟨h1, fun e => h3 e⟩
  · exact ⟨h2, h1.symm⟩

/-- The rows of the two triangles of a flip in the mesh that the flip loop ends
with. -/
theorem relaxFinal_flipped_rows (H : HeapOps) (hL : H.Lawful) (hC : H.Conservative)
    (accept : myObjType → Nat → Nat → Bool) (step : Int) (m : myObjType) (k : Nat) (edge : OrTri)
    (hp : performsFlip H accept step m k edge) :
    (∀ j, (relaxFinal H accept step m).mesh.tlist (idx edge) j
      = if j = ver edge then m.tlist (idx (fnext m edge)) ((ver (fnext m edge) + 2) % 3)
        else m.tlist (idx edge) j) ∧
    (∀ j, (relaxFinal H accept step m).mesh.tlist (idx (fnext m edge)) j
      = if j = (if ver (fnext m edge) < 3 then (ver (fnext m edge) + 1) % 3
            else ver (fnext m edge) % 3)
        then m.tlist (idx edge) ((ver edge + 2) % 3)
        else m.tlist (idx (fnext m edge)) j) := by
  have hlt := performsFlip_lt H hL accept step m k edge hp
  have hcand := (relaxLoop_candidates H hC accept step m k).1 edge
    (List.mem_of_mem_head? (by rw [hp.2.1]; rfl))
  obtain ⟨n1, n2, hflip, m1, m2⟩ := performsFlip_spec H accept step m k edge hp
  have hinv := relaxLoop_inv H accept step m k
  have hfn : fnext (relaxLoop H accept step k (relaxInit H m)).mesh edge = fnext m edge := by
    simp only [fnext, hinv.1]
  simp only [meshBefore] at hflip
  have hrows := flipEdge_rows (relaxLoop H accept step k (relaxInit H m)).mesh edge
    (by rw [hfn]; exact hcand.2.2.2.2.1)
  rw [hfn, ← hflip] at hrows
  simp only [hinv.2 _ n1, hinv.2 _ n2] at hrows
  constructor
  · intro j
    show (relaxLoop H accept step (enqueueAll H m).length (relaxInit H m)).mesh.tlist (idx edge) j = _
    rw [relaxLoop_frozen H accept step _ (k + 1) _ hlt _ m1, hrows.1]
  · intro j
    show (relaxLoop H accept step (enqueueAll H m).length (relaxInit H m)).mesh.tlist
      (idx (fnext m edge)) j = _
    rw [relaxLoop_frozen H accept step _ (k + 1) _ hlt _ m2, hrows.2]

/-- C15. `relax` leaves the selection flags, `vcount`, `tcount` and every vertex
position as they are. A slot of `tlist` whose triple differs at return is the slot of
one of the two triangles of a flip that the call performed. For heap routines that
rearrange the vector, each flip leaves `tri1` with its entry triple but for entry
`ver1` and `tri2` with its entry triple but for one entry; on a mesh without
degenerate triangles and with consistent adjacency that entry does change, so exactly
one entry of each of the two triples changes. With a maximum flip count of `0` or
less, and when no flip is performed, `tlist` is unchanged; no flip is performed when
the acceptance test fails for every pair. -/
theorem relax_frame (H : HeapOps) (d : Derived) (accept : myObjType → Nat → Nat → Bool)
    (step : Int) (m : myObjType) :
    ((relax H d accept step m).1.selectedT = m.selectedT ∧
      (relax H d accept step m).1.vcount = m.vcount ∧
      (relax H d accept step m).1.tcount = m.tcount ∧
      (relax H d accept step m).1.vlist = m.vlist) ∧
    (∀ t i, (relax H d accept step m).1.tlist t i ≠ m.tlist t i →
      ∃ k edge, performsFlip H accept step m k edge ∧
        (t = idx edge ∨ t = idx (fnext m edge))) ∧
    (H.Lawful → H.Conservative → ∀ k edge, performsFlip H accept step m k edge →
      (∀ j, j ≠ ver edge → (relax H d accept step m).1.tlist (idx edge) j = m.tlist (idx edge) j) ∧
      (∀ j, j ≠ (if ver (fnext m edge) < 3 then (ver (fnext m edge) + 1) % 3
            else ver (fnext m edge) % 3) →
        (relax H d accept step m).1.tlist (idx (fnext m edge)) j
          = m.tlist (idx (fnext m edge)) j) ∧
      (DistinctVerts m → AdjConsistent m →
        (relax H d accept step m).1.tlist (idx edge) (ver edge)
          ≠ m.tlist (idx edge) (ver edge) ∧
        (relax H d accept step m).1.tlist (idx (fnext m edge))
            (if ver (fnext m edge) < 3 then (ver (fnext m edge) + 1) % 3
              else ver (fnext m edge) % 3)
          ≠ m.tlist (idx (fnext m edge))
            (if ver (fnext m edge) < 3 then (ver (fnext m edge) + 1) % 3
              else ver (fnext m edge) % 3))) ∧
    (step ≤ 0 → (relax H d accept step m).1.tlist = m.tlist) ∧
    ((∀ k edge, ¬ performsFlip H accept step m k edge) →
      (relax H d accept step m).1.tlist = m.tlist) ∧
    ((∀ m' tri1 tri2, accept m' tri1 tri2 = false) →
      (relax H d accept step m).1.tlist = m.tlist) := by
  have hchg : ∀ t i, (relax H d accept step m).1.tlist t i ≠ m.tlist t i →
      ∃ k edge, performsFlip H accept step m k edge ∧
        (t = idx edge ∨ t = idx (fnext m edge)) := by
    intro t i hne
    rw [relax_tlist] at hne
    by_cases hmem : t ∈ (relaxFinal H accept step m).modifiedTriangles
    · obtain ⟨j, edge, _, h2, h3⟩ := relaxLoop_modified_flipped H accept step m _ t hmem
      exact ⟨j, edge, h2, h3⟩
    · exact absurd ((relaxLoop_inv H accept step m _).2 t hmem i) hne
  have hnone : (∀ k edge, ¬ performsFlip H accept step m k edge) →
      (relax H d accept step m).1.tlist = m.tlist := by
    intro hno
    funext t i
    by_contra hne
    obtain ⟨k, edge, hp, _⟩ := hchg t i hne
    exact hno k edge hp
  refine ⟨?_, hchg, ?_, ?_, hnone, ?_⟩
  · exact relaxLoop_fields H accept step m _
  · intro hL hC k edge hp
    obtain ⟨r1, r2⟩ := relaxFinal_flipped_rows H hL hC accept step m k edge hp
    rw [relax_tlist]
    refine ⟨fun j hj => by rw [r1, if_neg hj], fun j hj => by rw [r2, if_neg hj], ?_⟩
    intro hd hadj
    have hcand := (relaxLoop_candidates H hC accept step m k).1 edge
      (List.mem_of_mem_head? (by rw [hp.2.1]; rfl))
    obtain ⟨c1, c2, c3, _, c5, _⟩ := hcand
    have hA := hadj (idx edge) (ver edge) c1 c2 c3
    have hfe : fnext m (makeOrTri (idx edge) (ver edge)) = fnext m edge := rfl
    rw [hfe] at hA
    obtain ⟨a1, a2, a3⟩ := hA
    have hedge := (a3 c5).1
    unfold edgeOf at hedge
    have d1 := distinct3 (m.tlist (idx edge)) (hd _ c1 c2) (ver edge) c3
    have d2 := distinct3 (m.tlist (idx (fnext m edge))) (hd _ a1 a2) (ver (fnext m edge) % 3)
      (Nat.mod_lt _ (by decide))
    have e2 : (ver (fnext m edge) % 3 + 2) % 3 = (ver (fnext m edge) + 2) % 3 := by omega
    rw [e2] at d2
    rw [r1, r2, if_pos rfl, if_pos rfl]
    rw [Sym2.eq_iff] at hedge
    constructor
    · intro e
      rcases hedge with ⟨g1, _⟩ | ⟨_, g2⟩
      · exact d2.1 (e.trans g1.symm)
      · exact d2.2 (e.trans g2.symm)
    · by_cases hv : ver (fnext m edge) < 3
      · rw [if_pos hv]
        have e3 : ver (fnext m edge) % 3 = ver (fnext m edge) := Nat.mod_eq_of_lt hv
        rw [e3] at hedge
        intro e
        rcases hedge with ⟨_, g2⟩ | ⟨_, g2⟩
        · exact d1.2 (e.trans g2)
        · exact d1.1 (e.trans g2)
      · rw [if_neg hv]
        intro e
        rcases hedge with ⟨g1, _⟩ | ⟨g1, _⟩
        · exact d1.1 (e.trans g1)
        · exact d1.2 (e.trans g1)
  · intro hstep
    have hg : relaxGuard step (relaxLoop H accept step 0 (relaxInit H m)) = false := by
      show relaxGuard step (relaxInit H m) = false
      simp only [relaxGuard, relaxInit, Bool.and_eq_false_iff, decide_eq_false_iff_not]
      right
      omega
    rw [relax_tlist]
    show (relaxLoop H accept step (enqueueAll H m).length (relaxInit H m)).mesh.tlist = _
    rw [relaxLoop_stop H accept step (relaxInit H m) 0 _ (Nat.zero_le _) hg]
    rfl
  · intro hacc
    apply hnone
    intro k edge hp
    rcases relaxBody_cases H accept (relaxLoop H accept step k (relaxInit H m)) with
      ⟨hn, _, _⟩ | ⟨e, rest, hq, h1, h2, _, _, _⟩
    · have := hp.2.2
      rw [hn] at this
      omega
    · have hb := (relaxBody_head H accept _ e (by rw [hq]; rfl)).1 (hacc _ _ _)
      have := hp.2.2
      rw [hb.2.1] at this
      omega

theorem squareMesh_distinctVerts : DistinctVerts squareMesh := by
  intro t h1 h2
  change t ≤ 2 at h2
  interval_cases t <;> decide

theorem squareMesh_adjConsistent : AdjConsistent squareMesh := by
  intro t v h1 h2 h3
  change t ≤ 2 at h2
  interval_cases t <;> interval_cases v <;> decide

/-- C15 (witness). The square with the heap routines of libstdc++ and every pair
accepted: the flip of the diagonal changes entry `2` of triangle `1` and entry `0` of
triangle `2`, and no other entry of the two triples. -/
theorem relax_frame_witness :
    gnuHeap.Lawful ∧ gnuHeap.Conservative ∧
    performsFlip gnuHeap (fun _ _ _ => true) 1 squareMesh 0 ⟨1, 2⟩ ∧
    DistinctVerts squareMesh ∧ AdjConsistent squareMesh ∧
    (∀ j, j ≠ 2 → (relax gnuHeap keepDerived (fun _ _ _ => true) 1 squareMesh).1.tlist 1 j
      = squareMesh.tlist 1 j) ∧
    (∀ j, j ≠ 0 → (relax gnuHeap keepDerived (fun _ _ _ => true) 1 squareMesh).1.tlist 2 j
      = squareMesh.tlist 2 j) ∧
    (relax gnuHeap keepDerived (fun _ _ _ => true) 1 squareMesh).1.tlist 1 2
      ≠ squareMesh.tlist 1 2 ∧
    (relax gnuHeap keepDerived (fun _ _ _ => true) 1 squareMesh).1.tlist 2 0
      ≠ squareMesh.tlist 2 0 :=
  ⟨gnuHeap_lawful, gnuHeap_conservative, squareMesh_performsFlip, squareMesh_distinctVerts,
    squareMesh_adjConsistent,
    ((relax_frame gnuHeap keepDerived (fun _ _ _ => true) 1 squareMesh).2.2.1 gnuHeap_lawful
      gnuHeap_conservative 0 ⟨1, 2⟩ squareMesh_performsFlip).1,
    ((relax_frame gnuHeap keepDerived (fun _ _ _ => true) 1 squareMesh).2.2.1 gnuHeap_lawful
      gnuHeap_conservative 0 ⟨1, 2⟩ squareMesh_performsFlip).2.1,
    (((relax_frame gnuHeap keepDerived (fun _ _ _ => true) 1 squareMesh).2.2.1 gnuHeap_lawful
      gnuHeap_conservative 0 ⟨1, 2⟩ squareMesh_performsFlip).2.2 squareMesh_distinctVerts
      squareMesh_adjConsistent).1,
    (((relax_frame gnuHeap keepDerived (fun _ _ _ => true) 1 squareMesh).2.2.1 gnuHeap_lawful
      gnuHeap_conservative 0 ⟨1, 2⟩ squareMesh_performsFlip).2.2 squareMesh_distinctVerts
      squareMesh_adjConsistent).2⟩

/-! ## The quad scenario -/

theorem flipEdge_vertex_sets (m : myObjType) (edge : OrTri) (h1 : ver edge < 3)
    (h2 : ver (fnext m edge) < 6) (hne : idx (fnext m edge) ≠ idx edge)
    (ho : org m (fnext m edge) = org m edge) (hd : dest m (fnext m edge) = dest m edge) :
    (∀ x, hasVertex (flipEdge m edge) (idx edge) x ↔
      (x = m.tlist (idx (fnext m edge)) ((ver (fnext m edge) + 2) % 3) ∨
        x = m.tlist (idx edge) ((ver edge + 1) % 3) ∨
        x = m.tlist (idx edge) ((ver edge + 2) % 3))) ∧
    (∀ x, hasVertex (flipEdge m edge) (idx (fnext m edge)) x ↔
      (x = m.tlist (idx edge) ((ver edge + 2) % 3) ∨ x = m.tlist (idx edge) (ver edge) ∨
        x = m.tlist (idx (fnext m edge)) ((ver (fnext m edge) + 2) % 3))) := by
  obtain ⟨r1, r2⟩ := flipEdge_rows m edge hne
  unfold org at ho
  unfold dest at hd
  rw [if_pos h1] at ho hd
  constructor
  · unfold hasVertex
    simp only [r1]
    clear r1 r2 ho hd
    generalize ver edge = v1 at *
    interval_cases v1 <;>
      simp only [Nat.reduceAdd, Nat.reduceMod, if_true, if_false, Nat.reduceEqDiff,
        OfNat.ofNat_ne_zero, OfNat.zero_ne_ofNat, Nat.succ_ne_self, if_pos, if_neg] <;>
      intro x <;> constructor <;> rintro (rfl | rfl | rfl) <;> simp
  · unfold hasVertex
    simp only [r2]
    clear r1 r2
    generalize m.tlist (idx edge) (ver edge) = o at *
    generalize m.tlist (idx edge) ((ver edge + 1) % 3) = dd at *
    generalize m.tlist (idx edge) ((ver edge + 2) % 3) = f1 at *
    generalize ver (fnext m edge) = v2 at *
    interval_cases v2 <;>
      simp only [Nat.reduceAdd, Nat.reduceMod, Nat.reduceLT, if_true, if_false,
        Nat.reduceEqDiff, OfNat.ofNat_ne_zero, OfNat.zero_ne_ofNat, Nat.succ_ne_self,
        if_pos, if_neg] at * <;>
      subst ho <;>
      intro x <;> constructor <;> rintro (rfl | rfl | rfl) <;> simp
theorem enqueueEdge_skip (H : HeapOps) (m : myObjType) (t : Nat) (q : List OrTri) (v : Nat)
    (h : idx (fnext m (makeOrTri t v)) = t) : enqueueEdge H m t q v = q := by
  unfold enqueueEdge
  simp only []
  rw [if_pos (Or.inl h)]

theorem enqueueEdge_push (H : HeapOps) (m : myObjType) (t : Nat) (q : List OrTri) (v : Nat)
    (h1 : idx (fnext m (makeOrTri t v)) ≠ t)
    (h2 : m.selectedT (idx (fnext m (makeOrTri t v))) = true) :
    enqueueEdge H m t q v = queuePush H m q (makeOrTri t v) := by
  unfold enqueueEdge
  simp only []
  rw [if_neg (by rw [not_or]; exact ⟨h1, by rw [h2]; exact Bool.noConfusion⟩)]

theorem queuePush_length (H : HeapOps) (hL : H.Lawful) (m : myObjType) (q : List OrTri)
    (x : OrTri) : (queuePush H m q x).length = q.length + 1 := by
  unfold queuePush
  rw [hL.1]
  simp

theorem enqueueTriangle_one (H : HeapOps) (m : myObjType) (t t' i : Nat)
    (q : List OrTri) (hs : m.selectedT t = true) (hi : i < 3)
    (h1 : idx (fnext m (makeOrTri t i)) = t') (hne : t' ≠ t) (h2 : m.selectedT t' = true)
    (h3 : ∀ v, v < 3 → v ≠ i → idx (fnext m (makeOrTri t v)) = t) :
    enqueueTriangle H m q t = queuePush H m q (makeOrTri t i) := by
  unfold enqueueTriangle
  rw [if_neg (by rw [hs]; exact Bool.noConfusion), foldl3]
  interval_cases i
  · rw [enqueueEdge_skip H m t _ 2 (h3 2 (by decide) (by decide)),
      enqueueEdge_skip H m t _ 1 (h3 1 (by decide) (by decide)),
      enqueueEdge_push H m t _ 0 (by rw [h1]; exact hne) (by rw [h1]; exact h2)]
  · rw [enqueueEdge_skip H m t _ 2 (h3 2 (by decide) (by decide)),
      enqueueEdge_skip H m t _ 0 (h3 0 (by decide) (by decide)),
      enqueueEdge_push H m t _ 1 (by rw [h1]; exact hne) (by rw [h1]; exact h2)]
  · rw [enqueueEdge_skip H m t _ 1 (h3 1 (by decide) (by decide)),
      enqueueEdge_skip H m t _ 0 (h3 0 (by decide) (by decide)),
      enqueueEdge_push H m t _ 2 (by rw [h1]; exact hne) (by rw [h1]; exact h2)]

theorem quad_queue (H : HeapOps) (hL : H.Lawful) (hC : H.Conservative) (m : myObjType)
    (i j : Nat) (hq : IsQuad m i j) :
    enqueueAll H m = queuePush H m (queuePush H m [] (makeOrTri 1 i)) (makeOrTri 2 j) ∧
    (enqueueAll H m).length = 2 ∧
    (∀ x, x ∈ enqueueAll H m → x = makeOrTri 1 i ∨ x = makeOrTri 2 j) := by
  obtain ⟨htc, hs1, hs2, hi, hj, ⟨a1, _, _, _, _⟩, ⟨b1, _, _, _, _⟩, hb1, hb2⟩ := hq
  have heq : enqueueAll H m
      = queuePush H m (queuePush H m [] (makeOrTri 1 i)) (makeOrTri 2 j) := by
    unfold enqueueAll
    rw [htc]
    show enqueueTriangle H m (enqueueTriangle H m [] 1) 2 = _
    rw [enqueueTriangle_one H m 2 1 j _ hs2 hj b1 (by decide) hs1 hb2,
      enqueueTriangle_one H m 1 2 i _ hs1 hi a1 (by decide) hs2 hb1]
  refine ⟨heq, ?_, ?_⟩
  · rw [heq, queuePush_length H hL, queuePush_length H hL]
    rfl
  · intro x hx
    obtain ⟨c1, c2, c3, _, c5, _⟩ := enqueueAll_candidates H hC m x hx
    rw [htc] at c2
    obtain ⟨t, v⟩ := x
    simp only [idx, ver] at c1 c2 c3 c5
    simp only [makeOrTri]
    have ht : t = 1 ∨ t = 2 := by omega
    rcases ht with rfl | rfl
    · left
      by_cases hv : v = i
      · rw [hv]
      · exact absurd (hb1 v c3 hv) c5
    · right
      by_cases hv : v = j
      · rw [hv]
      · exact absurd (hb2 v c3 hv) c5

theorem hasVertex_congr (m1 m2 : myObjType) (h : m1.tlist = m2.tlist) (t x : Nat) :
    hasVertex m1 t x ↔ hasVertex m2 t x := by
  unfold hasVertex
  rw [h]

/-- C12. In the quad scenario, with a maximum flip count of at least `1`, an
acceptance test that accepts the pair of triangles, and heap routines that rearrange
the vector: the candidate loop pushes the diagonal twice, as edge `i` of triangle `1`
and as edge `j` of triangle `2`, and the queue holds two candidates; `relax` reports
one flip; the first
iteration performs a flip and it is the only one; and in the mesh that `relax` leaves
both triangles contain the two far vertices `b = tlist[1][(i+2)%3]` and
`d = tlist[2][(j+2)%3]`, triangle `1` with one endpoint of the old diagonal and
triangle `2` with the other: the quad is split along its other diagonal. -/
theorem relax_quad_one_flip (H : HeapOps) (hL : H.Lawful) (hC : H.Conservative) (d : Derived)
    (accept : myObjType → Nat → Nat → Bool) (step : Int) (m : myObjType) (i j : Nat)
    (hq : IsQuad m i j) (hstep : 1 ≤ step)
    (ha : accept m 1 2 = true ∧ accept m 2 1 = true) :
    enqueueAll H m = queuePush H m (queuePush H m [] (makeOrTri 1 i)) (makeOrTri 2 j) ∧
    (enqueueAll H m).length = 2 ∧
    (∀ x, x ∈ enqueueAll H m → x = makeOrTri 1 i ∨ x = makeOrTri 2 j) ∧
    (relax H d accept step m).2 = 1 ∧
    (∃ edge, performsFlip H accept step m 0 edge ∧
      ∀ k' edge', performsFlip H accept step m k' edge' → k' = 0 ∧ edge' = edge) ∧
    (∃ p q, s(p, q) = s(m.tlist 1 i, m.tlist 1 ((i + 1) % 3)) ∧
      (∀ x, hasVertex (relax H d accept step m).1 1 x ↔
        (x = m.tlist 1 ((i + 2) % 3) ∨ x = m.tlist 2 ((j + 2) % 3) ∨ x = p)) ∧
      (∀ x, hasVertex (relax H d accept step m).1 2 x ↔
        (x = m.tlist 1 ((i + 2) % 3) ∨ x = m.tlist 2 ((j + 2) % 3) ∨ x = q))) := by
  obtain ⟨hpush, hlen, hmem⟩ := quad_queue H hL hC m i j hq
  obtain ⟨htc, hs1, hs2, hi, hj, ⟨a1, a2, a3, a4, a5⟩, ⟨b1, b2, b3, b4, b5⟩, hb1, hb2⟩ := hq
  -- the first iteration
  obtain ⟨e, rest, hq0⟩ : ∃ e rest, enqueueAll H m = e :: rest := by
    cases h : enqueueAll H m with
    | nil => rw [h] at hlen; exact absurd hlen (by decide)
    | cons e rest => exact ⟨e, rest, rfl⟩
  have he := hmem e (by rw [hq0]; exact List.mem_cons_self _ _)
  have hg0 : relaxGuard step (relaxLoop H accept step 0 (relaxInit H m)) = true := by
    show relaxGuard step (relaxInit H m) = true
    simp only [relaxGuard, relaxInit, hq0, List.isEmpty_cons, Bool.not_false, Bool.true_and,
      decide_eq_true_eq]
    omega
  have hh0 : (relaxInit H m).edgeQueue.head? = some e := by
    show (enqueueAll H m).head? = some e
    rw [hq0]; rfl
  have hacc : accept (relaxInit H m).mesh (idx e) (idx (fnext (relaxInit H m).mesh e)) = true := by
    show accept m (idx e) (idx (fnext m e)) = true
    rcases he with rfl | rfl
    · rw [a1]; exact ha.1
    · rw [b1]; exact ha.2
  have hb0 := (relaxBody_head H accept (relaxInit H m) e hh0).2 (List.not_mem_nil _)
    (List.not_mem_nil _) hacc
  have hp0 : performsFlip H accept step m 0 e := ⟨hg0, hh0, hb0.2.1⟩
  obtain ⟨_, _, hflip, m1, m2⟩ := performsFlip_spec H accept step m 0 e hp0
  have hboth : ∀ t, t = 1 ∨ t = 2 →
      t ∈ (relaxLoop H accept step 1 (relaxInit H m)).modifiedTriangles := by
    intro t ht
    rcases he with rfl | rfl
    · rw [a1] at m2
      rcases ht with rfl | rfl
      · exact m1
      · exact m2
    · rw [b1] at m2
      rcases ht with rfl | rfl
      · exact m2
      · exact m1
  -- no later flip
  have huniq : ∀ k' edge', performsFlip H accept step m k' edge' → k' = 0 ∧ edge' = e := by
    intro k' edge' hp
    rcases Nat.eq_zero_or_pos k' with rfl | hpos
    · refine ⟨rfl, ?_⟩
      have : (relaxInit H m).edgeQueue.head? = some edge' := hp.2.1
      rw [hh0] at this
      exact (Option.some.inj this).symm
    · exfalso
      obtain ⟨n1, _, _, _, _⟩ := performsFlip_spec H accept step m k' edge' hp
      have hc := (relaxLoop_candidates H hC accept step m k').1 edge'
        (List.mem_of_mem_head? (by rw [hp.2.1]; rfl))
      have h12 : idx edge' = 1 ∨ idx edge' = 2 := by
        have c1 := hc.1
        have c2 := hc.2.1
        rw [htc] at c2
        omega
      exact n1 (relaxLoop_modified_mono H accept step _ 1 k' hpos _ (hboth _ h12))
  -- the end of the loop
  have hfinal : (relaxFinal H accept step m).mesh = flipEdge m e ∧
      (relaxFinal H accept step m).numRelaxedEdges = 1 := by
    have h1 : relaxLoop H accept step 1 (relaxInit H m) = relaxBody H accept (relaxInit H m) := by
      rw [relaxLoop_succ, if_pos hg0]
      rfl
    have hm1 : (relaxLoop H accept step 1 (relaxInit H m)).mesh = flipEdge m e := by
      rw [h1, hb0.1]; rfl
    have hn1 : (relaxLoop H accept step 1 (relaxInit H m)).numRelaxedEdges = 1 := by
      rw [h1, hb0.2.1]; rfl
    show (relaxLoop H accept step (enqueueAll H m).length (relaxInit H m)).mesh = _ ∧
      (relaxLoop H accept step (enqueueAll H m).length (relaxInit H m)).numRelaxedEdges = 1
    rw [hlen, relaxLoop_succ]
    split
    · next hg1 =>
      rcases relaxBody_cases H accept (relaxLoop H accept step 1 (relaxInit H m)) with
        ⟨c1, c2, _⟩ | ⟨edge, rest', hq1, _, _, hn, _, _⟩
      · rw [c1, c2]; exact ⟨hm1, hn1⟩
      · have := (huniq 1 edge ⟨hg1, by rw [hq1]; rfl, hn⟩).1
        omega
    · exact ⟨hm1, hn1⟩
  have htl : (relax H d accept step m).1.tlist = (flipEdge m e).tlist := by
    rw [relax_tlist, hfinal.1]
  refine ⟨hpush, hlen, hmem, hfinal.2, ⟨e, hp0, huniq⟩, ?_⟩
  have ej : ∀ w, w % 3 = j → (w + 2) % 3 = (j + 2) % 3 := fun w hw => by omega
  rcases he with rfl | rfl
  · obtain ⟨f1, f2⟩ := flipEdge_vertex_sets m (makeOrTri 1 i) hi a3
      (by rw [a1]; exact (by decide : (2 : Nat) ≠ 1)) a4 a5
    rw [a1, ej _ a2] at f1 f2
    have g1 : ∀ x, hasVertex (flipEdge m (makeOrTri 1 i)) 1 x ↔
        (x = m.tlist 2 ((j + 2) % 3) ∨ x = m.tlist 1 ((i + 1) % 3) ∨
          x = m.tlist 1 ((i + 2) % 3)) := f1
    have g2 : ∀ x, hasVertex (flipEdge m (makeOrTri 1 i)) 2 x ↔
        (x = m.tlist 1 ((i + 2) % 3) ∨ x = m.tlist 1 i ∨ x = m.tlist 2 ((j + 2) % 3)) := f2
    refine ⟨m.tlist 1 ((i + 1) % 3), m.tlist 1 i, Sym2.eq_swap, fun x => ?_, fun x => ?_⟩
    · rw [hasVertex_congr _ _ htl, g1]
      tauto
    · rw [hasVertex_congr _ _ htl, g2]
      tauto
  · obtain ⟨f1, f2⟩ := flipEdge_vertex_sets m (makeOrTri 2 j) hj b3
      (by rw [b1]; exact (by decide : (1 : Nat) ≠ 2)) b4 b5
    have ei : ∀ w, w % 3 = i → (w + 2) % 3 = (i + 2) % 3 := fun w hw => by omega
    rw [b1, ei _ b2] at f1 f2
    have g1 : ∀ x, hasVertex (flipEdge m (makeOrTri 2 j)) 2 x ↔
        (x = m.tlist 1 ((i + 2) % 3) ∨ x = m.tlist 2 ((j + 1) % 3) ∨
          x = m.tlist 2 ((j + 2) % 3)) := f1
    have g2 : ∀ x, hasVertex (flipEdge m (makeOrTri 2 j)) 1 x ↔
        (x = m.tlist 2 ((j + 2) % 3) ∨ x = m.tlist 2 j ∨ x = m.tlist 1 ((i + 2) % 3)) := f2
    have c4 : (if ver (fnext m (makeOrTri 2 j)) < 3
          then m.tlist 1 (ver (fnext m (makeOrTri 2 j)))
          else m.tlist 1 ((ver (fnext m (makeOrTri 2 j)) + 1) % 3)) = m.tlist 2 j := by
      have := b4
      unfold org at this
      rw [b1, if_pos (show ver (makeOrTri 2 j) < 3 from hj)] at this
      exact this
    have c5 : (if ver (fnext m (makeOrTri 2 j)) < 3
          then m.tlist 1 ((ver (fnext m (makeOrTri 2 j)) + 1) % 3)
          else m.tlist 1 (ver (fnext m (makeOrTri 2 j)) % 3)) = m.tlist 2 ((j + 1) % 3) := by
      have := b5
      unfold dest at this
      rw [b1, if_pos (show ver (makeOrTri 2 j) < 3 from hj)] at this
      exact this
    refine ⟨m.tlist 2 j, m.tlist 2 ((j + 1) % 3), ?_, fun x => ?_, fun x => ?_⟩
    · by_cases hv : ver (fnext m (makeOrTri 2 j)) < 3
      · have e3 : ver (fnext m (makeOrTri 2 j)) = i := by omega
        rw [if_pos hv, e3] at c4 c5
        rw [← c4, ← c5]
      · have e4 : (ver (fnext m (makeOrTri 2 j)) + 1) % 3 = (i + 1) % 3 := by omega
        rw [if_neg hv, b2] at c5
        rw [if_neg hv, e4] at c4
        rw [← c4, ← c5]
        exact Sym2.eq_swap
    · rw [hasVertex_congr _ _ htl, g2]
      tauto
    · rw [hasVertex_congr _ _ htl, g1]
      tauto

theorem squareMesh_isQuad : IsQuad squareMesh 2 0 := by
  refine ⟨rfl, by decide, by decide, by decide, by decide, by decide, by decide, ?_, ?_⟩
  · intro v hv hne
    interval_cases v <;> first | decide | exact absurd rfl hne
  · intro v hv hne
    interval_cases v <;> first | decide | exact absurd rfl hne

/-- C12 (witness). The square with the heap routines of libstdc++, every pair accepted
and a maximum flip count of `1`: one flip, and the triangles contain `2` and `4`. -/
theorem relax_quad_one_flip_witness :
    gnuHeap.Lawful ∧ gnuHeap.Conservative ∧ IsQuad squareMesh 2 0 ∧
    (enqueueAll gnuHeap squareMesh).length = 2 ∧
    (relax gnuHeap keepDerived (fun _ _ _ => true) 1 squareMesh).2 = 1 :=
  ⟨gnuHeap_lawful, gnuHeap_conservative, squareMesh_isQuad,
    (relax_quad_one_flip gnuHeap gnuHeap_lawful gnuHeap_conservative keepDerived
      (fun _ _ _ => true) 1 squareMesh 2 0 squareMesh_isQuad (by decide) ⟨rfl, rfl⟩).2.1,
    (relax_quad_one_flip gnuHeap gnuHeap_lawful gnuHeap_conservative keepDerived
      (fun _ _ _ => true) 1 squareMesh 2 0 squareMesh_isQuad (by decide) ⟨rfl, rfl⟩).2.2.2.1⟩

/-! ## The boundary stitch of a neighbour reached from two selected triangles -/

/-- C17. The wedge: edge `0` of the selected triangle `2 = (3,2,5)` has the unselected
across-edge neighbour `A = 3 = (1,2,3)`, reached at edge index `k = 1`, with
`{A[1], A[2]} = {2,3}` the shared edge and midpoint vertex `9`. Triangle `3` was
already rewritten to `(1,6,3)` by the stitch of triangle `1` across the edge `1-2`,
and the adjacency table still names edge index `1`. So `subdivide` returns slot `3`
as `(1,6,9)` and not as `(A[k], mid, A[k+2])`, which is `(1,2,9)` in the places
`0,1,2`: it contains no endpoint of the shared edge `2-3`. The appended triangle
is `11 = (3,1,9)`, and the triangle that holds both endpoints of the shared edge at
return is `7 = (2,3,6)`, which does not contain the midpoint `9`. -/
theorem subdivide_second_stitch_stale :
    wedgeMesh.selectedT 2 = true ∧ idx (fnext wedgeMesh (makeOrTri 2 0)) = 3 ∧
    wedgeMesh.selectedT 3 = false ∧ ver (fnext wedgeMesh (makeOrTri 2 0)) % 3 = 1 ∧
    edgeOf wedgeMesh 3 1 = edgeOf wedgeMesh 2 0 ∧
    (wedgeMesh.tlist 3 1 = 2 ∧ wedgeMesh.tlist 3 2 = 3 ∧ wedgeMesh.tlist 3 0 = 1) ∧
    midpointOf wedgeMesh (wedgeMesh.tlist 2 0) (wedgeMesh.tlist 2 1) = 9 ∧
    (beforeStitch wedgeMesh 2 0).tlist 3 0 = 1 ∧ (beforeStitch wedgeMesh 2 0).tlist 3 1 = 6 ∧
    (beforeStitch wedgeMesh 2 0).tlist 3 2 = 3 ∧
    (subdivide keepDerived wedgeMesh).tlist 3 0 = 1 ∧
    (subdivide keepDerived wedgeMesh).tlist 3 1 = 6 ∧
    (subdivide keepDerived wedgeMesh).tlist 3 2 = 9 ∧
    ¬ hasVertex (subdivide keepDerived wedgeMesh) 3 2 ∧
    ¬ hasVertex (subdivide keepDerived wedgeMesh) 3 3 ∧
    (subdivide keepDerived wedgeMesh).tlist 11 0 = 3 ∧
    (subdivide keepDerived wedgeMesh).tlist 11 1 = 1 ∧
    (subdivide keepDerived wedgeMesh).tlist 11 2 = 9 ∧
    (subdivide keepDerived wedgeMesh).tlist 7 0 = 2 ∧
    (subdivide keepDerived wedgeMesh).tlist 7 1 = 3 ∧
    (subdivide keepDerived wedgeMesh).tlist 7 2 = 6 ∧
    ¬ hasVertex (subdivide keepDerived wedgeMesh) 7 9 := by
  decide

end MeshSubdivision
